import Mathlib

/-!
# A verification development for the python-udbus D-Bus client library

This file gives a shallow embedding, in Lean 4, of the message codec and
session logic of the `python-udbus` repository (`marshalling.py`,
`message.py`, `dbus.py`) and proves properties of that embedding.

Modelling conventions, used consistently below:

* Byte strings (`bytes`, `bytearray`, `BytesIO` contents) are `List Nat`,
  one entry per byte.
* Python `str` values are identified with their UTF-8 byte sequences, so
  `str.encode` / `bytes.decode` are the identity on the model
  representation.  (For `ascii`-encoded fields the bytes of any real value
  are below 128; the codec logic never inspects them.)
* Python `float` values are identified with their 8 IEEE-754 bytes in
  little-endian order, so that `struct.pack` / `struct.unpack` are byte
  reversals; the codec treats them as opaque.
* Dynamically typed Python values flowing through the codec are the
  inductive `PyVal`; `dict`s are association lists in insertion order.
* Exceptions (`KeyError`, `IndexError`, `OverflowError`, `AssertionError`,
  `StopIteration`, `TypeError`, `struct.error`) are modelled by `Option`:
  a raised exception is `none`.
* `DBusUnmarshal` recurses on data whose element count is not bounded by
  the signature (array loops run on byte positions, and on some inputs the
  Python code does not terminate), so the decoder takes an explicit fuel
  argument; exhausting the fuel gives `none`.  All positive statements
  about decoding hold for every sufficiently large fuel.
-/

/-- The `byteorder` strings 'little' / 'big' accepted by the codec. -/
inductive ByteOrder where
  | little
  | big
deriving DecidableEq, Repr

/-- `-pos % a` in Python: the number of zero bytes needed to advance
`pos` to the next multiple of `a`. -/
def padLen (a pos : Nat) : Nat := (a - pos % a) % a

/-- The little-endian base-256 digits of `n`, exactly `size` of them
(the digits of `n % 256 ^ size`). -/
def natToLE : Nat → Nat → List Nat
  | 0, _ => []
  | size + 1, n => n % 256 :: natToLE size (n / 256)

/-- Value of a little-endian digit list (inverse of `natToLE`). -/
def leVal : List Nat → Nat
  | [] => 0
  | b :: t => b % 256 + 256 * leVal t

/-- Lay out little-endian digits in the requested byte order. -/
def ordBytes (bo : ByteOrder) (l : List Nat) : List Nat :=
  match bo with
  | .little => l
  | .big => l.reverse

/-- Whether an integer is representable in `size` bytes with the given
signedness (the acceptance condition of `int.to_bytes`). -/
def intFits (size : Nat) (signed : Bool) (n : Int) : Bool :=
  match signed with
  | true => decide (-(2 ^ (8 * size - 1)) ≤ n ∧ n < 2 ^ (8 * size - 1))
  | false => decide (0 ≤ n ∧ n < 2 ^ (8 * size))

/-- `int.to_bytes(size, byteorder, signed=signed)`: fails (raises
`OverflowError`) when the integer does not fit. -/
def intToBytes (size : Nat) (signed : Bool) (bo : ByteOrder) (n : Int) : Option (List Nat) :=
  if intFits size signed n then
    some (ordBytes bo (natToLE size (n % (2 ^ (8 * size))).toNat))
  else
    none

/-- `int.from_bytes(bytes, byteorder)` (unsigned); `b''` decodes to `0`. -/
def fromBytesU (bo : ByteOrder) (bs : List Nat) : Nat :=
  leVal (ordBytes bo bs)

/-- `int.from_bytes(bytes, byteorder, signed=True)`; two's complement. -/
def fromBytesS (bo : ByteOrder) (bs : List Nat) : Int :=
  let u : Nat := fromBytesU bo bs
  if bs.isEmpty then 0
  else if u < 2 ^ (8 * bs.length - 1) then (u : Int)
  else (u : Int) - 2 ^ (8 * bs.length)

/-- The dynamically typed Python values that flow through the codec.
`vint` covers `int` (bytes, the six integer types and unix fds), `vbool`
covers `bool`, `vfloat` holds the 8 little-endian IEEE-754 bytes of a
`float`, `vstr` holds the encoded bytes of a `str`, `vtuple` covers
`tuple` (structs and variants), `vlist` covers `list` (arrays) and
`vdict` covers `dict` (ordered association list). -/
inductive PyVal where
  | vint (n : Int)
  | vbool (b : Bool)
  | vfloat (bits : List Nat)
  | vstr (bytes : List Nat)
  | vtuple (items : List PyVal)
  | vlist (items : List PyVal)
  | vdict (pairs : List (PyVal × PyVal))
deriving Repr

mutual

/-- Structural equality test for `PyVal` (Python `==` on the value model). -/
def PyVal.beq : PyVal → PyVal → Bool
  | .vint a, .vint b => a == b
  | .vbool a, .vbool b => a == b
  | .vfloat a, .vfloat b => a == b
  | .vstr a, .vstr b => a == b
  | .vtuple a, .vtuple b => PyVal.beqList a b
  | .vlist a, .vlist b => PyVal.beqList a b
  | .vdict a, .vdict b => PyVal.beqPairs a b
  | _, _ => false

/-- Elementwise equality of `PyVal` lists. -/
def PyVal.beqList : List PyVal → List PyVal → Bool
  | [], [] => true
  | a :: as, b :: bs => PyVal.beq a b && PyVal.beqList as bs
  | _, _ => false

/-- Elementwise equality of `PyVal` pair lists. -/
def PyVal.beqPairs : List (PyVal × PyVal) → List (PyVal × PyVal) → Bool
  | [], [] => true
  | a :: as, b :: bs => (PyVal.beq a.1 b.1 && PyVal.beq a.2 b.2) && PyVal.beqPairs as bs
  | _, _ => false

end

mutual

/-- `PyVal.beq` decides equality. -/
theorem PyVal.beq_iff : ∀ {a b : PyVal}, PyVal.beq a b = true ↔ a = b
  | .vint a, .vint b => by simp [PyVal.beq]
  | .vbool a, .vbool b => by simp [PyVal.beq]
  | .vfloat a, .vfloat b => by simp [PyVal.beq]
  | .vstr a, .vstr b => by simp [PyVal.beq]
  | .vtuple a, .vtuple b => by
      simp only [PyVal.beq, PyVal.beqList_iff, PyVal.vtuple.injEq]
  | .vlist a, .vlist b => by
      simp only [PyVal.beq, PyVal.beqList_iff, PyVal.vlist.injEq]
  | .vdict a, .vdict b => by
      simp only [PyVal.beq, PyVal.beqPairs_iff, PyVal.vdict.injEq]
  | .vint _, .vbool _ => by simp [PyVal.beq]
  | .vint _, .vfloat _ => by simp [PyVal.beq]
  | .vint _, .vstr _ => by simp [PyVal.beq]
  | .vint _, .vtuple _ => by simp [PyVal.beq]
  | .vint _, .vlist _ => by simp [PyVal.beq]
  | .vint _, .vdict _ => by simp [PyVal.beq]
  | .vbool _, .vint _ => by simp [PyVal.beq]
  | .vbool _, .vfloat _ => by simp [PyVal.beq]
  | .vbool _, .vstr _ => by simp [PyVal.beq]
  | .vbool _, .vtuple _ => by simp [PyVal.beq]
  | .vbool _, .vlist _ => by simp [PyVal.beq]
  | .vbool _, .vdict _ => by simp [PyVal.beq]
  | .vfloat _, .vint _ => by simp [PyVal.beq]
  | .vfloat _, .vbool _ => by simp [PyVal.beq]
  | .vfloat _, .vstr _ => by simp [PyVal.beq]
  | .vfloat _, .vtuple _ => by simp [PyVal.beq]
  | .vfloat _, .vlist _ => by simp [PyVal.beq]
  | .vfloat _, .vdict _ => by simp [PyVal.beq]
  | .vstr _, .vint _ => by simp [PyVal.beq]
  | .vstr _, .vbool _ => by simp [PyVal.beq]
  | .vstr _, .vfloat _ => by simp [PyVal.beq]
  | .vstr _, .vtuple _ => by simp [PyVal.beq]
  | .vstr _, .vlist _ => by simp [PyVal.beq]
  | .vstr _, .vdict _ => by simp [PyVal.beq]
  | .vtuple _, .vint _ => by simp [PyVal.beq]
  | .vtuple _, .vbool _ => by simp [PyVal.beq]
  | .vtuple _, .vfloat _ => by simp [PyVal.beq]
  | .vtuple _, .vstr _ => by simp [PyVal.beq]
  | .vtuple _, .vlist _ => by simp [PyVal.beq]
  | .vtuple _, .vdict _ => by simp [PyVal.beq]
  | .vlist _, .vint _ => by simp [PyVal.beq]
  | .vlist _, .vbool _ => by simp [PyVal.beq]
  | .vlist _, .vfloat _ => by simp [PyVal.beq]
  | .vlist _, .vstr _ => by simp [PyVal.beq]
  | .vlist _, .vtuple _ => by simp [PyVal.beq]
  | .vlist _, .vdict _ => by simp [PyVal.beq]
  | .vdict _, .vint _ => by simp [PyVal.beq]
  | .vdict _, .vbool _ => by simp [PyVal.beq]
  | .vdict _, .vfloat _ => by simp [PyVal.beq]
  | .vdict _, .vstr _ => by simp [PyVal.beq]
  | .vdict _, .vtuple _ => by simp [PyVal.beq]
  | .vdict _, .vlist _ => by simp [PyVal.beq]

/-- `PyVal.beqList` decides equality of lists. -/
theorem PyVal.beqList_iff : ∀ {a b : List PyVal}, PyVal.beqList a b = true ↔ a = b
  | [], [] => by simp [PyVal.beqList]
  | a :: as, b :: bs => by
      simp only [PyVal.beqList, Bool.and_eq_true, PyVal.beq_iff, PyVal.beqList_iff,
        List.cons.injEq]
  | [], _ :: _ => by simp [PyVal.beqList]
  | _ :: _, [] => by simp [PyVal.beqList]

/-- `PyVal.beqPairs` decides equality of pair lists. -/
theorem PyVal.beqPairs_iff :
    ∀ {a b : List (PyVal × PyVal)}, PyVal.beqPairs a b = true ↔ a = b
  | [], [] => by simp [PyVal.beqPairs]
  | a :: as, b :: bs => by
      simp only [PyVal.beqPairs, Bool.and_eq_true, PyVal.beq_iff, PyVal.beqPairs_iff,
        List.cons.injEq]
      constructor
      · rintro ⟨⟨h1, h2⟩, h3⟩
        exact ⟨Prod.ext h1 h2, h3⟩
      · rintro ⟨h1, h3⟩
        exact ⟨⟨congrArg Prod.fst h1, congrArg Prod.snd h1⟩, h3⟩
  | [], _ :: _ => by simp [PyVal.beqPairs]
  | _ :: _, [] => by simp [PyVal.beqPairs]

end

instance : DecidableEq PyVal := fun a b =>
  decidable_of_iff (PyVal.beq a b = true) PyVal.beq_iff

instance : BEq PyVal := ⟨PyVal.beq⟩

/-- The state of the `BytesIO` buffer used by `DBusMarshal.__call__`:
contents plus the write cursor. -/
structure MState where
  data : List Nat
  pos : Nat
deriving DecidableEq, Repr

/-- `BytesIO.write`: overwrite at the cursor, extending at the end. -/
def MState.write (st : MState) (bs : List Nat) : MState :=
  { data := st.data.take st.pos ++ bs ++ st.data.drop (st.pos + bs.length),
    pos := st.pos + bs.length }

/-- `BytesIO.seek(p, 0)`: absolute positioning. -/
def MState.seekTo (st : MState) (p : Nat) : MState := { st with pos := p }

/-- `BytesIO.seek(0, 2)`: jump to the end of the buffer. -/
def MState.seekEnd (st : MState) : MState := { st with pos := st.data.length }

/-- `DBusMarshal.align`: write `-tell() % alignment` zero bytes. -/
def MState.alignW (a : Nat) (st : MState) : MState :=
  st.write (List.replicate (padLen a st.pos) 0)

/-- `DBusMarshal.integer(size, signed)` applied to one value. -/
def mInt (size : Nat) (signed : Bool) (bo : ByteOrder) (sig : List Nat) (n : Int)
    (st : MState) : Option (List Nat × MState) :=
  (intToBytes size signed bo n).map fun bs => (sig, (MState.alignW size st).write bs)

/-- `DBusMarshal.string(size, encoding)` applied to one value: length
prefix of `size` bytes, the bytes, one NUL.  The length prefix does not
count the NUL.  (`str.encode` is the identity on the byte model.) -/
def mStr (size : Nat) (bo : ByteOrder) (sig : List Nat) (bs : List Nat)
    (st : MState) : Option (List Nat × MState) :=
  (intToBytes size false bo bs.length).map fun lb =>
    let st1 := if size > 1 then MState.alignW size st else st
    (sig, ((st1.write lb).write bs).write [0])

/-- `dict.popitem()`: remove and return the last key/value pair of an
insertion-ordered dict; raises `KeyError` on an empty dict. -/
def dict_popitem (d : List (PyVal × PyVal)) :
    Option ((PyVal × PyVal) × List (PyVal × PyVal)) :=
  match d.getLast? with
  | some kv => some (kv, d.dropLast)
  | none => none

/-- `DBusMarshal.byte` as a dispatch branch: b'%c' % byte, accepting
exactly 0..255. -/
def mByte (sig : List Nat) (v : PyVal) (st : MState) : Option (List Nat × MState) :=
  match v with
  | .vint n => if intFits 1 false n then some (sig, st.write [n.toNat]) else none
  | _ => none

/-- `DBusMarshal.boolean` as a dispatch branch: one marker byte and
three NULs, position fixed by byte order. -/
def mBool (bo : ByteOrder) (sig : List Nat) (v : PyVal) (st : MState) :
    Option (List Nat × MState) :=
  match v with
  | .vbool b =>
      let x : Nat := if b then 1 else 0
      let f : List Nat := match bo with
        | .little => [x, 0, 0, 0]
        | .big => [0, 0, 0, x]
      some (sig, (MState.alignW 4 st).write f)
  | _ => none

/-- `DBusMarshal.integer` as a dispatch branch. -/
def mIntV (size : Nat) (signed : Bool) (bo : ByteOrder) (sig : List Nat) (v : PyVal)
    (st : MState) : Option (List Nat × MState) :=
  match v with
  | .vint n => mInt size signed bo sig n st
  | _ => none

/-- `DBusMarshal.double` as a dispatch branch: struct.pack of the 8 IEEE
bytes. -/
def mDouble (bo : ByteOrder) (sig : List Nat) (v : PyVal) (st : MState) :
    Option (List Nat × MState) :=
  match v with
  | .vfloat bits =>
      if bits.length = 8 then
        some (sig, (MState.alignW 8 st).write (ordBytes bo bits))
      else none
  | _ => none

/-- `DBusMarshal.string` as a dispatch branch. -/
def mStrV (size : Nat) (bo : ByteOrder) (sig : List Nat) (v : PyVal) (st : MState) :
    Option (List Nat × MState) :=
  match v with
  | .vstr bs => mStr size bo sig bs st
  | _ => none

mutual

/-- One dispatch step of `DBusMarshal`: encode one value whose type code
is `c`, with `sig` the rest of the signature stack (head = next code to
pop) and `st` the buffer.  Returns the remaining signature and buffer.
Unknown codes, type mismatches and range errors give `none`.  The
marshaller always terminates in Python; here the nesting of container
values is bounded by an explicit fuel (one unit per container level), so
every statement about encoding is conditioned on success at some fuel. -/
def marshal1 (bo : ByteOrder) (fuel : Nat) (c : Nat) (sig : List Nat) (v : PyVal)
    (st : MState) : Option (List Nat × MState) :=
  if c = 121 then mByte sig v st
  else if c = 98 then mBool bo sig v st
  else if c = 110 then mIntV 2 true bo sig v st
  else if c = 113 then mIntV 2 false bo sig v st
  else if c = 105 then mIntV 4 true bo sig v st
  else if c = 117 then mIntV 4 false bo sig v st
  else if c = 120 then mIntV 8 true bo sig v st
  else if c = 116 then mIntV 8 false bo sig v st
  else if c = 104 then mIntV 4 false bo sig v st
  else if c = 100 then mDouble bo sig v st
  else if c = 115 then mStrV 4 bo sig v st
  else if c = 111 then mStrV 4 bo sig v st
  else if c = 103 then mStrV 1 bo sig v st
  else if c = 97 then
    -- array: pop the element code, write a 4-byte placeholder, encode the
    -- elements from a snapshot of the signature, then backfill the length
    match fuel with
    | 0 => none
    | fuel + 1 =>
      match v with
      | .vlist items =>
          match sig with
          | [] => none
          | c1 :: sigRest =>
            let st2 := (MState.alignW 4 st).write [35, 35, 35, 35]
            let start := st2.pos
            (marshalItems bo fuel c1 sigRest items sigRest st2).bind fun p =>
            (intToBytes 4 false bo (p.2.pos - start)).map fun lenB =>
            (p.1, ((p.2.seekTo (start - 4)).write lenB).seekEnd)
      | _ => none
  else if c = 40 then
    -- struct: align to 8, then consume codes until the matching 41
    match fuel with
    | 0 => none
    | fuel + 1 =>
      match v with
      | .vtuple items => marshalStructItems bo fuel sig items (MState.alignW 8 st)
      | _ => none
  else if c = 118 then
    -- variant: write the inner signature as a 'g' string, then encode the
    -- value against that signature; leftover inner codes are dropped
    match fuel with
    | 0 => none
    | fuel + 1 =>
      match v with
      | .vtuple (.vstr sb :: w :: _) =>
          (mStr 1 bo [] sb st).bind fun q =>
          match sb with
          | [] => none
          | c1 :: sbRest =>
            (marshal1 bo fuel c1 sbRest w q.2).map fun r => (sig, r.2)
      | _ => none
  else if c = 123 then
    -- dict entry: popitem() takes the last pair; encode key then value,
    -- then assert the closing 125
    match fuel with
    | 0 => none
    | fuel + 1 =>
      match v with
      | .vdict pairs =>
          match dict_popitem pairs with
          | none => none
          | some kvrest =>
            let st1 := MState.alignW 8 st
            match sig with
            | [] => none
            | ck :: sig1 =>
              (marshal1 bo fuel ck sig1 kvrest.1.1 st1).bind fun q =>
              match q.1 with
              | [] => none
              | cv :: sig2 =>
                (marshal1 bo fuel cv sig2 kvrest.1.2 q.2).bind fun r =>
                match r.1 with
                | [] => none
                | cc :: sig3 => if cc = 125 then some (sig3, r.2) else none
      | _ => none
  else
    none

/-- The element loop of `DBusMarshal.array`: each element is encoded
against a fresh copy of the snapshot `resetSig`; `cur` is the signature
left by the previous element (the snapshot itself when no element has
been encoded yet). -/
def marshalItems (bo : ByteOrder) (fuel : Nat) (c : Nat) (resetSig : List Nat)
    (items : List PyVal) (cur : List Nat) (st : MState) : Option (List Nat × MState) :=
  match items with
  | [] => some (cur, st)
  | item :: rest =>
      match fuel with
      | 0 => none
      | fuel + 1 =>
          (marshal1 bo fuel c resetSig item st).bind fun q =>
          marshalItems bo fuel c resetSig rest q.1 q.2

/-- The field loop of `DBusMarshal.struct`: pop codes until the closing
41 (or until the signature runs out), taking one value per code; running
out of values raises `StopIteration`. -/
def marshalStructItems (bo : ByteOrder) (fuel : Nat) (sig : List Nat) (items : List PyVal)
    (st : MState) : Option (List Nat × MState) :=
  match sig with
  | [] => some ([], st)
  | c :: rest =>
      if c = 41 then some (rest, st)
      else
        match items with
        | [] =>
            -- next(item) raises StopIteration
            none
        | item :: irest =>
            match fuel with
            | 0 => none
            | fuel + 1 =>
                (marshal1 bo fuel c rest item st).bind fun q =>
                marshalStructItems bo fuel q.1 irest q.2

end

/-- `DBusMarshal.__call__`'s driving loop: pop one code per data item
and dispatch.  Leftover signature codes after the last item are ignored,
as in the source. -/
def marshalTop (bo : ByteOrder) (fuel : Nat) (sig : List Nat) (data : List PyVal)
    (st : MState) : Option MState :=
  match data with
  | [] => some st
  | item :: rest =>
      match sig with
      | [] => none
      | c :: sigRest =>
          match fuel with
          | 0 => none
          | fuel + 1 =>
              (marshal1 bo fuel c sigRest item st).bind fun q =>
              marshalTop bo fuel q.1 rest q.2

/-- `DBusMarshal()(byteorder, signature, *data)`: encode `data` against
`signature` (a list of ASCII codes) into a fresh buffer.  The fuel
bounds container nesting; any sufficiently large fuel gives the
encoder's output. -/
def DBusMarshal (fuel : Nat) (bo : ByteOrder) (signature : List Nat) (data : List PyVal) :
    Option (List Nat) :=
  (marshalTop bo fuel signature data ⟨[], 0⟩).map fun st => st.data

/-- The state of the `BytesIO` buffer used by `DBusUnmarshal.__call__`:
contents plus the read cursor (which may run past the end, as
`BytesIO.seek` allows). -/
structure UState where
  data : List Nat
  pos : Nat
deriving DecidableEq, Repr

/-- `BytesIO.read(n)`: up to `n` bytes from the cursor; short (or empty)
at the end of the buffer. -/
def UState.read (st : UState) (n : Nat) : List Nat × UState :=
  let bs := (st.data.drop st.pos).take n
  (bs, { st with pos := st.pos + bs.length })

/-- `BytesIO.seek(n, 1)`: relative forward seek. -/
def UState.seekBy (st : UState) (n : Nat) : UState := { st with pos := st.pos + n }

/-- `DBusUnmarshal.align`: seek forward over the padding. -/
def UState.alignR (a : Nat) (st : UState) : UState := st.seekBy (padLen a st.pos)

/-- `DBusUnmarshal.integer(size, signed)` applied once: align, read,
convert (short reads convert like Python `int.from_bytes`). -/
def uInt (size : Nat) (signed : Bool) (bo : ByteOrder) (st : UState) : Int × UState :=
  let r := (UState.alignR size st).read size
  (if signed then fromBytesS bo r.1 else (fromBytesU bo r.1 : Int), r.2)

/-- `DBusUnmarshal.string(size, encoding)` applied once: align (for
`size > 1`), read the length, read that many bytes, skip the NUL.
(`bytes.decode` is the identity on the byte model.) -/
def uStr (size : Nat) (bo : ByteOrder) (st : UState) : List Nat × UState :=
  let st0 := if size > 1 then UState.alignR size st else st
  let r1 := st0.read size
  let r2 := r1.2.read (fromBytesU bo r1.1)
  (r2.1, r2.2.seekBy 1)

/-- `dict.__setitem__`: replace in place when the key is present,
append otherwise. -/
def dictSet (d : List (PyVal × PyVal)) (k v : PyVal) : List (PyVal × PyVal) :=
  if d.any fun p => p.1 = k then
    d.map fun p => if p.1 = k then (k, v) else p
  else
    d ++ [(k, v)]

/-- `dict.update`: `dictSet` for each pair of the argument in order. -/
def dictUpdate : List (PyVal × PyVal) → List (PyVal × PyVal) → List (PyVal × PyVal)
  | d, [] => d
  | d, (k, v) :: rest => dictUpdate (dictSet d k v) rest

/-- The `container.append` / `container.update` step of
`DBusUnmarshal.array`: appending to a list container, or merging a
decoded dict entry into a dict container (`update` of anything else
raises). -/
def pyAdd (container v : PyVal) : Option PyVal :=
  match container, v with
  | .vlist l, _ => some (.vlist (l ++ [v]))
  | .vdict d, .vdict pairs => some (.vdict (dictUpdate d pairs))
  | _, _ => none

mutual

/-- One dispatch step of `DBusUnmarshal`: decode one value whose type
code is `c`, with `sig` the rest of the signature stack and `st` the
read cursor.  Returns the value, the remaining signature and the cursor.
The `fuel` bounds the recursion depth (the Python code can loop forever
on malformed input); container codes consume one unit per step. -/
def unmarshal1 (bo : ByteOrder) (fuel : Nat) (c : Nat) (sig : List Nat) (st : UState) :
    Option (PyVal × List Nat × UState) :=
  if c = 121 then
    -- byte: self.read(1)[0], IndexError at end of buffer
    match st.read 1 with
    | ([b], st1) => some (.vint b, sig, st1)
    | _ => none
  else if c = 98 then
    -- boolean: any non-zero u32 reads as True
    let r := (UState.alignR 4 st).read 4
    some (.vbool (r.1 ≠ [0, 0, 0, 0] : Bool), sig, r.2)
  else if c = 110 then let r := uInt 2 true bo st; some (.vint r.1, sig, r.2)
  else if c = 113 then let r := uInt 2 false bo st; some (.vint r.1, sig, r.2)
  else if c = 105 then let r := uInt 4 true bo st; some (.vint r.1, sig, r.2)
  else if c = 117 then let r := uInt 4 false bo st; some (.vint r.1, sig, r.2)
  else if c = 120 then let r := uInt 8 true bo st; some (.vint r.1, sig, r.2)
  else if c = 116 then let r := uInt 8 false bo st; some (.vint r.1, sig, r.2)
  else if c = 104 then let r := uInt 4 false bo st; some (.vint r.1, sig, r.2)
  else if c = 100 then
    -- double: struct.unpack returns a 1-tuple, which the code forgets
    -- to index, so the decoded value is a tuple around the float
    let r := (UState.alignR 8 st).read 8
    if r.1.length = 8 then
      some (.vtuple [.vfloat (ordBytes bo r.1)], sig, r.2)
    else none
  else if c = 115 then let r := uStr 4 bo st; some (.vstr r.1, sig, r.2)
  else if c = 111 then let r := uStr 4 bo st; some (.vstr r.1, sig, r.2)
  else if c = 103 then let r := uStr 1 bo st; some (.vstr r.1, sig, r.2)
  else if c = 97 then
    -- array: pop the element code, read the u32 byte length, then
    -- decode elements until the cursor reaches the computed end
    match fuel with
    | 0 => none
    | fuel + 1 =>
      match sig with
      | [] => none
      | s :: sigRest =>
        let container : PyVal := if s = 123 then .vdict [] else .vlist []
        let r := uInt 4 false bo st
        let endPos := r.1.toNat + r.2.pos
        unmItems bo fuel s sigRest endPos container sigRest r.2
  else if c = 40 then
    -- struct: align to 8, then consume codes until the matching 41
    match fuel with
    | 0 => none
    | fuel + 1 =>
      (unmStructItems bo fuel sig [] (UState.alignR 8 st)).map fun q =>
        (.vtuple q.1, q.2.1, q.2.2)
  else if c = 118 then
    -- variant: read the inner signature, decode one value against it,
    -- return the (signature, value) pair
    match fuel with
    | 0 => none
    | fuel + 1 =>
      let r := uStr 1 bo st
      match r.1 with
      | [] => none
      | c1 :: sbRest =>
        (unmarshal1 bo fuel c1 sbRest r.2).map fun q =>
          (.vtuple [.vstr r.1, q.1], sig, q.2.2)
  else if c = 123 then
    -- dict entry: align to 8, decode key and value, assert the closing
    -- 125, return a one-pair dict
    match fuel with
    | 0 => none
    | fuel + 1 =>
      let st1 := UState.alignR 8 st
      match sig with
      | [] => none
      | ck :: sig1 =>
        (unmarshal1 bo fuel ck sig1 st1).bind fun q =>
        match q.2.1 with
        | [] => none
        | cv :: sig2 =>
          (unmarshal1 bo fuel cv sig2 q.2.2).bind fun r =>
          match r.2.1 with
          | [] => none
          | cc :: sig3 => if cc = 125 then some (.vdict [(q.1, r.1)], sig3, r.2.2) else none
  else
    none

/-- The element loop of `DBusUnmarshal.array`: while the cursor is before
`endPos`, decode one element from a fresh copy of the snapshot
`resetSig` and add it to the container; `cur` is the signature left by
the previous element. -/
def unmItems (bo : ByteOrder) (fuel : Nat) (s : Nat) (resetSig : List Nat) (endPos : Nat)
    (container : PyVal) (cur : List Nat) (st : UState) : Option (PyVal × List Nat × UState) :=
  match fuel with
  | 0 => none
  | fuel + 1 =>
      if st.pos < endPos then
        (unmarshal1 bo fuel s resetSig st).bind fun q =>
        (pyAdd container q.1).bind fun container1 =>
        unmItems bo fuel s resetSig endPos container1 q.2.1 q.2.2
      else
        some (container, cur, st)

/-- The field loop of `DBusUnmarshal.struct`: pop codes until the closing
41 (or until the signature runs out), decoding one value per code. -/
def unmStructItems (bo : ByteOrder) (fuel : Nat) (sig : List Nat) (acc : List PyVal)
    (st : UState) : Option (List PyVal × List Nat × UState) :=
  match fuel with
  | 0 => none
  | fuel + 1 =>
      match sig with
      | [] => some (acc, [], st)
      | c :: rest =>
          if c = 41 then some (acc, rest, st)
          else
            (unmarshal1 bo fuel c rest st).bind fun q =>
            unmStructItems bo fuel q.2.1 (acc ++ [q.1]) q.2.2

end

/-- `DBusUnmarshal.__call__`'s driving loop: decode one value per
signature code until the signature stack is empty. -/
def unmarshalTop (bo : ByteOrder) (fuel : Nat) (sig : List Nat) (acc : List PyVal)
    (st : UState) : Option (List PyVal × UState) :=
  match sig with
  | [] => some (acc, st)
  | c :: rest =>
      match fuel with
      | 0 => none
      | fuel + 1 =>
          (unmarshal1 bo fuel c rest st).bind fun q =>
          unmarshalTop bo fuel q.2.1 (acc ++ [q.1]) q.2.2

/-- `DBusUnmarshal()(byteorder, signature, data)`: decode `data` against
`signature`, with explicit fuel. -/
def DBusUnmarshal (fuel : Nat) (bo : ByteOrder) (signature : List Nat) (data : List Nat) :
    Option (List PyVal) :=
  (unmarshalTop bo fuel signature [] ⟨data, 0⟩).map fun q => q.1

/-- A value stored in a header-field slot: a string-like value (the
bytes of a `str`) or a `u32`-like integer. -/
inductive FieldVal where
  | s (bytes : List Nat)
  | u (n : Nat)
deriving DecidableEq, Repr

/-- The nine legal header fields, in the fixed wire order
`HEADER_FIELDS`, each optionally present.  The decoder starts from
`dict.fromkeys(HEADER_FIELDS)`, i.e. every slot `none`. -/
structure HeaderFields where
  path : Option FieldVal := none
  interface : Option FieldVal := none
  member : Option FieldVal := none
  error : Option FieldVal := none
  reply : Option FieldVal := none
  destination : Option FieldVal := none
  sender : Option FieldVal := none
  signature : Option FieldVal := none
  unixfds : Option FieldVal := none
deriving DecidableEq, Repr

/-- The `(index, type code, value)` triples enumerated by
`DBusMarshal.fields`, from `HEADER_FIELDS` and
`HEADER_FIELDS_SIGNATURE`. -/
def HeaderFields.entries (F : HeaderFields) : List (Nat × Nat × Option FieldVal) :=
  [(1, 111, F.path), (2, 115, F.interface), (3, 115, F.member), (4, 115, F.error),
   (5, 117, F.reply), (6, 115, F.destination), (7, 115, F.sender),
   (8, 103, F.signature), (9, 117, F.unixfds)]

/-- One present field of `DBusMarshal.fields`: pad the buffer to 8, the
4-byte preamble `[i, 1, code, 0]`, then the value (`u32`, or
length-prefixed string with a trailing NUL). -/
def encodeField (bo : ByteOrder) (buf : List Nat) (i code : Nat) (v : FieldVal) :
    Option (List Nat) :=
  let pre := List.replicate (padLen 8 buf.length) 0 ++ [i, 1, code, 0]
  if code = 117 then
    match v with
    | .u n => (intToBytes 4 false bo (n : Int)).map fun nb => buf ++ pre ++ nb
    | _ => none
  else
    match v with
    | .s bs =>
        if code = 103 then
          if bs.length < 256 then some (buf ++ pre ++ [bs.length] ++ bs ++ [0]) else none
        else
          (intToBytes 4 false bo (bs.length : Int)).map fun lb => buf ++ pre ++ lb ++ bs ++ [0]
    | _ => none

/-- The loop of `DBusMarshal.fields` over the entry list, skipping the
absent fields. -/
def encodeFields (bo : ByteOrder) : List (Nat × Nat × Option FieldVal) → List Nat → Option (List Nat)
  | [], buf => some buf
  | (_, _, none) :: rest, buf => encodeFields bo rest buf
  | (i, code, some v) :: rest, buf =>
      (encodeField bo buf i code v).bind fun buf1 => encodeFields bo rest buf1

/-- `DBusMarshal.fields(byteorder, **fields)`: the header-field array. -/
def DBusMarshal.fields (bo : ByteOrder) (F : HeaderFields) : Option (List Nat) :=
  encodeFields bo F.entries []

/-- `fields[HEADER_FIELDS[i-1]] = value`: store a decoded field by its
1-based wire index.  Python list indexing makes `i = 0` wrap around to
the last name (`unixfds`); indices above 9 raise `IndexError`. -/
def HeaderFields.setIdx (F : HeaderFields) (i : Nat) (v : FieldVal) : Option HeaderFields :=
  match i with
  | 0 => some { F with unixfds := some v }
  | 1 => some { F with path := some v }
  | 2 => some { F with interface := some v }
  | 3 => some { F with member := some v }
  | 4 => some { F with error := some v }
  | 5 => some { F with reply := some v }
  | 6 => some { F with destination := some v }
  | 7 => some { F with sender := some v }
  | 8 => some { F with signature := some v }
  | 9 => some { F with unixfds := some v }
  | _ => none

/-- The `while p < end` loop of `DBusUnmarshal.fields`: parse one field
entry at `p` (preamble, value, pad to 8) and recurse.  Single-byte
indexing past the end raises `IndexError` (`none`); slices are simply
short. -/
def decodeFields (bo : ByteOrder) (buffer : List Nat) (fuel : Nat) (p : Nat)
    (F : HeaderFields) : Option HeaderFields :=
  match fuel with
  | 0 => none
  | fuel + 1 =>
    if p < buffer.length then
      match buffer.get? p, buffer.get? (p + 2) with
      | some i, some code =>
        let p1 := p + 4
        if code = 103 then
          match buffer.get? p1 with
          | some len1 =>
              let bs := (buffer.drop (p1 + 1)).take len1
              let p2 := p1 + 1 + len1 + 1
              (F.setIdx i (.s bs)).bind fun F1 =>
                decodeFields bo buffer fuel (p2 + padLen 8 p2) F1
          | none => none
        else
          let u := fromBytesU bo ((buffer.drop p1).take 4)
          let p2 := p1 + 4
          if code = 117 then
            (F.setIdx i (.u u)).bind fun F1 =>
              decodeFields bo buffer fuel (p2 + padLen 8 p2) F1
          else
            let bs := (buffer.drop p2).take u
            let p3 := p2 + u + 1
            (F.setIdx i (.s bs)).bind fun F1 =>
              decodeFields bo buffer fuel (p3 + padLen 8 p3) F1
      | _, _ => none
    else
      some F

/-- `DBusUnmarshal.fields(byteorder, buffer)`: parse the header-field
array into the nine named slots.  Every loop iteration advances the
cursor by at least four bytes, so `buffer.length + 1` units of fuel
always cover the Python `while` loop. -/
def DBusUnmarshal.fields (bo : ByteOrder) (buffer : List Nat) : Option HeaderFields :=
  decodeFields bo buffer (buffer.length + 1) 0 {}

/-- A `DBusMessage`: the framed byte buffer, together with the values
that `__init__` caches in `__dict__` and keeps in sync with the buffer
(the byte order from the endian marker, and the length tuple
`(16, header-array length, pad to 8, body length)`). -/
structure DBusMessage where
  data : List Nat
  byteorder : ByteOrder
  length : Nat × Nat × Nat × Nat
deriving DecidableEq, Repr

/-- `DBusMessage(buffer)`: construction from incoming bytes.  The first
byte selects the byte order (anything else raises `KeyError`), the fixed
16-byte header is unpacked, and the buffer is truncated to the declared
total length. -/
def DBusMessage.fromBytes (buffer : List Nat) : Option DBusMessage :=
  if buffer.length < 16 then none
  else
    (match buffer.get? 0 with
     | some 108 => some ByteOrder.little
     | some 66 => some ByteOrder.big
     | _ => none).map fun bo =>
      let hlen := fromBytesU bo ((buffer.drop 12).take 4)
      let blen := fromBytesU bo ((buffer.drop 4).take 4)
      { data := buffer.take (16 + hlen + padLen 8 hlen + blen),
        byteorder := bo,
        length := (16, hlen, padLen 8 hlen, blen) }

/-- The cached `type` attribute (byte 1 of the fixed header). -/
def DBusMessage.type (m : DBusMessage) : Nat := m.data.getD 1 0

/-- The cached `flags` attribute (byte 2 of the fixed header). -/
def DBusMessage.flags (m : DBusMessage) : Nat := m.data.getD 2 0

/-- The cached `serial` attribute (u32 at offset 8). -/
def DBusMessage.serial (m : DBusMessage) : Nat :=
  fromBytesU m.byteorder ((m.data.drop 8).take 4)

/-- The lazy header-field decode behind `__getattr__`: the header-array
slice `self[16 : 16 + length[1]]` run through `DBusUnmarshal.fields`. -/
def DBusMessage.fieldsMap (m : DBusMessage) : Option HeaderFields :=
  DBusUnmarshal.fields m.byteorder ((m.data.drop 16).take m.length.2.1)

/-- One slot of decoded header fields by name order. -/
inductive HKey where
  | type | flags | serial | path | interface | member | error | reply
  | destination | sender | signature | unixfds
deriving DecidableEq, Repr

/-- The `header` property as a lookup function: `type`, `flags` and
`serial` from the fixed header, the rest from the decoded field array
(`none` = absent). -/
def DBusMessage.headerGet (m : DBusMessage) (F : HeaderFields) : HKey → Option FieldVal
  | .type => some (.u m.type)
  | .flags => some (.u m.flags)
  | .serial => some (.u m.serial)
  | .path => F.path
  | .interface => F.interface
  | .member => F.member
  | .error => F.error
  | .reply => F.reply
  | .destination => F.destination
  | .sender => F.sender
  | .signature => F.signature
  | .unixfds => F.unixfds

/-- The `body` property: `none` (the Python `None`) when the body length
is zero, otherwise the tail bytes decoded against the `signature` header
field.  The outer `Option` is an exception: a missing or non-string
signature field, a failed field decode, or a failed body decode. -/
def DBusMessage.body (fuel : Nat) (m : DBusMessage) : Option (Option (List PyVal)) :=
  if m.length.2.2.2 = 0 then some none
  else
    (m.fieldsMap).bind fun F =>
    match F.signature with
    | some (.s sb) =>
        (DBusUnmarshal fuel m.byteorder sb
          (m.data.drop (m.length.1 + m.length.2.1 + m.length.2.2.1))).map fun vals =>
          some vals
    | _ => none

/-- The positional loop of `DBusMessage.match`: for each expected body
value, `next(iterator, None)`; a `none` pattern slot matches anything,
any other slot must equal the decoded element at the same position
(missing elements compare as the Python `None`, which no `PyVal`
equals). -/
def posMatch : List (Option PyVal) → List PyVal → Bool
  | [], _ => true
  | none :: br, [] => posMatch br []
  | some _ :: _, [] => false
  | none :: br, _ :: vr => posMatch br vr
  | some v2 :: br, v1 :: vr => if v2 = v1 then posMatch br vr else false

/-- `DBusMessage.match(header, body)`.  The header property is built
first (raising if the field array is malformed); the expected header
must be a sub-dict; an empty expected body short-circuits to `True`;
otherwise the body is decoded and compared positionally — and
`iter(None)` raises `TypeError` when the message has no body. -/
def DBusMessage.matches (fuel : Nat) (m : DBusMessage)
    (hpat : List (HKey × FieldVal)) (bpat : List (Option PyVal)) : Option Bool :=
  (m.fieldsMap).bind fun F =>
    if hpat.all fun kv => m.headerGet F kv.1 = some kv.2 then
      if bpat.isEmpty then some true
      else
        (m.body fuel).bind fun bodyOpt =>
        match bodyOpt with
        | none => none
        | some vals => some (posMatch bpat vals)
    else
      some false

/-- The value passed to a `DBusMessage` attribute assignment: an `int`
for `type` / `flags` / `serial`, a tuple of values for `body`. -/
inductive AttrVal where
  | num (n : Nat)
  | vals (l : List PyVal)
deriving DecidableEq, Repr

/-- `DBusMessage.__setattr__`: `type` and `flags` are single-byte writes
at offsets 1 and 2, `serial` is a u32 write at offset 8 in the message's
byte order, `body` re-encodes the tail after the padded header and
updates the u32 body-length slot at offset 4; every other attribute
raises `AttributeError`. -/
def DBusMessage.setattr (m : DBusMessage) (fuel : Nat) (attr : String) (v : AttrVal) :
    Option DBusMessage :=
  if attr = "type" then
    match v with
    | .num n => if n < 256 then if 1 < m.data.length then
        some { m with data := m.data.set 1 n } else none else none
    | _ => none
  else if attr = "flags" then
    match v with
    | .num n => if n < 256 then if 2 < m.data.length then
        some { m with data := m.data.set 2 n } else none else none
    | _ => none
  else if attr = "serial" then
    match v with
    | .num n =>
        (intToBytes 4 false m.byteorder (n : Int)).map fun nb =>
          { m with data := m.data.take 8 ++ nb ++ m.data.drop 12 }
    | _ => none
  else if attr = "body" then
    match v with
    | .vals l =>
        (m.fieldsMap).bind fun F =>
        match F.signature with
        | some (.s sb) =>
            let p := m.length.1 + m.length.2.1 + m.length.2.2.1
            (DBusMarshal fuel m.byteorder sb l).bind fun tail =>
            (intToBytes 4 false m.byteorder (tail.length : Int)).map fun lb =>
              let d1 := m.data.take p ++ tail
              { data := d1.take 4 ++ lb ++ d1.drop 8,
                byteorder := m.byteorder,
                length := (m.length.1, m.length.2.1, m.length.2.2.1, tail.length) }
        | _ => none
    | _ => none
  else
    none

/-- `DBusMessage.__setitem__`: unconditionally raises `TypeError`. -/
def DBusMessage.setitem (_ : DBusMessage) (_ : Nat) (_ : Nat) : Option DBusMessage :=
  none

/-- The connection state relevant to serials and reply dispatch: the
next value of the `iter(range(1, 2**32))` serial iterator, and the
`raise_on_error` flag. -/
structure DBus where
  serialNext : Nat
  raiseOnError : Bool
deriving DecidableEq, Repr

/-- `DBus.connect`: resets the serial iterator to `iter(range(1, 2**32))`,
whose first value is 1. -/
def DBus.connect (c : DBus) : DBus := { c with serialNext := 1 }

/-- `DBus.send`: take the next serial (the iterator raises
`StopIteration` past `2**32 - 1`), store it into the message, and return
it with the updated message and connection. -/
def DBus.send (c : DBus) (m : DBusMessage) : Option (Nat × DBusMessage × DBus) :=
  if c.serialNext < 2 ^ 32 then
    (m.setattr 0 "serial" (.num c.serialNext)).map fun m1 =>
      (c.serialNext, m1, { c with serialNext := c.serialNext + 1 })
  else
    none

/-- The serials produced by consecutive `send` calls, one message each,
stopping at the first failure. -/
def DBus.sendTrace (c : DBus) : List DBusMessage → List Nat
  | [] => []
  | m :: rest =>
      match c.send m with
      | some q => q.1 :: DBus.sendTrace q.2.2 rest
      | none => []

/-- `DBus.recv` over a stream of already-framed incoming messages: drop
messages until one matches; a matching error reply raises when
`raise_on_error` is set; an exception inside `match` propagates
(`none`). -/
def DBus.recv (fuel : Nat) (c : DBus) (hpat : List (HKey × FieldVal))
    (bpat : List (Option PyVal)) : List DBusMessage → Option DBusMessage
  | [] => none
  | m :: rest =>
      match m.matches fuel hpat bpat with
      | none => none
      | some true => if c.raiseOnError && m.type == 3 then none else some m
      | some false => DBus.recv fuel c hpat bpat rest

/-- `DBus.call`: assert the message is a method call with the
no-reply-expected flag unset, send it, then receive the first message
whose `reply` header field equals the assigned serial. -/
def DBus.call (fuel : Nat) (c : DBus) (m : DBusMessage)
    (incoming : List DBusMessage) : Option (DBusMessage × DBus) :=
  if m.type == 1 && m.flags % 2 == 0 then
    (c.send m).bind fun q =>
      (DBus.recv fuel q.2.2 [(.reply, .u q.1)] [] incoming).map fun r => (r, q.2.2)
  else
    none

/-- Single complete D-Bus types, the planning view of a signature.
(Dict-entry arrays `a{..}` are deliberately not part of this grammar:
they are covered by the raw codes 97/123 in the codec itself.) -/
inductive DType where
  | byteT | booleanT | int16T | uint16T | int32T | uint32T | int64T | uint64T
  | doubleT | stringT | objpathT | sigT | unixfdT | variantT
  | arrayT (t : DType)
  | structT (ts : List DType)
deriving Repr

mutual

/-- The signature string (ASCII codes) of a single complete type. -/
def sigOf : DType → List Nat
  | .byteT => [121]
  | .booleanT => [98]
  | .int16T => [110]
  | .uint16T => [113]
  | .int32T => [105]
  | .uint32T => [117]
  | .int64T => [120]
  | .uint64T => [116]
  | .doubleT => [100]
  | .stringT => [115]
  | .objpathT => [111]
  | .sigT => [103]
  | .unixfdT => [104]
  | .variantT => [118]
  | .arrayT t => 97 :: sigOf t
  | .structT ts => 40 :: (sigOfList ts ++ [41])

/-- Concatenated signature of a type list. -/
def sigOfList : List DType → List Nat
  | [] => []
  | t :: ts => sigOf t ++ sigOfList ts

end

mutual

/-- Whether every value of this type occupies at least one byte on the
wire (false only for structs all of whose fields are themselves
zero-sized).  Zero-sized array elements make the decoder's position
loop lose elements. -/
def posSize : DType → Bool
  | .structT ts => posSizeList ts
  | _ => true

/-- Whether some type of the list is positively sized. -/
def posSizeList : List DType → Bool
  | [] => false
  | t :: ts => posSize t || posSizeList ts

end

mutual

/-- Fuelled recursive-descent parser for one single complete type at the
head of a signature.  Used to interpret the inner signature carried by a
variant value; `123` (dict entries) and `100` (double) parse but are
ruled out later by `goodT`. -/
def parseOneF (fuel : Nat) (sig : List Nat) : Option (DType × List Nat) :=
  match fuel with
  | 0 => none
  | fuel + 1 =>
      match sig with
      | [] => none
      | c :: r =>
          if c = 121 then some (.byteT, r)
          else if c = 98 then some (.booleanT, r)
          else if c = 110 then some (.int16T, r)
          else if c = 113 then some (.uint16T, r)
          else if c = 105 then some (.int32T, r)
          else if c = 117 then some (.uint32T, r)
          else if c = 120 then some (.int64T, r)
          else if c = 116 then some (.uint64T, r)
          else if c = 100 then some (.doubleT, r)
          else if c = 115 then some (.stringT, r)
          else if c = 111 then some (.objpathT, r)
          else if c = 103 then some (.sigT, r)
          else if c = 104 then some (.unixfdT, r)
          else if c = 118 then some (.variantT, r)
          else if c = 97 then (parseOneF fuel r).map fun q => (.arrayT q.1, q.2)
          else if c = 40 then (parseFieldsF fuel r).map fun q => (.structT q.1, q.2)
          else none

/-- Parse struct fields up to the closing 41. -/
def parseFieldsF (fuel : Nat) (sig : List Nat) : Option (List DType × List Nat) :=
  match fuel with
  | 0 => none
  | fuel + 1 =>
      match sig with
      | [] => none
      | c :: r =>
          if c = 41 then some ([], r)
          else
            (parseOneF fuel (c :: r)).bind fun q =>
            (parseFieldsF fuel q.2).map fun w => (q.1 :: w.1, w.2)

end

mutual

/-- The types whose encodings round-trip: every type except `double`
(whose decoder returns a 1-tuple) and dict-entry arrays (whose decoder
returns a merged mapping rather than the encoder's list of one-pair
dicts); array element types must also be positively sized. -/
def goodT : DType → Bool
  | .doubleT => false
  | .arrayT t => goodT t && posSize t
  | .structT ts => goodTList ts
  | _ => true

/-- `goodT` for every type of a list. -/
def goodTList : List DType → Bool
  | [] => true
  | t :: ts => goodT t && goodTList ts

end

mutual

/-- Well-typedness of a value against a type, as the codec expects it:
the value shape matches the type; array elements are all well-typed, and
an empty array demands a single-character element signature (otherwise
the leftover element codes corrupt the signature stack); struct values
carry exactly one value per field type; a variant is a
`(signature string, value)` pair whose value is well-typed at the parsed
head of that signature. -/
def goodV : DType → PyVal → Bool
  | .byteT, .vint _ => true
  | .booleanT, .vbool _ => true
  | .int16T, .vint _ => true
  | .uint16T, .vint _ => true
  | .int32T, .vint _ => true
  | .uint32T, .vint _ => true
  | .int64T, .vint _ => true
  | .uint64T, .vint _ => true
  | .unixfdT, .vint _ => true
  | .stringT, .vstr _ => true
  | .objpathT, .vstr _ => true
  | .sigT, .vstr _ => true
  | .arrayT t, .vlist items =>
      goodVList t items && (!items.isEmpty || (sigOf t).length == 1)
  | .structT ts, .vtuple items => goodVFields ts items
  | .variantT, .vtuple [.vstr sb, w] =>
      match parseOneF (sb.length + 1) sb with
      | some q => goodT q.1 && goodV q.1 w
      | none => false
  | _, _ => false

/-- `goodV` for every element of an array. -/
def goodVList : DType → List PyVal → Bool
  | _, [] => true
  | t, v :: rest => goodV t v && goodVList t rest

/-- `goodV` fieldwise, requiring equal lengths. -/
def goodVFields : List DType → List PyVal → Bool
  | [], [] => true
  | t :: ts, v :: vs => goodV t v && goodVFields ts vs
  | _, _ => false

end

/-! ## Byte-level lemmas -/

theorem natToLE_length : ∀ size n, (natToLE size n).length = size
  | 0, _ => rfl
  | size + 1, n => by simp [natToLE, natToLE_length size]

theorem pow256 (s : Nat) : 256 ^ s = 2 ^ (8 * s) := by
  rw [show (256 : Nat) = 2 ^ 8 from rfl, ← pow_mul]

theorem leVal_natToLE : ∀ size n, leVal (natToLE size n) = n % 256 ^ size
  | 0, n => by simp [natToLE, leVal, Nat.mod_one]
  | size + 1, n => by
      rw [natToLE, leVal, leVal_natToLE size, Nat.mod_mod, pow_succ']
      exact Nat.mod_mul.symm

theorem ordBytes_length (bo : ByteOrder) (l : List Nat) :
    (ordBytes bo l).length = l.length := by
  cases bo <;> simp [ordBytes]

theorem fromBytesU_ordBytes (bo : ByteOrder) (l : List Nat) :
    fromBytesU bo (ordBytes bo l) = leVal l := by
  cases bo <;> simp [fromBytesU, ordBytes]

theorem intToBytes_length {size : Nat} {signed : Bool} {bo : ByteOrder} {n : Int}
    {bs : List Nat} (h : intToBytes size signed bo n = some bs) : bs.length = size := by
  rw [intToBytes] at h
  split at h
  · cases h
    rw [ordBytes_length, natToLE_length]
  · cases h

theorem intToBytes_unsigned_inv {size : Nat} {bo : ByteOrder} {n : Int} {bs : List Nat}
    (h : intToBytes size false bo n = some bs) :
    0 ≤ n ∧ n < 2 ^ (8 * size) ∧ (fromBytesU bo bs : Int) = n := by
  rw [intToBytes] at h
  split at h
  · rename_i hr
    cases h
    rw [intFits] at hr
    simp only [decide_eq_true_eq] at hr
    have hK : ((2 ^ (8 * size) : Nat) : Int) = 2 ^ (8 * size) := by push_cast; ring
    obtain ⟨h0, h1⟩ := hr
    have hmod : n % 2 ^ (8 * size) = n := by
      apply Int.emod_eq_of_lt h0
      omega
    refine ⟨h0, by omega, ?_⟩
    rw [fromBytesU_ordBytes, leVal_natToLE, pow256, hmod]
    have hn : n.toNat % 2 ^ (8 * size) = n.toNat := by
      apply Nat.mod_eq_of_lt
      omega
    rw [hn]
    omega
  · cases h

theorem intToBytes_signed_inv {size : Nat} {bo : ByteOrder} {n : Int} {bs : List Nat}
    (hs : 0 < size) (h : intToBytes size true bo n = some bs) :
    fromBytesS bo bs = n := by
  rw [intToBytes] at h
  split at h
  · rename_i hr
    cases h
    rw [intFits] at hr
    simp only [decide_eq_true_eq] at hr
    obtain ⟨h0, h1⟩ := hr
    have hKH : 2 ^ (8 * size) = 2 * 2 ^ (8 * size - 1) := by
      rw [← pow_succ']
      congr 1
      omega
    have hK : ((2 ^ (8 * size) : Nat) : Int) = 2 ^ (8 * size) := by push_cast; ring
    have hH : ((2 ^ (8 * size - 1) : Nat) : Int) = 2 ^ (8 * size - 1) := by push_cast; ring
    have hKpos : (0 : Int) < 2 ^ (8 * size) := by positivity
    have hm0 : 0 ≤ n % 2 ^ (8 * size) := Int.emod_nonneg n (by omega)
    have hm1 : n % 2 ^ (8 * size) < 2 ^ (8 * size) := Int.emod_lt_of_pos n hKpos
    have hlen : (ordBytes bo (natToLE size (n % 2 ^ (8 * size)).toNat)).length = size := by
      rw [ordBytes_length, natToLE_length]
    have hne : (ordBytes bo (natToLE size (n % 2 ^ (8 * size)).toNat)).isEmpty = false := by
      cases hord : ordBytes bo (natToLE size (n % 2 ^ (8 * size)).toNat) with
      | nil => simp [hord] at hlen; omega
      | cons a l => simp [hord]
    have hu : fromBytesU bo (ordBytes bo (natToLE size (n % 2 ^ (8 * size)).toNat))
        = (n % 2 ^ (8 * size)).toNat := by
      rw [fromBytesU_ordBytes, leVal_natToLE, pow256]
      apply Nat.mod_eq_of_lt
      omega
    -- the written digits decode back to n, by the two's-complement case split
    unfold fromBytesS
    rw [hne, hu, hlen]
    simp only [Bool.false_eq_true, if_false]
    rcases le_or_lt 0 n with hpos | hneg
    · have hmod : n % 2 ^ (8 * size) = n := Int.emod_eq_of_lt hpos (by omega)
      rw [hmod]
      have : n.toNat < 2 ^ (8 * size - 1) := by omega
      rw [if_pos this]
      omega
    · have hKHi : (2 : Int) ^ (8 * size) = 2 * 2 ^ (8 * size - 1) := by
        rw [← hK, ← hH, hKH]
        push_cast
        ring
      have hmod : n % 2 ^ (8 * size) = n + 2 ^ (8 * size) := by
        have h2 : (n + 2 ^ (8 * size)) % 2 ^ (8 * size) = n + 2 ^ (8 * size) :=
          Int.emod_eq_of_lt (by omega) (by omega)
        have h3 : (n + 2 ^ (8 * size) * 1) % 2 ^ (8 * size) = n % 2 ^ (8 * size) :=
          Int.add_mul_emod_self_left n (2 ^ (8 * size)) 1
        rw [mul_one] at h3
        omega
      rw [hmod]
      have hge : ¬ (n + 2 ^ (8 * size)).toNat < 2 ^ (8 * size - 1) := by omega
      rw [if_neg hge]
      omega
  · cases h

/-! ## Buffer lemmas -/

/-- A successful encode step leaves the buffer extended at the end with
the cursor at the end: the relation every marshaller call preserves. -/
def ExtendsE (st st' : MState) : Prop :=
  (∃ delta, st'.data = st.data ++ delta) ∧ st'.pos = st'.data.length

theorem ExtendsE.refl {st : MState} (h : st.pos = st.data.length) : ExtendsE st st :=
  ⟨⟨[], by simp⟩, h.symm ▸ rfl⟩

theorem ExtendsE.trans {s1 s2 s3 : MState} (h12 : ExtendsE s1 s2) (h23 : ExtendsE s2 s3) :
    ExtendsE s1 s3 := by
  obtain ⟨⟨d1, hd1⟩, _⟩ := h12
  obtain ⟨⟨d2, hd2⟩, hp⟩ := h23
  exact ⟨⟨d1 ++ d2, by rw [hd2, hd1, List.append_assoc]⟩, hp⟩

theorem MState.write_atEnd {st : MState} (bs : List Nat) (h : st.pos = st.data.length) :
    st.write bs = ⟨st.data ++ bs, st.data.length + bs.length⟩ := by
  unfold MState.write
  congr 1
  · rw [h, List.take_length, List.drop_eq_nil_of_le (by omega), List.append_nil]
  · rw [h]

theorem MState.alignW_atEnd {st : MState} (a : Nat) (h : st.pos = st.data.length) :
    MState.alignW a st
      = ⟨st.data ++ List.replicate (padLen a st.data.length) 0,
         st.data.length + padLen a st.data.length⟩ := by
  unfold MState.alignW
  rw [MState.write_atEnd _ h, h]
  simp

theorem ExtendsE.write {st : MState} (bs : List Nat) (h : st.pos = st.data.length) :
    ExtendsE st (st.write bs) := by
  rw [MState.write_atEnd bs h]
  exact ⟨⟨bs, rfl⟩, by simp⟩

theorem ExtendsE.pos_eq {st st' : MState} (h : ExtendsE st st') :
    st'.pos = st'.data.length := h.2

/-- Read exactly the block sitting at the cursor. -/
theorem UState.read_exact {pre bs rest : List Nat} {n : Nat} (h : bs.length = n) :
    UState.read ⟨pre ++ (bs ++ rest), pre.length⟩ n
      = (bs, ⟨pre ++ (bs ++ rest), pre.length + n⟩) := by
  unfold UState.read
  simp only [List.drop_left]
  rw [List.take_left' h, h]

/-- Alignment seeks to the same offset the writer padded to. -/
theorem UState.alignR_eq (a : Nat) (d : List Nat) (p : Nat) :
    UState.alignR a ⟨d, p⟩ = ⟨d, p + padLen a p⟩ := rfl

theorem padLen_lt (a pos : Nat) (h : 0 < a) : padLen a pos < a := by
  unfold padLen
  exact Nat.mod_lt _ h

/-- Padding completes the position to a multiple of the alignment. -/
theorem padLen_dvd (a pos : Nat) (h : 0 < a) : a ∣ (pos + padLen a pos) := by
  unfold padLen
  rcases Nat.eq_zero_or_pos (pos % a) with h0 | h0
  · rw [h0]
    simp
    exact Nat.dvd_of_mod_eq_zero h0
  · have h1 : (a - pos % a) % a = a - pos % a := by
      apply Nat.mod_eq_of_lt
      have := Nat.mod_lt pos h
      omega
    rw [h1]
    have h2 : pos + (a - pos % a) = a * (pos / a) + a := by
      have h3 := Nat.div_add_mod pos a
      have := Nat.mod_lt pos h
      omega
    rw [h2]
    exact ⟨pos / a + 1, by ring⟩

/-- Positions congruent mod `a` have the same padding. -/
theorem padLen_congr {a p q : Nat} (h : p % a = q % a) : padLen a p = padLen a q := by
  unfold padLen
  rw [h]

/-! ## Step equations for the marshaller -/

theorem marshal1_byte (bo : ByteOrder) (fuel : Nat) (sig : List Nat) (v : PyVal)
    (st : MState) : marshal1 bo fuel 121 sig v st = mByte sig v st := by
  cases fuel <;> rfl

theorem marshal1_bool (bo : ByteOrder) (fuel : Nat) (sig : List Nat) (v : PyVal)
    (st : MState) : marshal1 bo fuel 98 sig v st = mBool bo sig v st := by
  cases fuel <;> rfl

theorem marshal1_i16 (bo : ByteOrder) (fuel : Nat) (sig : List Nat) (v : PyVal)
    (st : MState) : marshal1 bo fuel 110 sig v st = mIntV 2 true bo sig v st := by
  cases fuel <;> rfl

theorem marshal1_u16 (bo : ByteOrder) (fuel : Nat) (sig : List Nat) (v : PyVal)
    (st : MState) : marshal1 bo fuel 113 sig v st = mIntV 2 false bo sig v st := by
  cases fuel <;> rfl

theorem marshal1_i32 (bo : ByteOrder) (fuel : Nat) (sig : List Nat) (v : PyVal)
    (st : MState) : marshal1 bo fuel 105 sig v st = mIntV 4 true bo sig v st := by
  cases fuel <;> rfl

theorem marshal1_u32 (bo : ByteOrder) (fuel : Nat) (sig : List Nat) (v : PyVal)
    (st : MState) : marshal1 bo fuel 117 sig v st = mIntV 4 false bo sig v st := by
  cases fuel <;> rfl

theorem marshal1_i64 (bo : ByteOrder) (fuel : Nat) (sig : List Nat) (v : PyVal)
    (st : MState) : marshal1 bo fuel 120 sig v st = mIntV 8 true bo sig v st := by
  cases fuel <;> rfl

theorem marshal1_u64 (bo : ByteOrder) (fuel : Nat) (sig : List Nat) (v : PyVal)
    (st : MState) : marshal1 bo fuel 116 sig v st = mIntV 8 false bo sig v st := by
  cases fuel <;> rfl

theorem marshal1_fd (bo : ByteOrder) (fuel : Nat) (sig : List Nat) (v : PyVal)
    (st : MState) : marshal1 bo fuel 104 sig v st = mIntV 4 false bo sig v st := by
  cases fuel <;> rfl

theorem marshal1_double (bo : ByteOrder) (fuel : Nat) (sig : List Nat) (v : PyVal)
    (st : MState) : marshal1 bo fuel 100 sig v st = mDouble bo sig v st := by
  cases fuel <;> rfl

theorem marshal1_string (bo : ByteOrder) (fuel : Nat) (sig : List Nat) (v : PyVal)
    (st : MState) : marshal1 bo fuel 115 sig v st = mStrV 4 bo sig v st := by
  cases fuel <;> rfl

theorem marshal1_objpath (bo : ByteOrder) (fuel : Nat) (sig : List Nat) (v : PyVal)
    (st : MState) : marshal1 bo fuel 111 sig v st = mStrV 4 bo sig v st := by
  cases fuel <;> rfl

theorem marshal1_sig (bo : ByteOrder) (fuel : Nat) (sig : List Nat) (v : PyVal)
    (st : MState) : marshal1 bo fuel 103 sig v st = mStrV 1 bo sig v st := by
  cases fuel <;> rfl

theorem marshal1_array (bo : ByteOrder) (fuel : Nat) (c1 : Nat) (sigRest : List Nat)
    (items : List PyVal) (st : MState) :
    marshal1 bo (fuel + 1) 97 (c1 :: sigRest) (.vlist items) st =
      ((marshalItems bo fuel c1 sigRest items sigRest
          ((MState.alignW 4 st).write [35, 35, 35, 35])).bind fun p =>
        (intToBytes 4 false bo (p.2.pos - ((MState.alignW 4 st).write [35, 35, 35, 35]).pos)).map
          fun lenB =>
        (p.1, ((p.2.seekTo (((MState.alignW 4 st).write [35, 35, 35, 35]).pos - 4)).write
          lenB).seekEnd)) := rfl

theorem marshal1_struct (bo : ByteOrder) (fuel : Nat) (sig : List Nat)
    (items : List PyVal) (st : MState) :
    marshal1 bo (fuel + 1) 40 sig (.vtuple items) st =
      marshalStructItems bo fuel sig items (MState.alignW 8 st) := rfl

theorem marshal1_variant (bo : ByteOrder) (fuel : Nat) (sig : List Nat) (sb : List Nat)
    (w : PyVal) (st : MState) :
    marshal1 bo (fuel + 1) 118 sig (.vtuple [.vstr sb, w]) st =
      ((mStr 1 bo [] sb st).bind fun q =>
        match sb with
        | [] => none
        | c1 :: sbRest =>
          (marshal1 bo fuel c1 sbRest w q.2).map fun r => (sig, r.2)) := rfl

theorem marshal1_dictentry (bo : ByteOrder) (fuel : Nat) (sig : List Nat)
    (pairs : List (PyVal × PyVal)) (st : MState) :
    marshal1 bo (fuel + 1) 123 sig (.vdict pairs) st =
      (match dict_popitem pairs with
       | none => none
       | some kvrest =>
         match sig with
         | [] => none
         | ck :: sig1 =>
           (marshal1 bo fuel ck sig1 kvrest.1.1 (MState.alignW 8 st)).bind fun q =>
           match q.1 with
           | [] => none
           | cv :: sig2 =>
             (marshal1 bo fuel cv sig2 kvrest.1.2 q.2).bind fun r =>
             match r.1 with
             | [] => none
             | cc :: sig3 => if cc = 125 then some (sig3, r.2) else none) := rfl

theorem marshalItems_nil (bo : ByteOrder) (fuel : Nat) (c : Nat) (resetSig cur : List Nat)
    (st : MState) : marshalItems bo fuel c resetSig [] cur st = some (cur, st) := by
  cases fuel <;> rfl

theorem marshalItems_cons (bo : ByteOrder) (fuel : Nat) (c : Nat) (resetSig cur : List Nat)
    (item : PyVal) (rest : List PyVal) (st : MState) :
    marshalItems bo (fuel + 1) c resetSig (item :: rest) cur st =
      ((marshal1 bo fuel c resetSig item st).bind fun q =>
        marshalItems bo fuel c resetSig rest q.1 q.2) := rfl

theorem marshalStructItems_nil (bo : ByteOrder) (fuel : Nat) (items : List PyVal)
    (st : MState) : marshalStructItems bo fuel [] items st = some ([], st) := by
  cases fuel <;> rfl

theorem marshalStructItems_close (bo : ByteOrder) (fuel : Nat) (rest : List Nat)
    (items : List PyVal) (st : MState) :
    marshalStructItems bo fuel (41 :: rest) items st = some (rest, st) := by
  cases fuel <;> cases items <;> with_unfolding_all rfl

theorem marshalStructItems_cons (bo : ByteOrder) (fuel : Nat) (c : Nat) (rest : List Nat)
    (hc : c ≠ 41) (item : PyVal) (irest : List PyVal) (st : MState) :
    marshalStructItems bo (fuel + 1) (c :: rest) (item :: irest) st =
      ((marshal1 bo fuel c rest item st).bind fun q =>
        marshalStructItems bo fuel q.1 irest q.2) := by
  show (if c = 41 then some (rest, st)
        else ((marshal1 bo fuel c rest item st).bind fun q =>
          marshalStructItems bo fuel q.1 irest q.2)) = _
  rw [if_neg hc]

theorem marshalStructItems_empty (bo : ByteOrder) (fuel : Nat) (c : Nat) (rest : List Nat)
    (hc : c ≠ 41) (st : MState) :
    marshalStructItems bo fuel (c :: rest) [] st = none := by
  cases fuel with
  | zero =>
      show (if c = 41 then some (rest, st) else none) = none
      rw [if_neg hc]
  | succ fuel =>
      show (if c = 41 then some (rest, st) else none) = none
      rw [if_neg hc]

theorem marshalTop_nil (bo : ByteOrder) (fuel : Nat) (sig : List Nat) (st : MState) :
    marshalTop bo fuel sig [] st = some st := by
  cases fuel <;> cases sig <;> rfl

theorem marshalTop_cons (bo : ByteOrder) (fuel : Nat) (c : Nat) (sigRest : List Nat)
    (item : PyVal) (rest : List PyVal) (st : MState) :
    marshalTop bo (fuel + 1) (c :: sigRest) (item :: rest) st =
      ((marshal1 bo fuel c sigRest item st).bind fun q =>
        marshalTop bo fuel q.1 rest q.2) := rfl

/-! ## Step equations for the unmarshaller -/

theorem unm1_byte (bo : ByteOrder) (fuel : Nat) (sig : List Nat) (st : UState) :
    unmarshal1 bo fuel 121 sig st =
      (match st.read 1 with
       | ([b], st1) => some (.vint b, sig, st1)
       | _ => none) := by
  cases fuel <;> rfl

theorem unm1_bool (bo : ByteOrder) (fuel : Nat) (sig : List Nat) (st : UState) :
    unmarshal1 bo fuel 98 sig st =
      some (.vbool (((UState.alignR 4 st).read 4).1 ≠ [0, 0, 0, 0] : Bool), sig,
        ((UState.alignR 4 st).read 4).2) := by
  cases fuel <;> rfl

theorem unm1_i16 (bo : ByteOrder) (fuel : Nat) (sig : List Nat) (st : UState) :
    unmarshal1 bo fuel 110 sig st =
      some (.vint (uInt 2 true bo st).1, sig, (uInt 2 true bo st).2) := by
  cases fuel <;> rfl

theorem unm1_u16 (bo : ByteOrder) (fuel : Nat) (sig : List Nat) (st : UState) :
    unmarshal1 bo fuel 113 sig st =
      some (.vint (uInt 2 false bo st).1, sig, (uInt 2 false bo st).2) := by
  cases fuel <;> rfl

theorem unm1_i32 (bo : ByteOrder) (fuel : Nat) (sig : List Nat) (st : UState) :
    unmarshal1 bo fuel 105 sig st =
      some (.vint (uInt 4 true bo st).1, sig, (uInt 4 true bo st).2) := by
  cases fuel <;> rfl

theorem unm1_u32 (bo : ByteOrder) (fuel : Nat) (sig : List Nat) (st : UState) :
    unmarshal1 bo fuel 117 sig st =
      some (.vint (uInt 4 false bo st).1, sig, (uInt 4 false bo st).2) := by
  cases fuel <;> rfl

theorem unm1_i64 (bo : ByteOrder) (fuel : Nat) (sig : List Nat) (st : UState) :
    unmarshal1 bo fuel 120 sig st =
      some (.vint (uInt 8 true bo st).1, sig, (uInt 8 true bo st).2) := by
  cases fuel <;> rfl

theorem unm1_u64 (bo : ByteOrder) (fuel : Nat) (sig : List Nat) (st : UState) :
    unmarshal1 bo fuel 116 sig st =
      some (.vint (uInt 8 false bo st).1, sig, (uInt 8 false bo st).2) := by
  cases fuel <;> rfl

theorem unm1_fd (bo : ByteOrder) (fuel : Nat) (sig : List Nat) (st : UState) :
    unmarshal1 bo fuel 104 sig st =
      some (.vint (uInt 4 false bo st).1, sig, (uInt 4 false bo st).2) := by
  cases fuel <;> rfl

theorem unm1_double (bo : ByteOrder) (fuel : Nat) (sig : List Nat) (st : UState) :
    unmarshal1 bo fuel 100 sig st =
      (if (((UState.alignR 8 st).read 8).1).length = 8 then
        some (.vtuple [.vfloat (ordBytes bo ((UState.alignR 8 st).read 8).1)], sig,
          ((UState.alignR 8 st).read 8).2)
      else none) := by
  cases fuel <;> rfl

theorem unm1_string (bo : ByteOrder) (fuel : Nat) (sig : List Nat) (st : UState) :
    unmarshal1 bo fuel 115 sig st =
      some (.vstr (uStr 4 bo st).1, sig, (uStr 4 bo st).2) := by
  cases fuel <;> rfl

theorem unm1_objpath (bo : ByteOrder) (fuel : Nat) (sig : List Nat) (st : UState) :
    unmarshal1 bo fuel 111 sig st =
      some (.vstr (uStr 4 bo st).1, sig, (uStr 4 bo st).2) := by
  cases fuel <;> rfl

theorem unm1_sig (bo : ByteOrder) (fuel : Nat) (sig : List Nat) (st : UState) :
    unmarshal1 bo fuel 103 sig st =
      some (.vstr (uStr 1 bo st).1, sig, (uStr 1 bo st).2) := by
  cases fuel <;> rfl

theorem unm1_array (bo : ByteOrder) (fuel : Nat) (s : Nat) (sigRest : List Nat)
    (st : UState) :
    unmarshal1 bo (fuel + 1) 97 (s :: sigRest) st =
      unmItems bo fuel s sigRest ((uInt 4 false bo st).1.toNat + (uInt 4 false bo st).2.pos)
        (if s = 123 then .vdict [] else .vlist []) sigRest (uInt 4 false bo st).2 := rfl

theorem unm1_struct (bo : ByteOrder) (fuel : Nat) (sig : List Nat) (st : UState) :
    unmarshal1 bo (fuel + 1) 40 sig st =
      ((unmStructItems bo fuel sig [] (UState.alignR 8 st)).map fun q =>
        (.vtuple q.1, q.2.1, q.2.2)) := rfl

theorem unm1_variant (bo : ByteOrder) (fuel : Nat) (sig : List Nat) (st : UState) :
    unmarshal1 bo (fuel + 1) 118 sig st =
      (match (uStr 1 bo st).1 with
       | [] => none
       | c1 :: sbRest =>
         (unmarshal1 bo fuel c1 sbRest (uStr 1 bo st).2).map fun q =>
           (.vtuple [.vstr (uStr 1 bo st).1, q.1], sig, q.2.2)) := rfl

theorem unm1_dictentry (bo : ByteOrder) (fuel : Nat) (sig : List Nat) (st : UState) :
    unmarshal1 bo (fuel + 1) 123 sig st =
      (match sig with
       | [] => none
       | ck :: sig1 =>
         (unmarshal1 bo fuel ck sig1 (UState.alignR 8 st)).bind fun q =>
         match q.2.1 with
         | [] => none
         | cv :: sig2 =>
           (unmarshal1 bo fuel cv sig2 q.2.2).bind fun r =>
           match r.2.1 with
           | [] => none
           | cc :: sig3 => if cc = 125 then some (.vdict [(q.1, r.1)], sig3, r.2.2) else none) := rfl

theorem unmItems_zero (bo : ByteOrder) (s : Nat) (resetSig : List Nat) (endPos : Nat)
    (container : PyVal) (cur : List Nat) (st : UState) :
    unmItems bo 0 s resetSig endPos container cur st = none := rfl

theorem unmItems_stop (bo : ByteOrder) (fuel : Nat) (s : Nat) (resetSig : List Nat)
    (endPos : Nat) (container : PyVal) (cur : List Nat) (st : UState)
    (h : ¬ st.pos < endPos) :
    unmItems bo (fuel + 1) s resetSig endPos container cur st =
      some (container, cur, st) := by
  show (if st.pos < endPos then _ else some (container, cur, st)) = _
  rw [if_neg h]

theorem unmItems_step (bo : ByteOrder) (fuel : Nat) (s : Nat) (resetSig : List Nat)
    (endPos : Nat) (container : PyVal) (cur : List Nat) (st : UState)
    (h : st.pos < endPos) :
    unmItems bo (fuel + 1) s resetSig endPos container cur st =
      ((unmarshal1 bo fuel s resetSig st).bind fun q =>
        (pyAdd container q.1).bind fun container1 =>
        unmItems bo fuel s resetSig endPos container1 q.2.1 q.2.2) := by
  show (if st.pos < endPos then
          ((unmarshal1 bo fuel s resetSig st).bind fun q =>
            (pyAdd container q.1).bind fun container1 =>
            unmItems bo fuel s resetSig endPos container1 q.2.1 q.2.2)
        else _) = _
  rw [if_pos h]

theorem unmStructItems_nil (bo : ByteOrder) (fuel : Nat) (acc : List PyVal) (st : UState) :
    unmStructItems bo fuel [] acc st = (match fuel with
      | 0 => none
      | _ + 1 => some (acc, [], st)) := by
  cases fuel <;> rfl

theorem unmStructItems_close (bo : ByteOrder) (fuel : Nat) (rest : List Nat)
    (acc : List PyVal) (st : UState) :
    unmStructItems bo (fuel + 1) (41 :: rest) acc st = some (acc, rest, st) := by
  with_unfolding_all rfl

theorem unmStructItems_cons (bo : ByteOrder) (fuel : Nat) (c : Nat) (rest : List Nat)
    (hc : c ≠ 41) (acc : List PyVal) (st : UState) :
    unmStructItems bo (fuel + 1) (c :: rest) acc st =
      ((unmarshal1 bo fuel c rest st).bind fun q =>
        unmStructItems bo fuel q.2.1 (acc ++ [q.1]) q.2.2) := by
  show (if c = 41 then some (acc, rest, st)
        else ((unmarshal1 bo fuel c rest st).bind fun q =>
          unmStructItems bo fuel q.2.1 (acc ++ [q.1]) q.2.2)) = _
  rw [if_neg hc]

theorem unmarshalTop_nil (bo : ByteOrder) (fuel : Nat) (acc : List PyVal) (st : UState) :
    unmarshalTop bo fuel [] acc st = some (acc, st) := by
  cases fuel <;> rfl

theorem unmarshalTop_cons (bo : ByteOrder) (fuel : Nat) (c : Nat) (rest : List Nat)
    (acc : List PyVal) (st : UState) :
    unmarshalTop bo (fuel + 1) (c :: rest) acc st =
      ((unmarshal1 bo fuel c rest st).bind fun q =>
        unmarshalTop bo fuel q.2.1 (acc ++ [q.1]) q.2.2) := rfl

/-! ## Shape of successful encodes: the buffer only grows at the end -/

theorem ExtendsE.alignW {st : MState} (a : Nat) (h : st.pos = st.data.length) :
    ExtendsE st (MState.alignW a st) :=
  ExtendsE.write _ h

theorem MState.alignW_pos {st : MState} (a : Nat) :
    (MState.alignW a st).pos = st.pos + padLen a st.pos := by
  simp [MState.alignW, MState.write]

theorem shape_mByte {sig : List Nat} {v : PyVal} {st : MState} {sig' : List Nat}
    {st' : MState} (h : mByte sig v st = some (sig', st'))
    (hp : st.pos = st.data.length) : ExtendsE st st' := by
  cases v <;> try exact Option.noConfusion h
  rename_i n
  rw [show mByte sig (.vint n) st
      = (if intFits 1 false n then some (sig, st.write [n.toNat]) else none) from rfl] at h
  split at h
  · cases h
    exact ExtendsE.write _ hp
  · exact Option.noConfusion h

theorem shape_mBool {bo : ByteOrder} {sig : List Nat} {v : PyVal} {st : MState}
    {sig' : List Nat} {st' : MState} (h : mBool bo sig v st = some (sig', st'))
    (hp : st.pos = st.data.length) : ExtendsE st st' := by
  cases v <;> try exact Option.noConfusion h
  rename_i b
  cases bo with
  | little =>
      rw [show mBool .little sig (.vbool b) st
          = some (sig, (MState.alignW 4 st).write [if b then 1 else 0, 0, 0, 0]) from rfl] at h
      cases h
      exact (ExtendsE.alignW 4 hp).trans (ExtendsE.write _ (ExtendsE.alignW 4 hp).2)
  | big =>
      rw [show mBool .big sig (.vbool b) st
          = some (sig, (MState.alignW 4 st).write [0, 0, 0, if b then 1 else 0]) from rfl] at h
      cases h
      exact (ExtendsE.alignW 4 hp).trans (ExtendsE.write _ (ExtendsE.alignW 4 hp).2)

theorem shape_mInt {size : Nat} {signed : Bool} {bo : ByteOrder} {sig : List Nat}
    {n : Int} {st : MState} {sig' : List Nat} {st' : MState}
    (h : mInt size signed bo sig n st = some (sig', st'))
    (hp : st.pos = st.data.length) : ExtendsE st st' := by
  unfold mInt at h
  cases hib : intToBytes size signed bo n with
  | none => rw [hib] at h; exact Option.noConfusion h
  | some bs =>
      rw [hib] at h
      cases h
      exact (ExtendsE.alignW size hp).trans (ExtendsE.write _ (ExtendsE.alignW size hp).2)

theorem shape_mIntV {size : Nat} {signed : Bool} {bo : ByteOrder} {sig : List Nat}
    {v : PyVal} {st : MState} {sig' : List Nat} {st' : MState}
    (h : mIntV size signed bo sig v st = some (sig', st'))
    (hp : st.pos = st.data.length) : ExtendsE st st' := by
  cases v <;> try exact Option.noConfusion h
  exact shape_mInt h hp

theorem shape_mDouble {bo : ByteOrder} {sig : List Nat} {v : PyVal} {st : MState}
    {sig' : List Nat} {st' : MState} (h : mDouble bo sig v st = some (sig', st'))
    (hp : st.pos = st.data.length) : ExtendsE st st' := by
  cases v <;> try exact Option.noConfusion h
  rename_i bits
  rw [show mDouble bo sig (.vfloat bits) st
      = (if bits.length = 8 then
          some (sig, (MState.alignW 8 st).write (ordBytes bo bits))
        else none) from rfl] at h
  split at h
  · cases h
    exact (ExtendsE.alignW 8 hp).trans (ExtendsE.write _ (ExtendsE.alignW 8 hp).2)
  · exact Option.noConfusion h

theorem shape_mStr {size : Nat} {bo : ByteOrder} {sig : List Nat} {bs : List Nat}
    {st : MState} {sig' : List Nat} {st' : MState}
    (h : mStr size bo sig bs st = some (sig', st'))
    (hp : st.pos = st.data.length) : ExtendsE st st' := by
  unfold mStr at h
  cases hib : intToBytes size false bo (bs.length : Int) with
  | none => rw [hib] at h; exact Option.noConfusion h
  | some lb =>
      rw [hib] at h
      cases h
      by_cases hs : size > 1
      · rw [if_pos hs]
        have h1 := @ExtendsE.alignW st size hp
        have h2 := h1.trans (ExtendsE.write lb h1.2)
        have h3 := h2.trans (ExtendsE.write bs h2.2)
        exact h3.trans (ExtendsE.write [0] h3.2)
      · rw [if_neg hs]
        have h2 := @ExtendsE.write st lb hp
        have h3 := h2.trans (ExtendsE.write bs h2.2)
        exact h3.trans (ExtendsE.write [0] h3.2)

theorem shape_mStrV {size : Nat} {bo : ByteOrder} {sig : List Nat} {v : PyVal}
    {st : MState} {sig' : List Nat} {st' : MState}
    (h : mStrV size bo sig v st = some (sig', st'))
    (hp : st.pos = st.data.length) : ExtendsE st st' := by
  cases v <;> try exact Option.noConfusion h
  exact shape_mStr h hp

/-- The length backfill of `DBusMarshal.array`: seeking back over a
4-byte placeholder inside the written region, overwriting it, and
seeking to the end keeps the extension shape. -/
theorem patch_lemma (d1 marker d2 lenB : List Nat) (p : Nat)
    (hm : marker.length = 4) (hl : lenB.length = 4) :
    (((MState.mk (d1 ++ (marker ++ d2)) p).seekTo ((d1.length + 4) - 4)).write lenB).seekEnd
      = ⟨d1 ++ (lenB ++ d2), (d1 ++ (lenB ++ d2)).length⟩ := by
  have key : (MState.mk (d1 ++ (marker ++ d2)) (d1.length + 4 - 4)).write lenB
      = ⟨d1 ++ (lenB ++ d2), d1.length + 4⟩ := by
    unfold MState.write
    simp only [Nat.add_sub_cancel]
    congr 1
    · rw [List.take_left' rfl]
      have hdrop : (d1 ++ (marker ++ d2)).drop (d1.length + lenB.length) = d2 := by
        rw [hl, ← List.drop_drop, List.drop_left, ← hm, List.drop_left]
      rw [hdrop, List.append_assoc]
    · rw [hl]
  show ((MState.mk (d1 ++ (marker ++ d2)) (d1.length + 4 - 4)).write lenB).seekEnd = _
  rw [key]
  rfl
/-- The array branch of `marshal1`, as a standalone function for
rewriting. -/
def marshalArrayB (bo : ByteOrder) (fuel : Nat) (sig : List Nat) (v : PyVal)
    (st : MState) : Option (List Nat × MState) :=
  match fuel with
  | 0 => none
  | fuel + 1 =>
    match v with
    | .vlist items =>
        match sig with
        | [] => none
        | c1 :: sigRest =>
          let st2 := (MState.alignW 4 st).write [35, 35, 35, 35]
          let start := st2.pos
          (marshalItems bo fuel c1 sigRest items sigRest st2).bind fun p =>
          (intToBytes 4 false bo (p.2.pos - start)).map fun lenB =>
          (p.1, ((p.2.seekTo (start - 4)).write lenB).seekEnd)
    | _ => none

/-- The struct branch of `marshal1`, as a standalone function. -/
def marshalStructB (bo : ByteOrder) (fuel : Nat) (sig : List Nat) (v : PyVal)
    (st : MState) : Option (List Nat × MState) :=
  match fuel with
  | 0 => none
  | fuel + 1 =>
    match v with
    | .vtuple items => marshalStructItems bo fuel sig items (MState.alignW 8 st)
    | _ => none

/-- The variant branch of `marshal1`, as a standalone function. -/
def marshalVariantB (bo : ByteOrder) (fuel : Nat) (sig : List Nat) (v : PyVal)
    (st : MState) : Option (List Nat × MState) :=
  match fuel with
  | 0 => none
  | fuel + 1 =>
    match v with
    | .vtuple (.vstr sb :: w :: _) =>
        (mStr 1 bo [] sb st).bind fun q =>
        match sb with
        | [] => none
        | c1 :: sbRest =>
          (marshal1 bo fuel c1 sbRest w q.2).map fun r => (sig, r.2)
    | _ => none

/-- The dict-entry branch of `marshal1`, as a standalone function. -/
def marshalDictB (bo : ByteOrder) (fuel : Nat) (sig : List Nat) (v : PyVal)
    (st : MState) : Option (List Nat × MState) :=
  match fuel with
  | 0 => none
  | fuel + 1 =>
    match v with
    | .vdict pairs =>
        match dict_popitem pairs with
        | none => none
        | some kvrest =>
          let st1 := MState.alignW 8 st
          match sig with
          | [] => none
          | ck :: sig1 =>
            (marshal1 bo fuel ck sig1 kvrest.1.1 st1).bind fun q =>
            match q.1 with
            | [] => none
            | cv :: sig2 =>
              (marshal1 bo fuel cv sig2 kvrest.1.2 q.2).bind fun r =>
              match r.1 with
              | [] => none
              | cc :: sig3 => if cc = 125 then some (sig3, r.2) else none
    | _ => none

/-- The dispatch equation of `marshal1`, with every branch a plain
function, suitable for `split`-style case analysis on the type code. -/
theorem marshal1_eq (bo : ByteOrder) (fuel : Nat) (c : Nat) (sig : List Nat) (v : PyVal)
    (st : MState) :
    marshal1 bo fuel c sig v st =
      (if c = 121 then mByte sig v st
       else if c = 98 then mBool bo sig v st
       else if c = 110 then mIntV 2 true bo sig v st
       else if c = 113 then mIntV 2 false bo sig v st
       else if c = 105 then mIntV 4 true bo sig v st
       else if c = 117 then mIntV 4 false bo sig v st
       else if c = 120 then mIntV 8 true bo sig v st
       else if c = 116 then mIntV 8 false bo sig v st
       else if c = 104 then mIntV 4 false bo sig v st
       else if c = 100 then mDouble bo sig v st
       else if c = 115 then mStrV 4 bo sig v st
       else if c = 111 then mStrV 4 bo sig v st
       else if c = 103 then mStrV 1 bo sig v st
       else if c = 97 then marshalArrayB bo fuel sig v st
       else if c = 40 then marshalStructB bo fuel sig v st
       else if c = 118 then marshalVariantB bo fuel sig v st
       else if c = 123 then marshalDictB bo fuel sig v st
       else none) := by
  cases fuel <;> cases v <;> rfl

theorem shape_marshalArrayB {bo : ByteOrder} {fuel : Nat} {sig : List Nat} {v : PyVal}
    {st : MState} {sig' : List Nat} {st' : MState}
    (ihItems : ∀ c resetSig items cur st2 sig2 st2',
      marshalItems bo fuel c resetSig items cur st2 = some (sig2, st2') →
      st2.pos = st2.data.length → ExtendsE st2 st2')
    (h : marshalArrayB bo (fuel + 1) sig v st = some (sig', st'))
    (hp : st.pos = st.data.length) : ExtendsE st st' := by
  cases v <;> try exact Option.noConfusion h
  rename_i items
  cases sig with
  | nil => exact Option.noConfusion h
  | cons c1 sigRest =>
      simp only [marshalArrayB, Option.bind_eq_some, Option.map_eq_some'] at h
      obtain ⟨⟨p1, st3⟩, hp1, lenB, hlenB, heq⟩ := h
      set pad := List.replicate (padLen 4 st.data.length) 0 with hpad
      have hst2 : (MState.alignW 4 st).write [35, 35, 35, 35]
          = ⟨(st.data ++ pad) ++ [35, 35, 35, 35], (st.data ++ pad).length + 4⟩ := by
        rw [MState.alignW_atEnd 4 hp]
        rw [MState.write_atEnd _ (by simp)]
        simp [hpad]
      rw [hst2] at hp1
      have e3 := ihItems _ _ _ _ _ _ _ hp1
        (by simp only [List.length_append, List.length_cons, List.length_nil])
      obtain ⟨⟨delta, hdelta⟩, hpos3⟩ := e3
      simp only at hdelta hpos3
      have hlb4 := intToBytes_length hlenB
      obtain ⟨d3, p3⟩ := st3
      simp only at hdelta hpos3
      subst hdelta
      have hpatch := patch_lemma (st.data ++ pad) [35, 35, 35, 35] delta lenB p3 rfl hlb4
      rw [hst2] at heq
      simp only at heq
      rw [show (MState.mk ((st.data ++ pad) ++ [35, 35, 35, 35] ++ delta) p3)
          = ⟨(st.data ++ pad) ++ ([35, 35, 35, 35] ++ delta), p3⟩ by
            rw [List.append_assoc]] at heq
      rw [hpatch] at heq
      cases heq
      constructor
      · exact ⟨pad ++ (lenB ++ delta), by simp⟩
      · rfl

theorem shape_marshalStructB {bo : ByteOrder} {fuel : Nat} {sig : List Nat} {v : PyVal}
    {st : MState} {sig' : List Nat} {st' : MState}
    (ihS : ∀ sig2 items st2 sig2' st2',
      marshalStructItems bo fuel sig2 items st2 = some (sig2', st2') →
      st2.pos = st2.data.length → ExtendsE st2 st2')
    (h : marshalStructB bo (fuel + 1) sig v st = some (sig', st'))
    (hp : st.pos = st.data.length) : ExtendsE st st' := by
  cases v <;> try exact Option.noConfusion h
  rename_i items
  simp only [marshalStructB] at h
  exact (ExtendsE.alignW 8 hp).trans (ihS _ _ _ _ _ h (ExtendsE.alignW 8 hp).2)

theorem shape_marshalVariantB {bo : ByteOrder} {fuel : Nat} {sig : List Nat} {v : PyVal}
    {st : MState} {sig' : List Nat} {st' : MState}
    (ih1 : ∀ c sig2 v2 st2 sig2' st2',
      marshal1 bo fuel c sig2 v2 st2 = some (sig2', st2') →
      st2.pos = st2.data.length → ExtendsE st2 st2')
    (h : marshalVariantB bo (fuel + 1) sig v st = some (sig', st'))
    (hp : st.pos = st.data.length) : ExtendsE st st' := by
  cases v <;> try exact Option.noConfusion h
  rename_i items
  cases items with
  | nil => exact Option.noConfusion h
  | cons a as =>
    cases as with
    | nil => cases a <;> exact Option.noConfusion h
    | cons w bs =>
      cases a with
      | vint n => exact Option.noConfusion h
      | vbool b => exact Option.noConfusion h
      | vfloat f => exact Option.noConfusion h
      | vtuple ts => exact Option.noConfusion h
      | vlist ts => exact Option.noConfusion h
      | vdict ps => exact Option.noConfusion h
      | vstr sb =>
        simp only [marshalVariantB, Option.bind_eq_some] at h
        obtain ⟨q, hq, h2⟩ := h
        have e1 : ExtendsE st q.2 := shape_mStr hq hp
        cases sb with
        | nil => exact Option.noConfusion h2
        | cons c1 sbRest =>
          simp only [Option.map_eq_some'] at h2
          obtain ⟨r, hr, h3⟩ := h2
          cases h3
          exact e1.trans (ih1 _ _ _ _ _ _ hr e1.2)

theorem shape_marshalDictB {bo : ByteOrder} {fuel : Nat} {sig : List Nat} {v : PyVal}
    {st : MState} {sig' : List Nat} {st' : MState}
    (ih1 : ∀ c sig2 v2 st2 sig2' st2',
      marshal1 bo fuel c sig2 v2 st2 = some (sig2', st2') →
      st2.pos = st2.data.length → ExtendsE st2 st2')
    (h : marshalDictB bo (fuel + 1) sig v st = some (sig', st'))
    (hp : st.pos = st.data.length) : ExtendsE st st' := by
  cases v <;> try exact Option.noConfusion h
  rename_i pairs
  simp only [marshalDictB] at h
  cases hpop : dict_popitem pairs with
  | none => rw [hpop] at h; exact Option.noConfusion h
  | some kvrest =>
      rw [hpop] at h
      cases sig with
      | nil => exact Option.noConfusion h
      | cons ck sig1 =>
          simp only [Option.bind_eq_some] at h
          obtain ⟨⟨q1, qst⟩, hq, h2⟩ := h
          have e1 : ExtendsE st qst :=
            (ExtendsE.alignW 8 hp).trans (ih1 _ _ _ _ _ _ hq (ExtendsE.alignW 8 hp).2)
          cases q1 with
          | nil => exact Option.noConfusion h2
          | cons cv sig2 =>
            simp only [Option.bind_eq_some] at h2
            obtain ⟨⟨r1, rst⟩, hr, h3⟩ := h2
            have e2 : ExtendsE st rst := e1.trans (ih1 _ _ _ _ _ _ hr e1.2)
            cases r1 with
            | nil => exact Option.noConfusion h3
            | cons rc rrest =>
              have h4 : (if rc = 125 then some (rrest, rst) else none)
                  = some (sig', st') := h3
              by_cases hrc : rc = 125
              · rw [if_pos hrc] at h4
                cases h4
                exact e2
              · rw [if_neg hrc] at h4
                exact Option.noConfusion h4

/-- Dispatch of the shape property over the 17 type codes of `marshal1`. -/
theorem shape_dispatch {bo : ByteOrder} {fuel : Nat}
    (ihA : ∀ sig v st sig' st', marshalArrayB bo fuel sig v st = some (sig', st') →
      st.pos = st.data.length → ExtendsE st st')
    (ihS : ∀ sig v st sig' st', marshalStructB bo fuel sig v st = some (sig', st') →
      st.pos = st.data.length → ExtendsE st st')
    (ihV : ∀ sig v st sig' st', marshalVariantB bo fuel sig v st = some (sig', st') →
      st.pos = st.data.length → ExtendsE st st')
    (ihD : ∀ sig v st sig' st', marshalDictB bo fuel sig v st = some (sig', st') →
      st.pos = st.data.length → ExtendsE st st')
    {c : Nat} {sig : List Nat} {v : PyVal} {st : MState}
    {sig' : List Nat} {st' : MState}
    (h : marshal1 bo fuel c sig v st = some (sig', st'))
    (hp : st.pos = st.data.length) : ExtendsE st st' := by
  rw [marshal1_eq] at h
  by_cases hc0 : c = 121
  · rw [if_pos hc0] at h
    exact shape_mByte h hp
  · rw [if_neg hc0] at h
    by_cases hc1 : c = 98
    · rw [if_pos hc1] at h
      exact shape_mBool h hp
    · rw [if_neg hc1] at h
      by_cases hc2 : c = 110
      · rw [if_pos hc2] at h
        exact shape_mIntV h hp
      · rw [if_neg hc2] at h
        by_cases hc3 : c = 113
        · rw [if_pos hc3] at h
          exact shape_mIntV h hp
        · rw [if_neg hc3] at h
          by_cases hc4 : c = 105
          · rw [if_pos hc4] at h
            exact shape_mIntV h hp
          · rw [if_neg hc4] at h
            by_cases hc5 : c = 117
            · rw [if_pos hc5] at h
              exact shape_mIntV h hp
            · rw [if_neg hc5] at h
              by_cases hc6 : c = 120
              · rw [if_pos hc6] at h
                exact shape_mIntV h hp
              · rw [if_neg hc6] at h
                by_cases hc7 : c = 116
                · rw [if_pos hc7] at h
                  exact shape_mIntV h hp
                · rw [if_neg hc7] at h
                  by_cases hc8 : c = 104
                  · rw [if_pos hc8] at h
                    exact shape_mIntV h hp
                  · rw [if_neg hc8] at h
                    by_cases hc9 : c = 100
                    · rw [if_pos hc9] at h
                      exact shape_mDouble h hp
                    · rw [if_neg hc9] at h
                      by_cases hc10 : c = 115
                      · rw [if_pos hc10] at h
                        exact shape_mStrV h hp
                      · rw [if_neg hc10] at h
                        by_cases hc11 : c = 111
                        · rw [if_pos hc11] at h
                          exact shape_mStrV h hp
                        · rw [if_neg hc11] at h
                          by_cases hc12 : c = 103
                          · rw [if_pos hc12] at h
                            exact shape_mStrV h hp
                          · rw [if_neg hc12] at h
                            by_cases hc13 : c = 97
                            · rw [if_pos hc13] at h
                              exact ihA _ _ _ _ _ h hp
                            · rw [if_neg hc13] at h
                              by_cases hc14 : c = 40
                              · rw [if_pos hc14] at h
                                exact ihS _ _ _ _ _ h hp
                              · rw [if_neg hc14] at h
                                by_cases hc15 : c = 118
                                · rw [if_pos hc15] at h
                                  exact ihV _ _ _ _ _ h hp
                                · rw [if_neg hc15] at h
                                  by_cases hc16 : c = 123
                                  · rw [if_pos hc16] at h
                                    exact ihD _ _ _ _ _ h hp
                                  · rw [if_neg hc16] at h
                                    exact Option.noConfusion h

/-- Every successful marshalling step extends the buffer at the end and
leaves the cursor at the end (the array backfill stays inside the newly
written region). -/
theorem marshal_shape (fuel : Nat) :
    (∀ bo c sig v st sig' st', marshal1 bo fuel c sig v st = some (sig', st') →
      st.pos = st.data.length → ExtendsE st st')
  ∧ (∀ bo c resetSig items cur st sig' st',
      marshalItems bo fuel c resetSig items cur st = some (sig', st') →
      st.pos = st.data.length → ExtendsE st st')
  ∧ (∀ bo sig items st sig' st',
      marshalStructItems bo fuel sig items st = some (sig', st') →
      st.pos = st.data.length → ExtendsE st st') := by
  induction fuel with
  | zero =>
      refine ⟨?_, ?_, ?_⟩
      · intro bo c sig v st sig' st' h hp
        exact shape_dispatch
          (fun _ _ _ _ _ h _ => Option.noConfusion h)
          (fun _ _ _ _ _ h _ => Option.noConfusion h)
          (fun _ _ _ _ _ h _ => Option.noConfusion h)
          (fun _ _ _ _ _ h _ => Option.noConfusion h) h hp
      · intro bo c resetSig items cur st sig' st' h hp
        cases items with
        | nil =>
            rw [marshalItems_nil] at h
            cases h
            exact ExtendsE.refl hp
        | cons item rest => exact Option.noConfusion h
      · intro bo sig items st sig' st' h hp
        cases sig with
        | nil =>
            rw [marshalStructItems_nil] at h
            cases h
            exact ExtendsE.refl hp
        | cons c rest =>
            by_cases hc : c = 41
            · subst hc
              rw [marshalStructItems_close] at h
              cases h
              exact ExtendsE.refl hp
            · cases items with
              | nil =>
                  rw [marshalStructItems_empty bo 0 c rest hc] at h
                  cases h
              | cons item irest =>
                  rw [show marshalStructItems bo 0 (c :: rest) (item :: irest) st
                      = (if c = 41 then some (rest, st) else none) from rfl] at h
                  rw [if_neg hc] at h
                  cases h
  | succ fuel ih =>
      obtain ⟨ih1, ih2, ih3⟩ := ih
      refine ⟨?_, ?_, ?_⟩
      · intro bo c sig v st sig' st' h hp
        exact shape_dispatch
          (fun _ _ _ _ _ h hp => shape_marshalArrayB (fun c2 => ih2 bo c2) h hp)
          (fun _ _ _ _ _ h hp => shape_marshalStructB (fun sig2 => ih3 bo sig2) h hp)
          (fun _ _ _ _ _ h hp => shape_marshalVariantB (fun c2 => ih1 bo c2) h hp)
          (fun _ _ _ _ _ h hp => shape_marshalDictB (fun c2 => ih1 bo c2) h hp) h hp
      · intro bo c resetSig items cur st sig' st' h hp
        cases items with
        | nil =>
            rw [marshalItems_nil] at h
            cases h
            exact ExtendsE.refl hp
        | cons item rest =>
            rw [marshalItems_cons] at h
            simp only [Option.bind_eq_some] at h
            obtain ⟨q, hq, h2⟩ := h
            have e1 : ExtendsE st q.2 := ih1 bo _ _ _ _ _ _ hq hp
            exact e1.trans (ih2 bo _ _ _ _ _ _ _ h2 e1.2)
      · intro bo sig items st sig' st' h hp
        cases sig with
        | nil =>
            rw [marshalStructItems_nil] at h
            cases h
            exact ExtendsE.refl hp
        | cons c rest =>
            by_cases hc : c = 41
            · subst hc
              rw [marshalStructItems_close] at h
              cases h
              exact ExtendsE.refl hp
            · cases items with
              | nil =>
                  rw [marshalStructItems_empty bo (fuel + 1) c rest hc] at h
                  cases h
              | cons item irest =>
                  rw [marshalStructItems_cons bo fuel c rest hc] at h
                  simp only [Option.bind_eq_some] at h
                  obtain ⟨q, hq, h2⟩ := h
                  have e1 : ExtendsE st q.2 := ih1 bo _ _ _ _ _ _ hq hp
                  exact e1.trans (ih3 bo _ _ _ _ _ h2 e1.2)

/-! ## Signature parsing is sound for `sigOf` -/

theorem parseOneF_succ (fuel : Nat) (c : Nat) (r : List Nat) :
    parseOneF (fuel + 1) (c :: r) =
      (if c = 121 then some (.byteT, r)
          else if c = 98 then some (.booleanT, r)
          else if c = 110 then some (.int16T, r)
          else if c = 113 then some (.uint16T, r)
          else if c = 105 then some (.int32T, r)
          else if c = 117 then some (.uint32T, r)
          else if c = 120 then some (.int64T, r)
          else if c = 116 then some (.uint64T, r)
          else if c = 100 then some (.doubleT, r)
          else if c = 115 then some (.stringT, r)
          else if c = 111 then some (.objpathT, r)
          else if c = 103 then some (.sigT, r)
          else if c = 104 then some (.unixfdT, r)
          else if c = 118 then some (.variantT, r)
          else if c = 97 then (parseOneF fuel r).map fun q => (.arrayT q.1, q.2)
          else if c = 40 then (parseFieldsF fuel r).map fun q => (.structT q.1, q.2)
          else none) := rfl

theorem parseFieldsF_succ (fuel : Nat) (c : Nat) (r : List Nat) :
    parseFieldsF (fuel + 1) (c :: r) =
      (if c = 41 then some ([], r)
          else
            (parseOneF fuel (c :: r)).bind fun q =>
            (parseFieldsF fuel q.2).map fun w => (q.1 :: w.1, w.2)) := rfl

/-- A parsed type's signature is exactly the consumed prefix. -/
theorem parse_sound (fuel : Nat) :
    (∀ sig t rest, parseOneF fuel sig = some (t, rest) → sig = sigOf t ++ rest)
  ∧ (∀ sig ts rest, parseFieldsF fuel sig = some (ts, rest) →
      sig = sigOfList ts ++ (41 :: rest)) := by
  induction fuel with
  | zero =>
      constructor
      · intro sig t rest h
        exact Option.noConfusion h
      · intro sig ts rest h
        exact Option.noConfusion h
  | succ fuel ih =>
      obtain ⟨ih1, ih2⟩ := ih
      constructor
      · intro sig t rest h
        cases sig with
        | nil => exact Option.noConfusion h
        | cons c r =>
            rw [parseOneF_succ] at h
            by_cases h0 : c = 121
            · rw [if_pos h0] at h
              cases h
              subst h0
              rfl
            · rw [if_neg h0] at h
              by_cases h1 : c = 98
              · rw [if_pos h1] at h
                cases h
                subst h1
                rfl
              · rw [if_neg h1] at h
                by_cases h2 : c = 110
                · rw [if_pos h2] at h
                  cases h
                  subst h2
                  rfl
                · rw [if_neg h2] at h
                  by_cases h3 : c = 113
                  · rw [if_pos h3] at h
                    cases h
                    subst h3
                    rfl
                  · rw [if_neg h3] at h
                    by_cases h4 : c = 105
                    · rw [if_pos h4] at h
                      cases h
                      subst h4
                      rfl
                    · rw [if_neg h4] at h
                      by_cases h5 : c = 117
                      · rw [if_pos h5] at h
                        cases h
                        subst h5
                        rfl
                      · rw [if_neg h5] at h
                        by_cases h6 : c = 120
                        · rw [if_pos h6] at h
                          cases h
                          subst h6
                          rfl
                        · rw [if_neg h6] at h
                          by_cases h7 : c = 116
                          · rw [if_pos h7] at h
                            cases h
                            subst h7
                            rfl
                          · rw [if_neg h7] at h
                            by_cases h8 : c = 100
                            · rw [if_pos h8] at h
                              cases h
                              subst h8
                              rfl
                            · rw [if_neg h8] at h
                              by_cases h9 : c = 115
                              · rw [if_pos h9] at h
                                cases h
                                subst h9
                                rfl
                              · rw [if_neg h9] at h
                                by_cases h10 : c = 111
                                · rw [if_pos h10] at h
                                  cases h
                                  subst h10
                                  rfl
                                · rw [if_neg h10] at h
                                  by_cases h11 : c = 103
                                  · rw [if_pos h11] at h
                                    cases h
                                    subst h11
                                    rfl
                                  · rw [if_neg h11] at h
                                    by_cases h12 : c = 104
                                    · rw [if_pos h12] at h
                                      cases h
                                      subst h12
                                      rfl
                                    · rw [if_neg h12] at h
                                      by_cases h13 : c = 118
                                      · rw [if_pos h13] at h
                                        cases h
                                        subst h13
                                        rfl
                                      · rw [if_neg h13] at h
                                        by_cases h14 : c = 97
                                        · rw [if_pos h14] at h
                                          simp only [Option.map_eq_some'] at h
                                          obtain ⟨q, hq, heq⟩ := h
                                          cases heq
                                          subst h14
                                          rw [ih1 r q.1 q.2 hq]
                                          rfl
                                        · rw [if_neg h14] at h
                                          by_cases h15 : c = 40
                                          · rw [if_pos h15] at h
                                            simp only [Option.bind_eq_some, Option.map_eq_some'] at h
                                            obtain ⟨q, hq, heq⟩ := h
                                            cases heq
                                            subst h15
                                            rw [ih2 r q.1 q.2 hq]
                                            show 40 :: (sigOfList q.1 ++ (41 :: q.2)) = (40 :: (sigOfList q.1 ++ [41])) ++ q.2
                                            simp [List.append_assoc]
                                          · rw [if_neg h15] at h
                                            exact Option.noConfusion h
      · intro sig ts rest h
        cases sig with
        | nil => exact Option.noConfusion h
        | cons c r =>
            rw [parseFieldsF_succ] at h
            by_cases h41 : c = 41
            · rw [if_pos h41] at h
              cases h
              subst h41
              rfl
            · rw [if_neg h41] at h
              simp only [Option.bind_eq_some, Option.map_eq_some'] at h
              obtain ⟨q, hq, w, hw, heq⟩ := h
              cases heq
              rw [ih1 _ q.1 q.2 hq, ih2 _ w.1 w.2 hw]
              show sigOf q.1 ++ (sigOfList w.1 ++ (41 :: w.2))
                 = (sigOf q.1 ++ sigOfList w.1) ++ (41 :: w.2)
              simp [List.append_assoc]

/-- Every single complete type's signature starts with a code that is
not a closing paren, a dict-entry opener, or a dict-entry closer. -/
theorem sigOf_cons (t : DType) :
    ∃ c body, sigOf t = c :: body ∧ c ≠ 41 ∧ c ≠ 123 ∧ c ≠ 125 := by
  cases t <;> exact ⟨_, _, rfl, by decide, by decide, by decide⟩

theorem buf_assoc (pre d1 d2 ext : List Nat) :
    pre ++ ((d1 ++ d2) ++ ext) = (pre ++ d1) ++ (d2 ++ ext) := by
  simp [List.append_assoc]

theorem len_append (pre d1 : List Nat) :
    (pre ++ d1).length = pre.length + d1.length := by simp

theorem rt_mInt {size : Nat} {signed : Bool} {bo : ByteOrder} {rest : List Nat} {n : Int}
    {st : MState} {sig' : List Nat} {st' : MState}
    (hsz : 0 < size)
    (h : mInt size signed bo rest n st = some (sig', st'))
    (hp : st.pos = st.data.length) :
    sig' = rest ∧
    ∃ delta, st'.data = st.data ++ delta ∧ st'.pos = st'.data.length ∧ delta ≠ [] ∧
      ∀ pre2 ext, pre2.length = st.data.length →
        uInt size signed bo ⟨pre2 ++ (delta ++ ext), pre2.length⟩
          = (n, ⟨pre2 ++ (delta ++ ext), pre2.length + delta.length⟩) := by
  rw [mInt] at h
  simp only [Option.map_eq_some'] at h
  obtain ⟨bs, hbs, heq⟩ := h
  have hlen : bs.length = size := intToBytes_length hbs
  cases heq
  rw [MState.alignW_atEnd size hp, MState.write_atEnd bs (by simp)]
  refine ⟨rfl, List.replicate (padLen size st.data.length) 0 ++ bs, by simp,
    by simp [Nat.add_assoc], ?_, ?_⟩
  · have : 0 < (List.replicate (padLen size st.data.length) 0 ++ bs).length := by
      simp [hlen]; omega
    exact List.length_pos.mp this
  · intro pre2 ext hpre
    have hbuf : pre2 ++ ((List.replicate (padLen size st.data.length) 0 ++ bs) ++ ext)
        = (pre2 ++ List.replicate (padLen size st.data.length) 0) ++ (bs ++ ext) :=
      buf_assoc _ _ _ _
    have hpre2 : (pre2 ++ List.replicate (padLen size st.data.length) 0).length
        = pre2.length + padLen size pre2.length := by
      simp [hpre]
    rw [uInt]
    rw [UState.alignR_eq]
    rw [hbuf]
    rw [show pre2.length + padLen size pre2.length
        = (pre2 ++ List.replicate (padLen size st.data.length) 0).length from hpre2.symm]
    rw [UState.read_exact hlen]
    have hval : (if signed then fromBytesS bo bs else (fromBytesU bo bs : Int)) = n := by
      cases signed with
      | true => simpa using intToBytes_signed_inv hsz hbs
      | false => simpa using (intToBytes_unsigned_inv hbs).2.2
    rw [hval]
    refine congrArg _ ?_
    rw [hpre2]
    simp [hlen, hpre]
    omega

theorem rt_mStr {size : Nat} {bo : ByteOrder} {rest bsv : List Nat}
    {st : MState} {sig' : List Nat} {st' : MState}
    (hsz : 0 < size)
    (h : mStr size bo rest bsv st = some (sig', st'))
    (hp : st.pos = st.data.length) :
    sig' = rest ∧
    ∃ delta, st'.data = st.data ++ delta ∧ st'.pos = st'.data.length ∧ delta ≠ [] ∧
      ∀ pre2 ext, pre2.length = st.data.length →
        uStr size bo ⟨pre2 ++ (delta ++ ext), pre2.length⟩
          = (bsv, ⟨pre2 ++ (delta ++ ext), pre2.length + delta.length⟩) := by
  rw [mStr] at h
  simp only [Option.map_eq_some'] at h
  obtain ⟨lb, hlb, heq⟩ := h
  have hlen : lb.length = size := intToBytes_length hlb
  have hlv : fromBytesU bo lb = bsv.length := by
    have := (intToBytes_unsigned_inv hlb).2.2
    exact_mod_cast this
  cases heq
  by_cases hgt : size > 1
  · rw [if_pos hgt] at *
    rw [MState.alignW_atEnd size hp, MState.write_atEnd lb (by simp [Nat.add_assoc]),
        MState.write_atEnd bsv (by simp [Nat.add_assoc]), MState.write_atEnd [0] (by simp [Nat.add_assoc])]
    refine ⟨rfl, List.replicate (padLen size st.data.length) 0 ++ (lb ++ (bsv ++ [0])),
      by simp [List.append_assoc], by simp [Nat.add_assoc], ?_, ?_⟩
    · have : 0 < (List.replicate (padLen size st.data.length) 0 ++ (lb ++ (bsv ++ [0]))).length := by
        simp
      exact List.length_pos.mp this
    · intro pre2 ext hpre
      rw [uStr]
      rw [if_pos hgt, UState.alignR_eq]
      have hb1 : pre2 ++ ((List.replicate (padLen size st.data.length) 0 ++ (lb ++ (bsv ++ [0]))) ++ ext)
          = (pre2 ++ List.replicate (padLen size st.data.length) 0) ++ (lb ++ ((bsv ++ [0]) ++ ext)) := by
        simp [List.append_assoc]
      have hpre2 : (pre2 ++ List.replicate (padLen size st.data.length) 0).length
          = pre2.length + padLen size pre2.length := by simp [hpre]
      rw [hb1, show pre2.length + padLen size pre2.length
          = (pre2 ++ List.replicate (padLen size st.data.length) 0).length from hpre2.symm]
      rw [UState.read_exact hlen]
      have hb2 : (pre2 ++ List.replicate (padLen size st.data.length) 0) ++ (lb ++ ((bsv ++ [0]) ++ ext))
          = ((pre2 ++ List.replicate (padLen size st.data.length) 0) ++ lb) ++ (bsv ++ ([0] ++ ext)) := by
        simp [List.append_assoc]
      have hpre3 : (pre2 ++ List.replicate (padLen size st.data.length) 0).length + size
          = ((pre2 ++ List.replicate (padLen size st.data.length) 0) ++ lb).length := by
        simp [hlen, Nat.add_assoc]
      rw [hb2, hlv, hpre3, UState.read_exact rfl]
      rw [UState.seekBy]
      refine congrArg _ ?_
      simp only [← hb2, ← hb1]
      refine congrArg _ ?_
      simp [hlen, hpre, hpre2]
      omega
  · rw [if_neg hgt] at *
    rw [MState.write_atEnd lb hp, MState.write_atEnd bsv (by simp [Nat.add_assoc]),
        MState.write_atEnd [0] (by simp [Nat.add_assoc])]
    refine ⟨rfl, lb ++ (bsv ++ [0]),
      by simp [List.append_assoc], by simp [Nat.add_assoc], ?_, ?_⟩
    · have : 0 < (lb ++ (bsv ++ [0])).length := by simp
      exact List.length_pos.mp this
    · intro pre2 ext hpre
      rw [uStr]
      rw [if_neg hgt]
      have hb1 : pre2 ++ ((lb ++ (bsv ++ [0])) ++ ext)
          = pre2 ++ (lb ++ ((bsv ++ [0]) ++ ext)) := by
        simp [List.append_assoc]
      rw [hb1, UState.read_exact hlen]
      have hb2 : pre2 ++ (lb ++ ((bsv ++ [0]) ++ ext))
          = (pre2 ++ lb) ++ (bsv ++ ([0] ++ ext)) := by
        simp [List.append_assoc]
      have hpre3 : pre2.length + size = (pre2 ++ lb).length := by simp [hlen]
      rw [hb2, hlv, hpre3, UState.read_exact rfl]
      rw [UState.seekBy]
      refine congrArg _ ?_
      simp only [← hb2, ← hb1]
      refine congrArg _ ?_
      simp [hlen]
      omega

theorem rt_mByte {bo : ByteOrder} {rest : List Nat} {v : PyVal}
    {st : MState} {sig' : List Nat} {st' : MState}
    (h : mByte rest v st = some (sig', st'))
    (hp : st.pos = st.data.length) :
    sig' = rest ∧
    ∃ delta, st'.data = st.data ++ delta ∧ st'.pos = st'.data.length ∧ delta ≠ [] ∧
      ∀ fuelU pre2 ext, pre2.length = st.data.length →
        unmarshal1 bo fuelU 121 rest ⟨pre2 ++ (delta ++ ext), pre2.length⟩
          = some (v, rest, ⟨pre2 ++ (delta ++ ext), pre2.length + delta.length⟩) := by
  cases v <;> try exact Option.noConfusion h
  rename_i n
  rw [mByte] at h
  by_cases hf : intFits 1 false n = true
  · rw [if_pos hf] at h
    cases h
    rw [intFits] at hf
    simp only [decide_eq_true_eq] at hf
    rw [MState.write_atEnd [n.toNat] hp]
    refine ⟨rfl, [n.toNat], rfl, by simp, by simp, ?_⟩
    intro fuelU pre2 ext hpre
    rw [unm1_byte]
    have hb1 : pre2 ++ (([n.toNat]) ++ ext) = pre2 ++ (([n.toNat]) ++ ext) := rfl
    rw [show ([n.toNat] : List Nat) ++ ext = [n.toNat] ++ ext from rfl]
    rw [UState.read_exact (show ([n.toNat] : List Nat).length = 1 from rfl)]
    have hn : ((n.toNat : Nat) : Int) = n := Int.toNat_of_nonneg hf.1
    simp only
    rw [hn]
    rfl
  · rw [if_neg hf] at h
    exact Option.noConfusion h

theorem rt_mBool {bo : ByteOrder} {rest : List Nat} {v : PyVal}
    {st : MState} {sig' : List Nat} {st' : MState}
    (h : mBool bo rest v st = some (sig', st'))
    (hp : st.pos = st.data.length) :
    sig' = rest ∧
    ∃ delta, st'.data = st.data ++ delta ∧ st'.pos = st'.data.length ∧ delta ≠ [] ∧
      ∀ fuelU pre2 ext, pre2.length = st.data.length →
        unmarshal1 bo fuelU 98 rest ⟨pre2 ++ (delta ++ ext), pre2.length⟩
          = some (v, rest, ⟨pre2 ++ (delta ++ ext), pre2.length + delta.length⟩) := by
  cases v <;> try exact Option.noConfusion h
  rename_i b
  have key : ∀ f : List Nat, f.length = 4 → ((f ≠ [0, 0, 0, 0] : Bool)) = b →
      some (rest, (MState.alignW 4 st).write f) = some (sig', st') →
      sig' = rest ∧
      ∃ delta, st'.data = st.data ++ delta ∧ st'.pos = st'.data.length ∧ delta ≠ [] ∧
        ∀ fuelU pre2 ext, pre2.length = st.data.length →
          unmarshal1 bo fuelU 98 rest ⟨pre2 ++ (delta ++ ext), pre2.length⟩
            = some (.vbool b, rest, ⟨pre2 ++ (delta ++ ext), pre2.length + delta.length⟩) := by
    intro f hflen hdec h'
    cases h'
    rw [MState.alignW_atEnd 4 hp,
        MState.write_atEnd _ (by simp [Nat.add_assoc])]
    refine ⟨rfl, List.replicate (padLen 4 st.data.length) 0 ++ f,
      by simp [List.append_assoc], by simp [Nat.add_assoc], ?_, ?_⟩
    · have : 0 < (List.replicate (padLen 4 st.data.length) 0 ++ f).length := by
        simp [hflen]
      exact List.length_pos.mp this
    · intro fuelU pre2 ext hpre
      rw [unm1_bool]
      have hb1 : pre2 ++ ((List.replicate (padLen 4 st.data.length) 0 ++ f) ++ ext)
          = (pre2 ++ List.replicate (padLen 4 st.data.length) 0) ++ (f ++ ext) := by
        simp [List.append_assoc]
      have hpre2 : (pre2 ++ List.replicate (padLen 4 st.data.length) 0).length
          = pre2.length + padLen 4 pre2.length := by simp [hpre]
      rw [UState.alignR_eq, hb1,
          show pre2.length + padLen 4 pre2.length
            = (pre2 ++ List.replicate (padLen 4 st.data.length) 0).length from hpre2.symm,
          UState.read_exact hflen]
      rw [hdec]
      refine congrArg _ ?_
      refine congrArg _ ?_
      simp only [← hb1]
      refine congrArg _ ?_
      rw [hpre2]
      simp [hflen, hpre]
      omega
  cases bo with
  | little =>
      cases b with
      | true => exact key [1, 0, 0, 0] rfl (by decide) h
      | false => exact key [0, 0, 0, 0] rfl (by decide) h
  | big =>
      cases b with
      | true => exact key [0, 0, 0, 1] rfl (by decide) h
      | false => exact key [0, 0, 0, 0] rfl (by decide) h

theorem unm1_variant_cons {bo : ByteOrder} {fuel : Nat} {sig : List Nat} {st st2 : UState}
    {c1 : Nat} {sbRest : List Nat}
    (hu : uStr 1 bo st = (c1 :: sbRest, st2)) :
    unmarshal1 bo (fuel + 1) 118 sig st =
      ((unmarshal1 bo fuel c1 sbRest st2).map fun q =>
        (.vtuple [.vstr (c1 :: sbRest), q.1], sig, q.2.2)) := by
  rw [unm1_variant, hu]

theorem uInt_at {size : Nat} {bo : ByteOrder} {n : Int} {bs : List Nat} {P : Nat}
    {pre2 tail : List Nat}
    (hbs : intToBytes size false bo n = some bs)
    (hpre : pre2.length = P) :
    uInt size false bo
        ⟨pre2 ++ (List.replicate (padLen size P) 0 ++ (bs ++ tail)), pre2.length⟩
      = (n, ⟨pre2 ++ (List.replicate (padLen size P) 0 ++ (bs ++ tail)),
             pre2.length + (padLen size P + size)⟩) := by
  have hlen := intToBytes_length hbs
  rw [uInt, UState.alignR_eq]
  have hb1 : pre2 ++ (List.replicate (padLen size P) 0 ++ (bs ++ tail))
      = (pre2 ++ List.replicate (padLen size P) 0) ++ (bs ++ tail) := by
    simp [List.append_assoc]
  rw [hb1]
  rw [show pre2.length + padLen size pre2.length
      = (pre2 ++ List.replicate (padLen size P) 0).length by simp [hpre]]
  rw [UState.read_exact hlen]
  rw [show ((if false = true then fromBytesS bo bs else (fromBytesU bo bs : Int))) = n by
    simp
    exact (intToBytes_unsigned_inv hbs).2.2]
  refine congrArg _ ?_
  show (⟨(pre2 ++ List.replicate (padLen size P) 0) ++ (bs ++ tail),
        (pre2 ++ List.replicate (padLen size P) 0).length + size⟩ : UState) = _
  congr 1
  simp only [List.length_append, List.length_replicate, hpre]
  omega

/-! ## The codec round trip -/

def RTVal (bo : ByteOrder) (fuelM : Nat) : Prop :=
  ∀ t c body rest v st sig' st',
    sigOf t = c :: body →
    goodT t = true → goodV t v = true →
    st.pos = st.data.length →
    marshal1 bo fuelM c (body ++ rest) v st = some (sig', st') →
    sig' = rest ∧
    ∃ delta, st'.data = st.data ++ delta ∧ st'.pos = st'.data.length ∧
      (posSize t = true → delta ≠ []) ∧
      ∃ N, ∀ fuelU, N ≤ fuelU → ∀ pre2 ext, pre2.length = st.data.length →
        unmarshal1 bo fuelU c (body ++ rest) ⟨pre2 ++ (delta ++ ext), pre2.length⟩
          = some (v, rest, ⟨pre2 ++ (delta ++ ext), pre2.length + delta.length⟩)

def RTItems (bo : ByteOrder) (fuelM : Nat) : Prop :=
  ∀ te c body rest items cur st sig' st',
    sigOf te = c :: body →
    goodT te = true → posSize te = true → goodVList te items = true →
    st.pos = st.data.length →
    marshalItems bo fuelM c (body ++ rest) items cur st = some (sig', st') →
    sig' = (if items.isEmpty then cur else rest) ∧
    ∃ delta, st'.data = st.data ++ delta ∧ st'.pos = st'.data.length ∧
      ∃ N, ∀ fuelU, N ≤ fuelU → ∀ pre2 ext acc cur2, pre2.length = st.data.length →
        unmItems bo fuelU c (body ++ rest) (pre2.length + delta.length)
            (.vlist acc) cur2 ⟨pre2 ++ (delta ++ ext), pre2.length⟩
          = some (.vlist (acc ++ items), (if items.isEmpty then cur2 else rest),
                  ⟨pre2 ++ (delta ++ ext), pre2.length + delta.length⟩)

def RTFields (bo : ByteOrder) (fuelM : Nat) : Prop :=
  ∀ ts rest items st sig' st',
    goodTList ts = true → goodVFields ts items = true →
    st.pos = st.data.length →
    marshalStructItems bo fuelM (sigOfList ts ++ (41 :: rest)) items st = some (sig', st') →
    sig' = rest ∧
    ∃ delta, st'.data = st.data ++ delta ∧ st'.pos = st'.data.length ∧
      (posSizeList ts = true → delta ≠ []) ∧
      ∃ N, ∀ fuelU, N ≤ fuelU → ∀ pre2 ext acc, pre2.length = st.data.length →
        unmStructItems bo fuelU (sigOfList ts ++ (41 :: rest)) acc
            ⟨pre2 ++ (delta ++ ext), pre2.length⟩
          = some (acc ++ items, rest, ⟨pre2 ++ (delta ++ ext), pre2.length + delta.length⟩)

theorem rtval_step (bo : ByteOrder) (fuelM : Nat)
    (ihV : ∀ f, f < fuelM → RTVal bo f)
    (ihI : ∀ f, f < fuelM → RTItems bo f)
    (ihF : ∀ f, f < fuelM → RTFields bo f) :
    RTVal bo fuelM := by
  intro t c body rest v st sig' st' hsig hgt hgv hp h
  cases t with
  | byteT =>
      injection hsig with a b
      subst a
      subst b
      simp only [List.nil_append] at h ⊢
      rw [marshal1_byte] at h
      obtain ⟨h1, delta, hd, hpos, hne, hdec⟩ := rt_mByte h hp
      exact ⟨h1, delta, hd, hpos, fun _ => hne, 0,
        fun fuelU _ pre2 ext hpre => hdec fuelU pre2 ext hpre⟩
  | booleanT =>
      injection hsig with a b
      subst a
      subst b
      simp only [List.nil_append] at h ⊢
      rw [marshal1_bool] at h
      obtain ⟨h1, delta, hd, hpos, hne, hdec⟩ := rt_mBool h hp
      exact ⟨h1, delta, hd, hpos, fun _ => hne, 0,
        fun fuelU _ pre2 ext hpre => hdec fuelU pre2 ext hpre⟩
  | int16T =>
      injection hsig with a b
      subst a
      subst b
      simp only [List.nil_append] at h ⊢
      rw [marshal1_i16] at h
      cases v <;> try exact Option.noConfusion h
      rename_i n
      obtain ⟨h1, delta, hd, hpos, hne, hdec⟩ := rt_mInt (by omega) h hp
      refine ⟨h1, delta, hd, hpos, fun _ => hne, 0, ?_⟩
      intro fuelU _ pre2 ext hpre
      rw [unm1_i16, hdec pre2 ext hpre]
  | uint16T =>
      injection hsig with a b
      subst a
      subst b
      simp only [List.nil_append] at h ⊢
      rw [marshal1_u16] at h
      cases v <;> try exact Option.noConfusion h
      rename_i n
      obtain ⟨h1, delta, hd, hpos, hne, hdec⟩ := rt_mInt (by omega) h hp
      refine ⟨h1, delta, hd, hpos, fun _ => hne, 0, ?_⟩
      intro fuelU _ pre2 ext hpre
      rw [unm1_u16, hdec pre2 ext hpre]
  | int32T =>
      injection hsig with a b
      subst a
      subst b
      simp only [List.nil_append] at h ⊢
      rw [marshal1_i32] at h
      cases v <;> try exact Option.noConfusion h
      rename_i n
      obtain ⟨h1, delta, hd, hpos, hne, hdec⟩ := rt_mInt (by omega) h hp
      refine ⟨h1, delta, hd, hpos, fun _ => hne, 0, ?_⟩
      intro fuelU _ pre2 ext hpre
      rw [unm1_i32, hdec pre2 ext hpre]
  | uint32T =>
      injection hsig with a b
      subst a
      subst b
      simp only [List.nil_append] at h ⊢
      rw [marshal1_u32] at h
      cases v <;> try exact Option.noConfusion h
      rename_i n
      obtain ⟨h1, delta, hd, hpos, hne, hdec⟩ := rt_mInt (by omega) h hp
      refine ⟨h1, delta, hd, hpos, fun _ => hne, 0, ?_⟩
      intro fuelU _ pre2 ext hpre
      rw [unm1_u32, hdec pre2 ext hpre]
  | int64T =>
      injection hsig with a b
      subst a
      subst b
      simp only [List.nil_append] at h ⊢
      rw [marshal1_i64] at h
      cases v <;> try exact Option.noConfusion h
      rename_i n
      obtain ⟨h1, delta, hd, hpos, hne, hdec⟩ := rt_mInt (by omega) h hp
      refine ⟨h1, delta, hd, hpos, fun _ => hne, 0, ?_⟩
      intro fuelU _ pre2 ext hpre
      rw [unm1_i64, hdec pre2 ext hpre]
  | uint64T =>
      injection hsig with a b
      subst a
      subst b
      simp only [List.nil_append] at h ⊢
      rw [marshal1_u64] at h
      cases v <;> try exact Option.noConfusion h
      rename_i n
      obtain ⟨h1, delta, hd, hpos, hne, hdec⟩ := rt_mInt (by omega) h hp
      refine ⟨h1, delta, hd, hpos, fun _ => hne, 0, ?_⟩
      intro fuelU _ pre2 ext hpre
      rw [unm1_u64, hdec pre2 ext hpre]
  | unixfdT =>
      injection hsig with a b
      subst a
      subst b
      simp only [List.nil_append] at h ⊢
      rw [marshal1_fd] at h
      cases v <;> try exact Option.noConfusion h
      rename_i n
      obtain ⟨h1, delta, hd, hpos, hne, hdec⟩ := rt_mInt (by omega) h hp
      refine ⟨h1, delta, hd, hpos, fun _ => hne, 0, ?_⟩
      intro fuelU _ pre2 ext hpre
      rw [unm1_fd, hdec pre2 ext hpre]
  | doubleT => exact Bool.noConfusion hgt
  | stringT =>
      injection hsig with a b
      subst a
      subst b
      simp only [List.nil_append] at h ⊢
      rw [marshal1_string] at h
      cases v with
      | vint n => exact Option.noConfusion h
      | vbool b => exact Option.noConfusion h
      | vfloat f => exact Option.noConfusion h
      | vtuple ts2 => exact Option.noConfusion h
      | vlist ts2 => exact Option.noConfusion h
      | vdict ps => exact Option.noConfusion h
      | vstr bsv =>
      obtain ⟨h1, delta, hd, hpos, hne, hdec⟩ := rt_mStr (by omega) h hp
      refine ⟨h1, delta, hd, hpos, fun _ => hne, 0, ?_⟩
      intro fuelU _ pre2 ext hpre
      rw [unm1_string, hdec pre2 ext hpre]
  | objpathT =>
      injection hsig with a b
      subst a
      subst b
      simp only [List.nil_append] at h ⊢
      rw [marshal1_objpath] at h
      cases v with
      | vint n => exact Option.noConfusion h
      | vbool b => exact Option.noConfusion h
      | vfloat f => exact Option.noConfusion h
      | vtuple ts2 => exact Option.noConfusion h
      | vlist ts2 => exact Option.noConfusion h
      | vdict ps => exact Option.noConfusion h
      | vstr bsv =>
      obtain ⟨h1, delta, hd, hpos, hne, hdec⟩ := rt_mStr (by omega) h hp
      refine ⟨h1, delta, hd, hpos, fun _ => hne, 0, ?_⟩
      intro fuelU _ pre2 ext hpre
      rw [unm1_objpath, hdec pre2 ext hpre]
  | sigT =>
      injection hsig with a b
      subst a
      subst b
      simp only [List.nil_append] at h ⊢
      rw [marshal1_sig] at h
      cases v with
      | vint n => exact Option.noConfusion h
      | vbool b => exact Option.noConfusion h
      | vfloat f => exact Option.noConfusion h
      | vtuple ts2 => exact Option.noConfusion h
      | vlist ts2 => exact Option.noConfusion h
      | vdict ps => exact Option.noConfusion h
      | vstr bsv =>
      obtain ⟨h1, delta, hd, hpos, hne, hdec⟩ := rt_mStr (by omega) h hp
      refine ⟨h1, delta, hd, hpos, fun _ => hne, 0, ?_⟩
      intro fuelU _ pre2 ext hpre
      rw [unm1_sig, hdec pre2 ext hpre]
  | variantT =>
      injection hsig with a b
      subst a
      subst b
      simp only [List.nil_append] at h ⊢
      cases fuelM with
      | zero => exact Option.noConfusion h
      | succ f =>
      cases v with
      | vint n => exact Bool.noConfusion hgv
      | vbool b2 => exact Bool.noConfusion hgv
      | vfloat f2 => exact Bool.noConfusion hgv
      | vstr s2 => exact Bool.noConfusion hgv
      | vlist l2 => exact Bool.noConfusion hgv
      | vdict d2 => exact Bool.noConfusion hgv
      | vtuple items =>
      cases items with
      | nil => exact Bool.noConfusion hgv
      | cons a1 as =>
      cases as with
      | nil => cases a1 <;> exact Bool.noConfusion hgv
      | cons w bs =>
      cases bs with
      | cons x xs => cases a1 <;> exact Bool.noConfusion hgv
      | nil =>
      cases a1 with
      | vint n => exact Bool.noConfusion hgv
      | vbool b2 => exact Bool.noConfusion hgv
      | vfloat f2 => exact Bool.noConfusion hgv
      | vtuple t2 => exact Bool.noConfusion hgv
      | vlist l2 => exact Bool.noConfusion hgv
      | vdict d2 => exact Bool.noConfusion hgv
      | vstr sb =>
      have hgv2 : (match parseOneF (sb.length + 1) sb with
          | some q => goodT q.1 && goodV q.1 w
          | none => false) = true := hgv
      cases hq : parseOneF (sb.length + 1) sb with
      | none =>
          rw [hq] at hgv2
          exact Bool.noConfusion hgv2
      | some q =>
          rw [hq] at hgv2
          simp only [Bool.and_eq_true] at hgv2
          obtain ⟨hgtq, hgvq⟩ := hgv2
          have hsb : sb = sigOf q.1 ++ q.2 := (parse_sound _).1 sb q.1 q.2 hq
          obtain ⟨cq, bodyq, hsq, hcq41, hcq123, hcq125⟩ := sigOf_cons q.1
          have hsb2 : sb = cq :: (bodyq ++ q.2) := by
            rw [hsb, hsq]
            rfl
          subst hsb2
          rw [marshal1_variant] at h
          simp only [Option.bind_eq_some] at h
          obtain ⟨q0, hq0, h2⟩ := h
          have h2a : (marshal1 bo f cq (bodyq ++ q.2) w q0.2).map
              (fun r => ((rest : List Nat), r.2)) = some (sig', st') := h2
          simp only [Option.map_eq_some'] at h2a
          obtain ⟨r, hr, heq⟩ := h2a
          cases heq
          obtain ⟨hq01, delta1, hd1, hpos1, hne1, hdec1⟩ := rt_mStr (by omega) hq0 hp
          obtain ⟨hr1, delta2, hd2, hpos2, hne2, N2, hdec2⟩ :=
            ihV f (Nat.lt_succ_self f) q.1 cq bodyq q.2 w q0.2 r.1 r.2
              hsq hgtq hgvq hpos1 hr
          refine ⟨rfl, delta1 ++ delta2, ?_, hpos2, fun _ => ?_, N2 + 1, ?_⟩
          · rw [hd2, hd1, List.append_assoc]
          · have hl1 : 0 < delta1.length := List.length_pos.mpr hne1
            refine List.length_pos.mp ?_
            simp only [List.length_append]
            omega
          · intro fuelU hN pre2 ext hpre
            obtain ⟨g, rfl⟩ : ∃ g, fuelU = g + 1 := ⟨fuelU - 1, by omega⟩
            simp only [List.append_assoc]
            rw [unm1_variant_cons (hdec1 pre2 (delta2 ++ ext) hpre)]
            have hpre2 : (pre2 ++ delta1).length = q0.2.data.length := by
              simp [hd1, hpre]
            have hdec2a := hdec2 g (by omega) (pre2 ++ delta1) ext hpre2
            rw [List.append_assoc, List.length_append] at hdec2a
            rw [hdec2a]
            simp [Nat.add_assoc]
  | arrayT te =>
      injection hsig with a b
      subst a
      subst b
      have hgt2 : (goodT te && posSize te) = true := hgt
      simp only [Bool.and_eq_true] at hgt2
      obtain ⟨hgte, hpse⟩ := hgt2
      cases fuelM with
      | zero => exact Option.noConfusion h
      | succ f =>
      cases v with
      | vint n => exact Option.noConfusion h
      | vbool b2 => exact Option.noConfusion h
      | vfloat f2 => exact Option.noConfusion h
      | vstr s2 => exact Option.noConfusion h
      | vtuple t2 => exact Option.noConfusion h
      | vdict d2 => exact Option.noConfusion h
      | vlist items =>
      have hgv2 : (goodVList te items && (!items.isEmpty || (sigOf te).length == 1)) = true := hgv
      simp only [Bool.and_eq_true] at hgv2
      obtain ⟨hgvl, hempty⟩ := hgv2
      obtain ⟨cte, bodyte, hste, hcte41, hcte123, hcte125⟩ := sigOf_cons te
      have hbody0 : items.isEmpty = true → bodyte = [] := by
        intro hie
        rw [hie, hste] at hempty
        simp at hempty
        exact hempty
      rw [hste] at h ⊢
      simp only [List.cons_append] at h ⊢
      rw [marshal1_array] at h
      have hst2 : (MState.alignW 4 st).write [35, 35, 35, 35]
          = ⟨(st.data ++ List.replicate (padLen 4 st.data.length) 0) ++ [35, 35, 35, 35],
             (st.data ++ List.replicate (padLen 4 st.data.length) 0).length + 4⟩ := by
        rw [MState.alignW_atEnd 4 hp, MState.write_atEnd _ (by simp)]
        rfl
      rw [hst2] at h
      simp only [Option.bind_eq_some, Option.map_eq_some'] at h
      obtain ⟨⟨psig, pst⟩, hbp, lenB, hlenB, heq⟩ := h
      obtain ⟨pdata, ppos⟩ := pst
      simp only at hbp hlenB heq
      obtain ⟨hsigI, deltaI, hdI, hposI, NI, hdecI⟩ :=
        ihI f (Nat.lt_succ_self f) te cte bodyte rest items (bodyte ++ rest)
          ⟨(st.data ++ List.replicate (padLen 4 st.data.length) 0) ++ [35, 35, 35, 35],
           (st.data ++ List.replicate (padLen 4 st.data.length) 0).length + 4⟩
          psig ⟨pdata, ppos⟩ hste hgte hpse hgvl (by simp [Nat.add_assoc]) hbp
      simp only at hdI hposI
      have hlenBlen := intToBytes_length hlenB
      have hsub : ((ppos : Int)
            - ((st.data ++ List.replicate (padLen 4 st.data.length) 0).length + 4 : Nat))
          = ((deltaI.length : Nat) : Int) := by
        rw [hposI, hdI]
        simp only [List.length_append, List.length_replicate, List.length_cons,
          List.length_nil]
        push_cast
        omega
      rw [hsub] at hlenB
      have hpdataEq : pdata
          = (st.data ++ List.replicate (padLen 4 st.data.length) 0)
            ++ ([35, 35, 35, 35] ++ deltaI) := by
        rw [hdI]
        simp [List.append_assoc]
      subst hpdataEq
      rw [patch_lemma _ [35, 35, 35, 35] deltaI lenB ppos rfl hlenBlen] at heq
      cases heq
      have hpsig : sig' = rest := by
        rw [hsigI]
        cases hie : items.isEmpty with
        | true =>
            rw [hbody0 hie]
            simp
        | false => rfl
      refine ⟨hpsig,
        List.replicate (padLen 4 st.data.length) 0 ++ (lenB ++ deltaI), ?_, ?_,
        fun _ => ?_, NI + 1, ?_⟩
      · simp [List.append_assoc]
      · simp
      · refine List.length_pos.mp ?_
        simp only [List.length_append, hlenBlen]
        omega
      · intro fuelU hN pre2 ext hpre
        obtain ⟨g, rfl⟩ : ∃ g, fuelU = g + 1 := ⟨fuelU - 1, by omega⟩
        rw [unm1_array]
        rw [show pre2 ++ ((List.replicate (padLen 4 st.data.length) 0 ++ (lenB ++ deltaI)) ++ ext)
            = pre2 ++ (List.replicate (padLen 4 st.data.length) 0 ++ (lenB ++ (deltaI ++ ext)))
            from by simp [List.append_assoc]]
        rw [uInt_at hlenB hpre]
        rw [if_neg hcte123]
        simp only [Int.toNat_natCast]
        have hpre2 : ((pre2 ++ List.replicate (padLen 4 st.data.length) 0) ++ lenB).length
            = ((st.data ++ List.replicate (padLen 4 st.data.length) 0) ++ [35, 35, 35, 35]).length := by
          simp [hpre, hlenBlen]
        have hdecI2 := hdecI g (by omega) ((pre2 ++ List.replicate (padLen 4 st.data.length) 0) ++ lenB)
          ext ([] : List PyVal) (bodyte ++ rest) hpre2
        have hx1 : ((pre2 ++ List.replicate (padLen 4 st.data.length) 0) ++ lenB) ++ (deltaI ++ ext)
            = pre2 ++ (List.replicate (padLen 4 st.data.length) 0 ++ (lenB ++ (deltaI ++ ext))) := by
          simp [List.append_assoc]
        have hx2 : ((pre2 ++ List.replicate (padLen 4 st.data.length) 0) ++ lenB).length
            = pre2.length + (padLen 4 st.data.length + 4) := by
          simp [hlenBlen, Nat.add_assoc]
        rw [hx1, hx2] at hdecI2
        have hx3 : deltaI.length + (pre2.length + (padLen 4 st.data.length + 4))
            = pre2.length + (padLen 4 st.data.length + 4) + deltaI.length := by
          omega
        rw [hx3, hdecI2]
        have hfinsig : (if items.isEmpty then bodyte ++ rest else rest) = rest := by
          cases hie : items.isEmpty with
          | true =>
              rw [hbody0 hie]
              simp
          | false => rfl
        rw [hfinsig]
        simp only [List.nil_append]
        refine congrArg _ ?_
        refine congrArg _ ?_
        refine congrArg _ ?_
        have hx4 : pre2.length + (padLen 4 st.data.length + 4) + deltaI.length
            = pre2.length
              + (List.replicate (padLen 4 st.data.length) 0 ++ (lenB ++ deltaI)).length := by
          simp only [List.length_append, List.length_replicate, hlenBlen]
          omega
        rw [hx4]
  | structT ts =>
      injection hsig with a b
      subst a
      subst b
      have hgt2 : goodTList ts = true := hgt
      cases fuelM with
      | zero => exact Option.noConfusion h
      | succ f =>
      cases v with
      | vint n => exact Option.noConfusion h
      | vbool b2 => exact Option.noConfusion h
      | vfloat f2 => exact Option.noConfusion h
      | vstr s2 => exact Option.noConfusion h
      | vlist l2 => exact Option.noConfusion h
      | vdict d2 => exact Option.noConfusion h
      | vtuple items =>
      have hgv2 : goodVFields ts items = true := hgv
      rw [marshal1_struct] at h
      have hassoc : (sigOfList ts ++ [41]) ++ rest = sigOfList ts ++ (41 :: rest) := by
        simp [List.append_assoc]
      rw [hassoc] at h
      have hal : (MState.alignW 8 st).pos = (MState.alignW 8 st).data.length := by
        rw [MState.alignW_atEnd 8 hp]
        simp
      obtain ⟨hsig2, deltaF, hdF, hposF, hneF, NF, hdecF⟩ :=
        ihF f (Nat.lt_succ_self f) ts rest items (MState.alignW 8 st) sig' st'
          hgt2 hgv2 hal h
      rw [MState.alignW_atEnd 8 hp] at hdF
      refine ⟨hsig2, List.replicate (padLen 8 st.data.length) 0 ++ deltaF, ?_, hposF,
        fun hps => ?_, NF + 1, ?_⟩
      · rw [hdF]
        simp [List.append_assoc]
      · have hnf := hneF hps
        have : 0 < deltaF.length := List.length_pos.mpr hnf
        refine List.length_pos.mp ?_
        simp only [List.length_append]
        omega
      · intro fuelU hN pre2 ext hpre
        obtain ⟨g, rfl⟩ : ∃ g, fuelU = g + 1 := ⟨fuelU - 1, by omega⟩
        rw [unm1_struct]
        have hstep : UState.alignR 8
            ⟨pre2 ++ ((List.replicate (padLen 8 st.data.length) 0 ++ deltaF) ++ ext),
             pre2.length⟩
            = ⟨(pre2 ++ List.replicate (padLen 8 st.data.length) 0) ++ (deltaF ++ ext),
               (pre2 ++ List.replicate (padLen 8 st.data.length) 0).length⟩ := by
          rw [UState.alignR_eq]
          congr 1
          · simp [List.append_assoc]
          · simp [hpre]
        rw [hstep]
        have hpre2 : (pre2 ++ List.replicate (padLen 8 st.data.length) 0).length
            = (MState.alignW 8 st).data.length := by
          rw [MState.alignW_atEnd 8 hp]
          simp [hpre]
        have hdecF2 := hdecF g (by omega) (pre2 ++ List.replicate (padLen 8 st.data.length) 0)
          ext ([] : List PyVal) hpre2
        rw [hassoc, hdecF2]
        simp [List.append_assoc, Nat.add_assoc]

theorem rtitems_step (bo : ByteOrder) (fuelM : Nat)
    (ihV : ∀ f, f < fuelM → RTVal bo f)
    (ihI : ∀ f, f < fuelM → RTItems bo f) :
    RTItems bo fuelM := by
  intro te c body rest items cur st sig' st' hste hgte hpse hgvl hp h
  cases items with
  | nil =>
      rw [marshalItems_nil] at h
      cases h
      refine ⟨by simp, [], by simp, hp, 1, ?_⟩
      intro fuelU hN pre2 ext acc cur2 hpre
      obtain ⟨g, rfl⟩ : ∃ g, fuelU = g + 1 := ⟨fuelU - 1, by omega⟩
      rw [unmItems_stop _ _ _ _ _ _ _ _ (by simp)]
      simp
  | cons item irest =>
      cases fuelM with
      | zero => exact Option.noConfusion h
      | succ f =>
      have hgvl2 : (goodV te item && goodVList te irest) = true := hgvl
      simp only [Bool.and_eq_true] at hgvl2
      obtain ⟨hgvh, hgvt⟩ := hgvl2
      rw [marshalItems_cons] at h
      simp only [Option.bind_eq_some] at h
      obtain ⟨⟨qsig, qst⟩, hq, h2⟩ := h
      obtain ⟨hq1, delta1, hd1, hpos1, hne1, N1, hdec1⟩ :=
        ihV f (Nat.lt_succ_self f) te c body rest item st qsig qst hste hgte hgvh hp hq
      subst hq1
      obtain ⟨hsig2, delta2, hd2, hpos2, N2, hdec2⟩ :=
        ihI f (Nat.lt_succ_self f) te c body qsig irest qsig qst sig' st'
          hste hgte hpse hgvt hpos1 h2
      have hd1' : delta1 ≠ [] := hne1 hpse
      have hsig3 : sig' = qsig := by
        rw [hsig2]
        split <;> rfl
      refine ⟨by simp [hsig3], delta1 ++ delta2, ?_, hpos2, max N1 N2 + 1, ?_⟩
      · rw [hd2, hd1, List.append_assoc]
      · intro fuelU hN pre2 ext acc cur2 hpre
        obtain ⟨g, rfl⟩ : ∃ g, fuelU = g + 1 := ⟨fuelU - 1, by omega⟩
        rw [unmItems_step _ _ _ _ _ _ _ _
          (by simp only [List.length_append]
              have := List.length_pos.mpr hd1'
              omega)]
        have hx1 : pre2 ++ ((delta1 ++ delta2) ++ ext) = pre2 ++ (delta1 ++ (delta2 ++ ext)) := by
          simp [List.append_assoc]
        rw [hx1]
        rw [hdec1 g (by omega) pre2 (delta2 ++ ext) hpre]
        simp only [Option.some_bind]
        have hpy : pyAdd (.vlist acc) item = some (.vlist (acc ++ [item])) := rfl
        rw [hpy]
        simp only [Option.some_bind]
        have hpre2 : (pre2 ++ delta1).length = qst.data.length := by
          simp [hd1, hpre]
        have hdec2a := hdec2 g (by omega) (pre2 ++ delta1) ext (acc ++ [item]) qsig hpre2
        have hx2 : (pre2 ++ delta1) ++ (delta2 ++ ext) = pre2 ++ (delta1 ++ (delta2 ++ ext)) := by
          simp [List.append_assoc]
        have hx3 : (pre2 ++ delta1).length = pre2.length + delta1.length := by simp
        rw [hx2, hx3] at hdec2a
        have hx4 : pre2.length + (delta1 ++ delta2).length
            = pre2.length + delta1.length + delta2.length := by
          simp [Nat.add_assoc]
        rw [hx4, hdec2a]
        have hacc : (acc ++ [item]) ++ irest = acc ++ (item :: irest) := by
          simp
        rw [hacc]
        have hif : (if irest.isEmpty = true then qsig else qsig) = qsig := by
          split <;> rfl
        rw [hif]
        have hif2 : (if (item :: irest).isEmpty = true then cur2 else qsig) = qsig := rfl
        rw [hif2]

theorem rtfields_step (bo : ByteOrder) (fuelM : Nat)
    (ihV : ∀ f, f < fuelM → RTVal bo f)
    (ihF : ∀ f, f < fuelM → RTFields bo f) :
    RTFields bo fuelM := by
  intro ts rest items st sig' st' hgts hgvf hp h
  cases ts with
  | nil =>
      simp only [sigOfList, List.nil_append] at h ⊢
      rw [marshalStructItems_close] at h
      cases h
      cases items with
      | cons i irest => exact Bool.noConfusion hgvf
      | nil =>
          refine ⟨rfl, [], by simp, hp, fun hps => Bool.noConfusion hps, 1, ?_⟩
          intro fuelU hN pre2 ext acc hpre
          obtain ⟨g, rfl⟩ : ∃ g, fuelU = g + 1 := ⟨fuelU - 1, by omega⟩
          rw [unmStructItems_close]
          simp
  | cons t ts' =>
      have hgts2 : (goodT t && goodTList ts') = true := hgts
      simp only [Bool.and_eq_true] at hgts2
      obtain ⟨hgtt, hgtts⟩ := hgts2
      cases items with
      | nil => exact Bool.noConfusion hgvf
      | cons v vs =>
      have hgvf2 : (goodV t v && goodVFields ts' vs) = true := hgvf
      simp only [Bool.and_eq_true] at hgvf2
      obtain ⟨hgvv, hgvvs⟩ := hgvf2
      obtain ⟨ct, bodyt, hstt, hct41, hct123, hct125⟩ := sigOf_cons t
      have hsig : sigOfList (t :: ts') ++ (41 :: rest)
          = ct :: (bodyt ++ (sigOfList ts' ++ (41 :: rest))) := by
        show (sigOf t ++ sigOfList ts') ++ (41 :: rest) = _
        rw [hstt]
        simp [List.append_assoc]
      rw [hsig] at h ⊢
      cases fuelM with
      | zero =>
          rw [show marshalStructItems bo 0 (ct :: (bodyt ++ (sigOfList ts' ++ (41 :: rest))))
                (v :: vs) st
              = (if ct = 41 then some (bodyt ++ (sigOfList ts' ++ (41 :: rest)), st) else none)
              from rfl] at h
          rw [if_neg hct41] at h
          exact Option.noConfusion h
      | succ f =>
      rw [marshalStructItems_cons bo f ct _ hct41] at h
      simp only [Option.bind_eq_some] at h
      obtain ⟨⟨qsig, qst⟩, hq, h2⟩ := h
      obtain ⟨hq1, delta1, hd1, hpos1, hne1, N1, hdec1⟩ :=
        ihV f (Nat.lt_succ_self f) t ct bodyt (sigOfList ts' ++ (41 :: rest)) v st qsig qst
          hstt hgtt hgvv hp hq
      subst hq1
      obtain ⟨hsig2, delta2, hd2, hpos2, hne2, N2, hdec2⟩ :=
        ihF f (Nat.lt_succ_self f) ts' rest vs qst sig' st' hgtts hgvvs hpos1 h2
      refine ⟨hsig2, delta1 ++ delta2, ?_, hpos2, fun hps => ?_, max N1 N2 + 1, ?_⟩
      · rw [hd2, hd1, List.append_assoc]
      · have hps2 : (posSize t || posSizeList ts') = true := hps
        simp only [Bool.or_eq_true] at hps2
        refine List.length_pos.mp ?_
        simp only [List.length_append]
        rcases hps2 with hl | hr
        · have := List.length_pos.mpr (hne1 hl)
          omega
        · have := List.length_pos.mpr (hne2 hr)
          omega
      · intro fuelU hN pre2 ext acc hpre
        obtain ⟨g, rfl⟩ : ∃ g, fuelU = g + 1 := ⟨fuelU - 1, by omega⟩
        rw [unmStructItems_cons bo g ct _ hct41]
        have hx1 : pre2 ++ ((delta1 ++ delta2) ++ ext) = pre2 ++ (delta1 ++ (delta2 ++ ext)) := by
          simp [List.append_assoc]
        rw [hx1]
        rw [hdec1 g (by omega) pre2 (delta2 ++ ext) hpre]
        simp only [Option.some_bind]
        have hpre2 : (pre2 ++ delta1).length = qst.data.length := by
          simp [hd1, hpre]
        have hdec2a := hdec2 g (by omega) (pre2 ++ delta1) ext (acc ++ [v]) hpre2
        have hx2 : (pre2 ++ delta1) ++ (delta2 ++ ext) = pre2 ++ (delta1 ++ (delta2 ++ ext)) := by
          simp [List.append_assoc]
        have hx3 : (pre2 ++ delta1).length = pre2.length + delta1.length := by simp
        rw [hx2, hx3] at hdec2a
        rw [hdec2a]
        have hacc : (acc ++ [v]) ++ vs = acc ++ (v :: vs) := by simp
        rw [hacc]
        have hx4 : pre2.length + delta1.length + delta2.length
            = pre2.length + (delta1 ++ delta2).length := by
          simp [Nat.add_assoc]
        rw [hx4]

/-- The codec round trip, by strong induction on the encoder fuel. -/
theorem codec_rt : ∀ (fuelM : Nat) (bo : ByteOrder),
    RTVal bo fuelM ∧ RTItems bo fuelM ∧ RTFields bo fuelM := by
  intro fuelM
  induction fuelM using Nat.strong_induction_on with
  | _ fuelM ih =>
      intro bo
      have hV : ∀ f, f < fuelM → RTVal bo f := fun f hf => (ih f hf bo).1
      have hI : ∀ f, f < fuelM → RTItems bo f := fun f hf => (ih f hf bo).2.1
      have hF : ∀ f, f < fuelM → RTFields bo f := fun f hf => (ih f hf bo).2.2
      exact ⟨rtval_step bo fuelM hV hI hF, rtitems_step bo fuelM hV hI,
        rtfields_step bo fuelM hV hF⟩

/-- Top-level round trip over a signature list. -/
theorem rt_top (bo : ByteOrder) (ts : List DType) :
    ∀ fuelM vs st st2,
    goodTList ts = true → goodVFields ts vs = true →
    st.pos = st.data.length →
    marshalTop bo fuelM (sigOfList ts) vs st = some st2 →
    ∃ delta, st2.data = st.data ++ delta ∧ st2.pos = st2.data.length ∧
      ∃ N, ∀ fuelU, N ≤ fuelU → ∀ pre2 ext acc, pre2.length = st.data.length →
        unmarshalTop bo fuelU (sigOfList ts) acc ⟨pre2 ++ (delta ++ ext), pre2.length⟩
          = some (acc ++ vs, ⟨pre2 ++ (delta ++ ext), pre2.length + delta.length⟩) := by
  induction ts with
  | nil =>
      intro fuelM vs st st2 hgts hgvf hp h
      cases vs with
      | cons v vs' => exact Bool.noConfusion hgvf
      | nil =>
          rw [show (sigOfList [] : List Nat) = [] from rfl] at h ⊢
          rw [marshalTop_nil] at h
          cases h
          refine ⟨[], by simp, hp, 0, ?_⟩
          intro fuelU hN pre2 ext acc hpre
          rw [unmarshalTop_nil]
          simp
  | cons t ts' ihts =>
      intro fuelM vs st st2 hgts hgvf hp h
      have hgts2 : (goodT t && goodTList ts') = true := hgts
      simp only [Bool.and_eq_true] at hgts2
      obtain ⟨hgtt, hgtts⟩ := hgts2
      cases vs with
      | nil => exact Bool.noConfusion hgvf
      | cons v vs' =>
      have hgvf2 : (goodV t v && goodVFields ts' vs') = true := hgvf
      simp only [Bool.and_eq_true] at hgvf2
      obtain ⟨hgvv, hgvvs⟩ := hgvf2
      obtain ⟨ct, bodyt, hstt, hct41, hct123, hct125⟩ := sigOf_cons t
      have hsig : sigOfList (t :: ts') = ct :: (bodyt ++ sigOfList ts') := by
        show sigOf t ++ sigOfList ts' = _
        rw [hstt]
        rfl
      rw [hsig] at h ⊢
      cases fuelM with
      | zero => exact Option.noConfusion h
      | succ f =>
      rw [marshalTop_cons] at h
      simp only [Option.bind_eq_some] at h
      obtain ⟨⟨qsig, qst⟩, hq, h2⟩ := h
      obtain ⟨hq1, delta1, hd1, hpos1, hne1, N1, hdec1⟩ :=
        (codec_rt f bo).1 t ct bodyt (sigOfList ts') v st qsig qst hstt hgtt hgvv hp hq
      subst hq1
      obtain ⟨delta2, hd2, hpos2, N2, hdec2⟩ :=
        ihts f vs' qst st2 hgtts hgvvs hpos1 h2
      refine ⟨delta1 ++ delta2, ?_, hpos2, max N1 N2 + 1, ?_⟩
      · rw [hd2, hd1, List.append_assoc]
      · intro fuelU hN pre2 ext acc hpre
        obtain ⟨g, rfl⟩ : ∃ g, fuelU = g + 1 := ⟨fuelU - 1, by omega⟩
        rw [unmarshalTop_cons]
        have hx1 : pre2 ++ ((delta1 ++ delta2) ++ ext) = pre2 ++ (delta1 ++ (delta2 ++ ext)) := by
          simp [List.append_assoc]
        rw [hx1]
        rw [hdec1 g (by omega) pre2 (delta2 ++ ext) hpre]
        simp only [Option.some_bind]
        have hpre2 : (pre2 ++ delta1).length = qst.data.length := by
          simp [hd1, hpre]
        have hdec2a := hdec2 g (by omega) (pre2 ++ delta1) ext (acc ++ [v]) hpre2
        have hx2 : (pre2 ++ delta1) ++ (delta2 ++ ext) = pre2 ++ (delta1 ++ (delta2 ++ ext)) := by
          simp [List.append_assoc]
        have hx3 : (pre2 ++ delta1).length = pre2.length + delta1.length := by simp
        rw [hx2, hx3] at hdec2a
        rw [hdec2a]
        have hacc : (acc ++ [v]) ++ vs' = acc ++ (v :: vs') := by simp
        rw [hacc]
        have hx4 : pre2.length + delta1.length + delta2.length
            = pre2.length + (delta1 ++ delta2).length := by
          simp [Nat.add_assoc]
        rw [hx4]

/-- Round trip through the public entry points. -/
theorem dbus_roundtrip (bo : ByteOrder) (ts : List DType) (vs : List PyVal)
    (fuelM : Nat) (out : List Nat)
    (hts : goodTList ts = true) (hvs : goodVFields ts vs = true)
    (henc : DBusMarshal fuelM bo (sigOfList ts) vs = some out) :
    ∃ N, ∀ fuelU, N ≤ fuelU → DBusUnmarshal fuelU bo (sigOfList ts) out = some vs := by
  rw [DBusMarshal] at henc
  simp only [Option.map_eq_some'] at henc
  obtain ⟨st2, hm, hout⟩ := henc
  obtain ⟨delta, hd, hpos, N, hdec⟩ :=
    rt_top bo ts fuelM vs ⟨[], 0⟩ st2 hts hvs rfl hm
  refine ⟨N, fun fuelU hN => ?_⟩
  rw [DBusUnmarshal]
  have hdec2 := hdec fuelU hN [] [] [] rfl
  simp only [List.nil_append, List.append_nil, List.length_nil] at hdec2
  rw [show delta = out from by rw [← hout, hd]; simp] at hdec2
  rw [hdec2]
  rfl

/-! ## Serial numbers -/

/-- Every serial in a send trace is at least the connection's next
serial, and the trace is strictly increasing. -/
theorem sendTrace_bounds : ∀ (msgs : List DBusMessage) (c : DBus),
    List.Chain' (· < ·) (DBus.sendTrace c msgs)
    ∧ ∀ x ∈ DBus.sendTrace c msgs, c.serialNext ≤ x := by
  intro msgs
  induction msgs with
  | nil => intro c; exact ⟨List.chain'_nil, by simp [DBus.sendTrace]⟩
  | cons m rest ih =>
      intro c
      rw [DBus.sendTrace]
      cases hs : c.send m with
      | none => exact ⟨List.chain'_nil, by simp⟩
      | some q =>
          have hser : q.1 = c.serialNext ∧ q.2.2.serialNext = c.serialNext + 1 := by
            rw [DBus.send] at hs
            by_cases hlt : c.serialNext < 2 ^ 32
            · rw [if_pos hlt] at hs
              simp only [Option.map_eq_some'] at hs
              obtain ⟨m1, hm1, hq⟩ := hs
              rw [← hq]
              exact ⟨rfl, rfl⟩
            · rw [if_neg hlt] at hs
              exact Option.noConfusion hs
          obtain ⟨hq1, hq2⟩ := hser
          obtain ⟨hchain, hbound⟩ := ih q.2.2
          constructor
          · refine List.chain'_cons'.mpr ⟨?_, hchain⟩
            intro y hy
            have hmem : y ∈ DBus.sendTrace q.2.2 rest := List.mem_of_mem_head? hy
            have := hbound y hmem
            rw [hq1]
            omega
          · intro x hx
            rcases List.mem_cons.mp hx with hx1 | hx2
            · omega
            · have := hbound x hx2
              omega

/-- C4: on one connection, consecutive successful `send` calls hand out
strictly increasing serial numbers, and no assigned serial is 0 (the
iterator starts at 1 after `connect`). -/
theorem C4_serial_monotonic (c0 : DBus) (msgs : List DBusMessage) :
    List.Chain' (· < ·) (DBus.sendTrace (c0.connect) msgs)
    ∧ ∀ x ∈ DBus.sendTrace (c0.connect) msgs, x ≠ 0 := by
  obtain ⟨hchain, hbound⟩ := sendTrace_bounds msgs c0.connect
  refine ⟨hchain, fun x hx => ?_⟩
  have := hbound x hx
  have h1 : (c0.connect).serialNext = 1 := rfl
  omega

/-- C7: the boolean decoder accepts every aligned 4-byte word, reading
the all-zero word as `false` and any other word as `true`; it never
rejects. -/
theorem C7_boolean_decode (bo : ByteOrder) (fuel : Nat) (sig : List Nat)
    (pre w ext : List Nat) (h4 : w.length = 4) (hal : pre.length % 4 = 0) :
    unmarshal1 bo fuel 98 sig ⟨pre ++ (w ++ ext), pre.length⟩
      = some (.vbool (w ≠ [0, 0, 0, 0] : Bool), sig,
              ⟨pre ++ (w ++ ext), pre.length + 4⟩) := by
  rw [unm1_bool]
  have hpad : padLen 4 pre.length = 0 := by
    unfold padLen
    omega
  have hst : UState.alignR 4 ⟨pre ++ (w ++ ext), pre.length⟩
      = ⟨pre ++ (w ++ ext), pre.length⟩ := by
    rw [UState.alignR_eq, hpad]
    rfl
  rw [hst, UState.read_exact h4]

/-- C8: encoding `"su"` with `("hello", 7)` little-endian gives exactly
the sixteen bytes `05 00 00 00 68 65 6C 6C 6F 00 00 00 07 00 00 00`, and
decoding them yields the pair back. -/
theorem C8_su_example :
    DBusMarshal 2 .little [115, 117]
        [.vstr [104, 101, 108, 108, 111], .vint 7]
      = some [5, 0, 0, 0, 104, 101, 108, 108, 111, 0, 0, 0, 7, 0, 0, 0]
    ∧ DBusUnmarshal 3 .little [115, 117]
        [5, 0, 0, 0, 104, 101, 108, 108, 111, 0, 0, 0, 7, 0, 0, 0]
      = some [.vstr [104, 101, 108, 108, 111], .vint 7] := by
  constructor
  · rfl
  · rfl

/-- C10: `dictentry` consumes the caller's dict through `popitem`: a
successful pop removes exactly the last pair (the encoded one), only
that single pair determines the produced bytes, and a dict left empty by
the pop makes the next encode raise (`KeyError`), so re-encoding the
input objects cannot reproduce the first output. -/
theorem C10_dictentry_popitem :
    (∀ (d : List (PyVal × PyVal)) kv rest,
        dict_popitem d = some (kv, rest) → d = rest ++ [kv])
    ∧ (∀ (d : List (PyVal × PyVal)), d ≠ [] →
        ∃ kv, dict_popitem d = some (kv, d.dropLast))
    ∧ (∀ bo fuel sig (st : MState),
        marshal1 bo fuel 123 sig (.vdict []) st = none)
    ∧ (∀ bo fuel sig (st : MState) (pairs : List (PyVal × PyVal)) kv,
        pairs.getLast? = some kv →
        marshal1 bo fuel 123 sig (.vdict pairs) st
          = marshal1 bo fuel 123 sig (.vdict [kv]) st) := by
  refine ⟨?_, ?_, ?_, ?_⟩
  · intro d kv rest h
    rw [dict_popitem] at h
    cases hg : d.getLast? with
    | none => rw [hg] at h; exact Option.noConfusion h
    | some kv2 =>
        rw [hg] at h
        cases h
        have hne : d ≠ [] := by
          intro h0
          rw [h0] at hg
          exact Option.noConfusion hg
        have hgl := List.getLast?_eq_getLast d hne
        rw [hgl] at hg
        injection hg with hkv
        rw [← hkv]
        exact (List.dropLast_append_getLast hne).symm
  · intro d hd
    rw [dict_popitem]
    cases hg : d.getLast? with
    | none => exact absurd (List.getLast?_eq_none_iff.mp hg) hd
    | some kv => exact ⟨kv, rfl⟩
  · intro bo fuel sig st
    cases fuel <;> rfl
  · intro bo fuel sig st pairs kv hlast
    cases fuel with
    | zero => rfl
    | succ f =>
        rw [marshal1_dictentry, marshal1_dictentry]
        rw [show dict_popitem pairs = some (kv, pairs.dropLast) from by
          rw [dict_popitem, hlast]]
        rw [show dict_popitem [kv] = some (kv, ([] : List (PyVal × PyVal))) from rfl]

/-- C2: the u32 back-filled into an array's length placeholder counts
every byte the element loop appended after the placeholder — including
the alignment padding emitted before the first element — not just the
bytes from the first element's start. -/
theorem C2_array_length (bo : ByteOrder) (fuel : Nat) (c1 : Nat) (sigRest : List Nat)
    (items : List PyVal) (st : MState) (sig' : List Nat) (st' : MState)
    (hp : st.pos = st.data.length)
    (h : marshal1 bo (fuel + 1) 97 (c1 :: sigRest) (.vlist items) st = some (sig', st')) :
    ∃ lenB deltaI,
      intToBytes 4 false bo (deltaI.length : Int) = some lenB ∧
      st'.data = st.data
        ++ (List.replicate (padLen 4 st.data.length) 0 ++ (lenB ++ deltaI)) := by
  rw [marshal1_array] at h
  have hst2 : (MState.alignW 4 st).write [35, 35, 35, 35]
      = ⟨(st.data ++ List.replicate (padLen 4 st.data.length) 0) ++ [35, 35, 35, 35],
         (st.data ++ List.replicate (padLen 4 st.data.length) 0).length + 4⟩ := by
    rw [MState.alignW_atEnd 4 hp, MState.write_atEnd _ (by simp)]
    rfl
  rw [hst2] at h
  simp only [Option.bind_eq_some, Option.map_eq_some'] at h
  obtain ⟨⟨psig, pst⟩, hbp, lenB, hlenB, heq⟩ := h
  obtain ⟨pdata, ppos⟩ := pst
  simp only at hbp hlenB heq
  obtain ⟨⟨deltaI, hdI⟩, hposI⟩ :=
    (marshal_shape fuel).2.1 bo c1 sigRest items sigRest
      ⟨(st.data ++ List.replicate (padLen 4 st.data.length) 0) ++ [35, 35, 35, 35],
       (st.data ++ List.replicate (padLen 4 st.data.length) 0).length + 4⟩
      psig ⟨pdata, ppos⟩ hbp (by simp [Nat.add_assoc])
  simp only at hdI hposI
  have hsub : ((ppos : Int)
        - ((st.data ++ List.replicate (padLen 4 st.data.length) 0).length + 4 : Nat))
      = ((deltaI.length : Nat) : Int) := by
    rw [hposI, hdI]
    simp only [List.length_append, List.length_replicate, List.length_cons,
      List.length_nil]
    push_cast
    omega
  rw [hsub] at hlenB
  have hpdataEq : pdata
      = (st.data ++ List.replicate (padLen 4 st.data.length) 0)
        ++ ([35, 35, 35, 35] ++ deltaI) := by
    rw [hdI]
    simp [List.append_assoc]
  subst hpdataEq
  rw [patch_lemma _ [35, 35, 35, 35] deltaI lenB ppos rfl (intToBytes_length hlenB)] at heq
  cases heq
  exact ⟨lenB, deltaI, hlenB, by simp [List.append_assoc]⟩

theorem slice4 (A B C D : List Nat) (hA : A.length = 4) (hB : B.length = 4) :
    ((A ++ (B ++ (C ++ D))).take 4 = A)
    ∧ (((A ++ (B ++ (C ++ D))).drop 4).take 4 = B)
    ∧ (((A ++ (B ++ (C ++ D))).drop 8).take C.length = C)
    ∧ ((A ++ (B ++ (C ++ D))).drop (8 + C.length) = D) := by
  refine ⟨?_, ?_, ?_, ?_⟩
  · exact List.take_left' hA
  · rw [List.drop_left' hA]
    exact List.take_left' hB
  · rw [show A ++ (B ++ (C ++ D)) = (A ++ B) ++ (C ++ D) from by simp [List.append_assoc]]
    rw [List.drop_left' (by rw [List.length_append, hA, hB])]
    exact List.take_left' rfl
  · rw [show A ++ (B ++ (C ++ D)) = ((A ++ B) ++ C) ++ D from by simp [List.append_assoc]]
    rw [List.drop_left' (by simp only [List.length_append, hA, hB])]

/-- C9: messages admit exactly four mutations.  Any other attribute
assignment and any item assignment raise; `type` and `flags` are
single-byte writes at offsets 1 and 2; `serial` replaces the u32 at
offset 8 in the message's byte order; `body` keeps the first 4 bytes,
replaces the u32 body-length slot at offset 4, keeps the rest of the
padded header, and replaces the tail with the re-encoded body. -/
theorem C9_setattr_setitem :
    (∀ (m : DBusMessage) fuel v attr, attr ≠ "type" → attr ≠ "flags" → attr ≠ "serial" →
        attr ≠ "body" → m.setattr fuel attr v = none)
    ∧ (∀ (m : DBusMessage) i x, m.setitem i x = none)
    ∧ (∀ (m : DBusMessage) fuel n m', m.setattr fuel "type" (.num n) = some m' →
        m'.data = m.data.set 1 n ∧ m'.byteorder = m.byteorder ∧ m'.length = m.length)
    ∧ (∀ (m : DBusMessage) fuel n m', m.setattr fuel "flags" (.num n) = some m' →
        m'.data = m.data.set 2 n ∧ m'.byteorder = m.byteorder ∧ m'.length = m.length)
    ∧ (∀ (m : DBusMessage) fuel n m', m.setattr fuel "serial" (.num n) = some m' →
        ∃ nb, intToBytes 4 false m.byteorder (n : Int) = some nb ∧
          m'.data = m.data.take 8 ++ nb ++ m.data.drop 12)
    ∧ (∀ (m : DBusMessage) fuel l m',
        8 ≤ m.length.1 + m.length.2.1 + m.length.2.2.1 →
        m.length.1 + m.length.2.1 + m.length.2.2.1 ≤ m.data.length →
        m.setattr fuel "body" (.vals l) = some m' →
        ∃ tail lb, lb.length = 4 ∧
          m'.data.take 4 = m.data.take 4 ∧
          (m'.data.drop 4).take 4 = lb ∧
          (m'.data.drop 8).take (m.length.1 + m.length.2.1 + m.length.2.2.1 - 8)
            = (m.data.drop 8).take (m.length.1 + m.length.2.1 + m.length.2.2.1 - 8) ∧
          m'.data.drop (m.length.1 + m.length.2.1 + m.length.2.2.1) = tail ∧
          (fromBytesU m.byteorder lb : Int) = (tail.length : Int)) := by
  refine ⟨?_, ?_, ?_, ?_, ?_, ?_⟩
  · intro m fuel v attr h1 h2 h3 h4
    unfold DBusMessage.setattr
    rw [if_neg h1, if_neg h2, if_neg h3, if_neg h4]
  · intro m i x
    rfl
  · intro m fuel n m' h
    have h2 : (if n < 256 then if 1 < m.data.length then
        some { m with data := m.data.set 1 n } else none else none) = some m' := h
    by_cases ha : n < 256
    · rw [if_pos ha] at h2
      by_cases hb : 1 < m.data.length
      · rw [if_pos hb] at h2
        cases h2
        exact ⟨rfl, rfl, rfl⟩
      · rw [if_neg hb] at h2
        exact Option.noConfusion h2
    · rw [if_neg ha] at h2
      exact Option.noConfusion h2
  · intro m fuel n m' h
    have h2 : (if n < 256 then if 2 < m.data.length then
        some { m with data := m.data.set 2 n } else none else none) = some m' := h
    by_cases ha : n < 256
    · rw [if_pos ha] at h2
      by_cases hb : 2 < m.data.length
      · rw [if_pos hb] at h2
        cases h2
        exact ⟨rfl, rfl, rfl⟩
      · rw [if_neg hb] at h2
        exact Option.noConfusion h2
    · rw [if_neg ha] at h2
      exact Option.noConfusion h2
  · intro m fuel n m' h
    have h2 : ((intToBytes 4 false m.byteorder (n : Int)).map fun nb =>
        { m with data := m.data.take 8 ++ nb ++ m.data.drop 12 }) = some m' := h
    simp only [Option.map_eq_some'] at h2
    obtain ⟨nb, hnb, heq⟩ := h2
    cases heq
    exact ⟨nb, hnb, rfl⟩
  · intro m fuel l m' hp8 hplen h
    have h2 : ((m.fieldsMap).bind fun F =>
        match F.signature with
        | some (.s sb) =>
            let p := m.length.1 + m.length.2.1 + m.length.2.2.1
            (DBusMarshal fuel m.byteorder sb l).bind fun tail =>
            (intToBytes 4 false m.byteorder (tail.length : Int)).map fun lb =>
              let d1 := m.data.take p ++ tail
              { data := d1.take 4 ++ lb ++ d1.drop 8,
                byteorder := m.byteorder,
                length := (m.length.1, m.length.2.1, m.length.2.2.1, tail.length) }
        | _ => none) = some m' := h
    simp only [Option.bind_eq_some] at h2
    obtain ⟨F, hF, h3⟩ := h2
    cases hsig : F.signature with
    | none => rw [hsig] at h3; exact Option.noConfusion h3
    | some fv =>
        cases fv with
        | u u0 => rw [hsig] at h3; exact Option.noConfusion h3
        | s sb =>
            rw [hsig] at h3
            simp only [Option.bind_eq_some, Option.map_eq_some'] at h3
            obtain ⟨tail, htail, lb, hlb, heq⟩ := h3
            have hlb4 : lb.length = 4 := intToBytes_length hlb
            set p := m.length.1 + m.length.2.1 + m.length.2.2.1 with hpdef
            have htp : (m.data.take p).length = p := by
              rw [List.length_take]
              omega
            have hstruct : (m.data.take p ++ tail).take 4 ++ lb ++ (m.data.take p ++ tail).drop 8
                = m.data.take 4 ++ (lb ++ (((m.data.drop 8).take (p - 8)) ++ tail)) := by
              rw [List.take_append_of_le_length (by omega),
                  List.drop_append_eq_append_drop, htp,
                  show 8 - p = 0 from by omega, List.drop_zero,
                  List.take_take, show min 4 p = 4 from by omega,
                  List.drop_take]
              simp [List.append_assoc]
            have hdata : m'.data
                = (m.data.take p ++ tail).take 4 ++ lb ++ (m.data.take p ++ tail).drop 8 := by
              rw [← heq]
            have hdata2 : m'.data
                = m.data.take 4 ++ (lb ++ (((m.data.drop 8).take (p - 8)) ++ tail)) :=
              hdata.trans hstruct
            have hC : ((m.data.drop 8).take (p - 8)).length = p - 8 := by
              rw [List.length_take, List.length_drop]
              omega
            have hA : (m.data.take 4).length = 4 := by
              rw [List.length_take]
              omega
            obtain ⟨g1, g2, g3, g4⟩ := slice4 (m.data.take 4) lb
              ((m.data.drop 8).take (p - 8)) tail hA hlb4
            refine ⟨tail, lb, hlb4, ?_, ?_, ?_, ?_, ?_⟩
            · rw [hdata2]
              exact g1
            · rw [hdata2]
              exact g2
            · rw [hC] at g3
              rw [hdata2]
              exact g3
            · rw [hC] at g4
              rw [show 8 + (p - 8) = p from by omega] at g4
              rw [hdata2]
              exact g4
            · exact_mod_cast (intToBytes_unsigned_inv hlb).2.2

/-- A framed bodyless signal (type 4, serial 7, no header fields, no
body), as `_recvmsg` would construct it. -/
def msgNoBody : DBusMessage :=
  { data := [108, 4, 0, 1, 0, 0, 0, 0, 7, 0, 0, 0, 0, 0, 0, 0],
    byteorder := .little, length := (16, 0, 0, 0) }

/-- A framed method return (type 2) carrying a signature field `"y"` and
the single body byte 7. -/
def msgWithBody : DBusMessage :=
  { data := [108, 2, 0, 1, 1, 0, 0, 0, 9, 0, 0, 0, 8, 0, 0, 0,
             8, 1, 103, 0, 1, 121, 0, 0, 7],
    byteorder := .little, length := (16, 8, 0, 1) }

/-- C6: `match` behaviour against a decodable header-field array: a
failed header comparison gives `False`; matching headers with an empty
body pattern give `True`; matching headers with a non-empty pattern
compare positionally against the decoded body — but when the message has
no body (`body = None`), `iter(None)` raises instead of returning
`False`, so `match` does fail in a way the equivalence misses. -/
theorem C6_match_characterization (fuel : Nat) (m : DBusMessage)
    (hpat : List (HKey × FieldVal)) (bpat : List (Option PyVal)) (F : HeaderFields)
    (hF : m.fieldsMap = some F) :
    ((hpat.all fun kv => m.headerGet F kv.1 = some kv.2) = false →
        m.matches fuel hpat bpat = some false)
    ∧ ((hpat.all fun kv => m.headerGet F kv.1 = some kv.2) = true → bpat = [] →
        m.matches fuel hpat bpat = some true)
    ∧ (∀ vals, (hpat.all fun kv => m.headerGet F kv.1 = some kv.2) = true → bpat ≠ [] →
        m.body fuel = some (some vals) →
        m.matches fuel hpat bpat = some (posMatch bpat vals))
    ∧ ((hpat.all fun kv => m.headerGet F kv.1 = some kv.2) = true → bpat ≠ [] →
        m.body fuel = some none →
        m.matches fuel hpat bpat = none) := by
  have hstep : m.matches fuel hpat bpat
      = ((m.fieldsMap).bind fun F =>
          if hpat.all fun kv => m.headerGet F kv.1 = some kv.2 then
            if bpat.isEmpty then some true
            else
              (m.body fuel).bind fun bodyOpt =>
              match bodyOpt with
              | none => none
              | some vals => some (posMatch bpat vals)
          else
            some false) := rfl
  rw [hstep, hF, Option.some_bind]
  refine ⟨?_, ?_, ?_, ?_⟩
  · intro hall
    rw [if_neg (by rw [hall]; exact Bool.false_ne_true)]
  · intro hall hemp
    rw [if_pos (by rw [hall]), if_pos (by rw [hemp]; rfl)]
  · intro vals hall hne hbody
    rw [if_pos (by rw [hall]),
        if_neg (by cases bpat with
          | nil => exact absurd rfl hne
          | cons a l => exact Bool.noConfusion),
        hbody, Option.some_bind]
  · intro hall hne hbody
    rw [if_pos (by rw [hall]),
        if_neg (by cases bpat with
          | nil => exact absurd rfl hne
          | cons a l => exact Bool.noConfusion),
        hbody, Option.some_bind]

/-- C6 counterexample: a well-formed bodyless message matched against a
non-empty body pattern makes `match` raise (`none`), not return
`False`. -/
theorem C6_match_counterexample :
    DBusMessage.fromBytes [108, 4, 0, 1, 0, 0, 0, 0, 7, 0, 0, 0, 0, 0, 0, 0]
      = some msgNoBody
    ∧ msgNoBody.body 5 = some none
    ∧ msgNoBody.matches 5 [] [some (.vint 7)] = none := by
  refine ⟨by decide, by decide, by decide⟩

/-- C5: `recv` returns the first message of the stream that `match`
accepts — provided every earlier message is one `match` REJECTS (rather
than raises on) and the accepted one is not an error reply on a
`raise_on_error` connection; conversely anything `recv` returns is a
member of the stream that `match` accepted. -/
theorem C5_recv_first_match (fuel : Nat) (c : DBus) (hpat : List (HKey × FieldVal))
    (bpat : List (Option PyVal)) :
    (∀ pre m rest,
      (∀ m' ∈ pre, m'.matches fuel hpat bpat = some false) →
      m.matches fuel hpat bpat = some true →
      (c.raiseOnError && m.type == 3) = false →
      DBus.recv fuel c hpat bpat (pre ++ (m :: rest)) = some m)
    ∧ (∀ msgs r, DBus.recv fuel c hpat bpat msgs = some r →
        r ∈ msgs ∧ r.matches fuel hpat bpat = some true) := by
  constructor
  · intro pre
    induction pre with
    | nil =>
        intro m rest hpre hm hraise
        have hstep : DBus.recv fuel c hpat bpat (m :: rest)
            = (match m.matches fuel hpat bpat with
               | none => none
               | some true => if c.raiseOnError && m.type == 3 then none else some m
               | some false => DBus.recv fuel c hpat bpat rest) := rfl
        rw [List.nil_append, hstep, hm]
        rw [if_neg (by rw [hraise]; exact Bool.false_ne_true)]
    | cons p pre' ih =>
        intro m rest hpre hm hraise
        have hstep : DBus.recv fuel c hpat bpat (p :: (pre' ++ (m :: rest)))
            = (match p.matches fuel hpat bpat with
               | none => none
               | some true => if c.raiseOnError && p.type == 3 then none else some p
               | some false => DBus.recv fuel c hpat bpat (pre' ++ (m :: rest))) := rfl
        rw [List.cons_append, hstep, hpre p (by simp)]
        exact ih m rest (fun m' hm' => hpre m' (by simp [hm'])) hm hraise
  · intro msgs
    induction msgs with
    | nil =>
        intro r h
        exact Option.noConfusion h
    | cons m rest ih =>
        intro r h
        have hstep : DBus.recv fuel c hpat bpat (m :: rest)
            = (match m.matches fuel hpat bpat with
               | none => none
               | some true => if c.raiseOnError && m.type == 3 then none else some m
               | some false => DBus.recv fuel c hpat bpat rest) := rfl
        rw [hstep] at h
        cases hm : m.matches fuel hpat bpat with
        | none => rw [hm] at h; exact Option.noConfusion h
        | some b =>
            rw [hm] at h
            cases b with
            | true =>
                by_cases hr : (c.raiseOnError && m.type == 3) = true
                · rw [if_pos hr] at h
                  exact Option.noConfusion h
                · rw [if_neg hr] at h
                  cases h
                  exact ⟨by simp, hm⟩
            | false =>
                obtain ⟨hmem, hmatch⟩ := ih r h
                exact ⟨by simp [hmem], hmatch⟩

/-- C5 counterexample: a well-formed non-matching bodyless message ahead
of the matching one makes `recv` raise (`none`) instead of skipping to
the match. -/
theorem C5_recv_counterexample :
    DBusMessage.fromBytes ([108, 2, 0, 1, 1, 0, 0, 0, 9, 0, 0, 0, 8, 0, 0, 0]
        ++ [8, 1, 103, 0, 1, 121, 0, 0] ++ [7])
      = some msgWithBody
    ∧ msgWithBody.matches 5 [] [some (.vint 7)] = some true
    ∧ DBus.recv 5 ⟨1, false⟩ [] [some (.vint 7)] [msgNoBody, msgWithBody] = none := by
  refine ⟨by decide, by decide, by decide⟩

/-! ## Header-field round trip -/

/-- Total version of `setIdx` on the indices 1–9. -/
def setIdxF (F : HeaderFields) (i : Nat) (v : FieldVal) : HeaderFields :=
  match i with
  | 1 => { F with path := some v }
  | 2 => { F with interface := some v }
  | 3 => { F with member := some v }
  | 4 => { F with error := some v }
  | 5 => { F with reply := some v }
  | 6 => { F with destination := some v }
  | 7 => { F with sender := some v }
  | 8 => { F with signature := some v }
  | 9 => { F with unixfds := some v }
  | _ => F

theorem setIdx_eq_setIdxF (F : HeaderFields) (i : Nat) (v : FieldVal)
    (h1 : 1 ≤ i) (h9 : i ≤ 9) :
    HeaderFields.setIdx F i v = some (setIdxF F i v) := by
  rcases i with _|_|_|_|_|_|_|_|_|_|i
  · omega
  · rfl
  · rfl
  · rfl
  · rfl
  · rfl
  · rfl
  · rfl
  · rfl
  · rfl
  · omega

/-- Replay a list of header-field entries onto an accumulator, skipping
the absent ones (the decoder's effect on its accumulated dict). -/
def applyEs : HeaderFields → List (Nat × Nat × Option FieldVal) → HeaderFields
  | G, [] => G
  | G, (_, _, none) :: rest => applyEs G rest
  | G, (i, _, some v) :: rest => applyEs (setIdxF G i v) rest

theorem applyEs_entries (F : HeaderFields) : applyEs {} F.entries = F := by
  obtain ⟨p, i, mm, e, r, d, sn, sg, u⟩ := F
  cases p <;> cases i <;> cases mm <;> cases e <;> cases r <;> cases d
    <;> cases sn <;> cases sg <;> cases u <;> rfl

/-- The number of present entries: the number of decoder loop
iterations. -/
def countPresent : List (Nat × Nat × Option FieldVal) → Nat
  | [] => 0
  | (_, _, none) :: rest => countPresent rest
  | (_, _, some _) :: rest => countPresent rest + 1

theorem encodeField_def (bo : ByteOrder) (buf : List Nat) (i code : Nat) (v : FieldVal) :
    encodeField bo buf i code v =
      (if code = 117 then
         match v with
         | .u n => (intToBytes 4 false bo (n : Int)).map fun nb =>
             buf ++ (List.replicate (padLen 8 buf.length) 0 ++ [i, 1, code, 0]) ++ nb
         | _ => none
       else
         match v with
         | .s bs =>
             if code = 103 then
               if bs.length < 256 then
                 some (buf ++ (List.replicate (padLen 8 buf.length) 0 ++ [i, 1, code, 0])
                   ++ [bs.length] ++ bs ++ [0])
               else none
             else
               (intToBytes 4 false bo (bs.length : Int)).map fun lb =>
                 buf ++ (List.replicate (padLen 8 buf.length) 0 ++ [i, 1, code, 0])
                   ++ lb ++ bs ++ [0]
         | _ => none) := rfl

theorem encodeFields_growth (bo : ByteOrder) :
    ∀ (es : List (Nat × Nat × Option FieldVal)) (buf out : List Nat),
    encodeFields bo es buf = some out → buf.length + countPresent es ≤ out.length := by
  intro es
  induction es with
  | nil =>
      intro buf out h
      cases h
      simp [countPresent]
  | cons e rest ih =>
      intro buf out h
      obtain ⟨i, code, ov⟩ := e
      cases ov with
      | none =>
          have h2 : encodeFields bo rest buf = some out := h
          have := ih buf out h2
          rw [show countPresent ((i, code, none) :: rest) = countPresent rest from rfl]
          omega
      | some v =>
          have h2 : (encodeField bo buf i code v).bind
              (fun buf1 => encodeFields bo rest buf1) = some out := h
          simp only [Option.bind_eq_some] at h2
          obtain ⟨buf1, hb1, h3⟩ := h2
          have hge : buf.length + 1 ≤ buf1.length := by
            rw [encodeField_def] at hb1
            by_cases h117 : code = 117
            · rw [if_pos h117] at hb1
              cases v with
              | s bs => exact Option.noConfusion hb1
              | u n =>
                  simp only [Option.map_eq_some'] at hb1
                  obtain ⟨nb, hnb, heq⟩ := hb1
                  subst heq
                  simp
                  omega
            · rw [if_neg h117] at hb1
              cases v with
              | u n => exact Option.noConfusion hb1
              | s bs =>
                  have hb2 : (if code = 103 then
                      (if bs.length < 256 then
                        some (buf ++ (List.replicate (padLen 8 buf.length) 0 ++ [i, 1, code, 0])
                          ++ [bs.length] ++ bs ++ [0])
                      else none)
                    else
                      (intToBytes 4 false bo (bs.length : Int)).map fun lb =>
                        buf ++ (List.replicate (padLen 8 buf.length) 0 ++ [i, 1, code, 0])
                          ++ lb ++ bs ++ [0]) = some buf1 := hb1
                  by_cases h103 : code = 103
                  · rw [if_pos h103] at hb2
                    by_cases hlen : bs.length < 256
                    · rw [if_pos hlen] at hb2
                      cases hb2
                      simp
                      omega
                    · rw [if_neg hlen] at hb2
                      exact Option.noConfusion hb2
                  · rw [if_neg h103] at hb2
                    simp only [Option.map_eq_some'] at hb2
                    obtain ⟨lb, hlb, heq⟩ := hb2
                    subst heq
                    simp
                    omega
          have := ih buf1 out h3
          rw [show countPresent ((i, code, some v) :: rest) = countPresent rest + 1 from rfl]
          omega

theorem get?_at {pre : List Nat} {x : Nat} {r : List Nat} {n : Nat} (h : pre.length = n) :
    (pre ++ (x :: r)).get? n = some x := by
  subst h
  rw [List.get?_append_right (le_refl _)]
  simp

theorem decodeFields_stop (bo : ByteOrder) (buffer : List Nat) (fuel p : Nat)
    (F : HeaderFields) (h : ¬ p < buffer.length) :
    decodeFields bo buffer (fuel + 1) p F = some F := by
  show (if p < buffer.length then _ else some F) = _
  rw [if_neg h]

theorem decodeFields_entry (bo : ByteOrder) (buffer : List Nat) (fuel p : Nat)
    (F : HeaderFields) (i code : Nat)
    (hlt : p < buffer.length) (hI : buffer.get? p = some i)
    (hC : buffer.get? (p + 2) = some code) :
    decodeFields bo buffer (fuel + 1) p F =
      (if code = 103 then
        match buffer.get? (p + 4) with
        | some len1 =>
            (F.setIdx i (.s ((buffer.drop (p + 4 + 1)).take len1))).bind fun F1 =>
              decodeFields bo buffer fuel
                ((p + 4 + 1 + len1 + 1) + padLen 8 (p + 4 + 1 + len1 + 1)) F1
        | none => none
      else
        if code = 117 then
          (F.setIdx i (.u (fromBytesU bo ((buffer.drop (p + 4)).take 4)))).bind fun F1 =>
            decodeFields bo buffer fuel ((p + 4 + 4) + padLen 8 (p + 4 + 4)) F1
        else
          (F.setIdx i
              (.s ((buffer.drop (p + 4 + 4)).take
                (fromBytesU bo ((buffer.drop (p + 4)).take 4))))).bind fun F1 =>
            decodeFields bo buffer fuel
              ((p + 4 + 4 + fromBytesU bo ((buffer.drop (p + 4)).take 4) + 1)
                + padLen 8 (p + 4 + 4 + fromBytesU bo ((buffer.drop (p + 4)).take 4) + 1))
              F1) := by
  have h0 : decodeFields bo buffer (fuel + 1) p F =
      (if p < buffer.length then
        match buffer.get? p, buffer.get? (p + 2) with
        | some i, some code =>
          let p1 := p + 4
          if code = 103 then
            match buffer.get? p1 with
            | some len1 =>
                let bs := (buffer.drop (p1 + 1)).take len1
                let p2 := p1 + 1 + len1 + 1
                (F.setIdx i (.s bs)).bind fun F1 =>
                  decodeFields bo buffer fuel (p2 + padLen 8 p2) F1
            | none => none
          else
            let u := fromBytesU bo ((buffer.drop p1).take 4)
            let p2 := p1 + 4
            if code = 117 then
              (F.setIdx i (.u u)).bind fun F1 =>
                decodeFields bo buffer fuel (p2 + padLen 8 p2) F1
            else
              let bs := (buffer.drop p2).take u
              let p3 := p2 + u + 1
              (F.setIdx i (.s bs)).bind fun F1 =>
                decodeFields bo buffer fuel (p3 + padLen 8 p3) F1
        | _, _ => none
      else
        some F) := rfl
  rw [h0, if_pos hlt, hI, hC]

theorem encodeFields_extends (bo : ByteOrder) :
    ∀ (es : List (Nat × Nat × Option FieldVal)) (buf out : List Nat),
    encodeFields bo es buf = some out → ∃ t, out = buf ++ t := by
  intro es
  induction es with
  | nil =>
      intro buf out h
      cases h
      exact ⟨[], by simp⟩
  | cons e rest ih =>
      intro buf out h
      obtain ⟨i, code, ov⟩ := e
      cases ov with
      | none => exact ih buf out h
      | some v =>
          have h2 : (encodeField bo buf i code v).bind
              (fun buf1 => encodeFields bo rest buf1) = some out := h
          simp only [Option.bind_eq_some] at h2
          obtain ⟨buf1, hb1, h3⟩ := h2
          obtain ⟨t, ht⟩ := ih buf1 out h3
          have hext : ∃ u, buf1 = buf ++ u := by
            rw [encodeField_def] at hb1
            by_cases h117 : code = 117
            · rw [if_pos h117] at hb1
              cases v with
              | s bs => exact Option.noConfusion hb1
              | u n =>
                  simp only [Option.map_eq_some'] at hb1
                  obtain ⟨nb, hnb, heq⟩ := hb1
                  refine ⟨List.replicate (padLen 8 buf.length) 0 ++ [i, 1, code, 0] ++ nb, ?_⟩
                  rw [← heq]
                  simp [List.append_assoc]
            · rw [if_neg h117] at hb1
              cases v with
              | u n => exact Option.noConfusion hb1
              | s bs =>
                  have hb2 : (if code = 103 then
                      (if bs.length < 256 then
                        some (buf ++ (List.replicate (padLen 8 buf.length) 0 ++ [i, 1, code, 0])
                          ++ [bs.length] ++ bs ++ [0])
                      else none)
                    else
                      (intToBytes 4 false bo (bs.length : Int)).map fun lb =>
                        buf ++ (List.replicate (padLen 8 buf.length) 0 ++ [i, 1, code, 0])
                          ++ lb ++ bs ++ [0]) = some buf1 := hb1
                  by_cases h103 : code = 103
                  · rw [if_pos h103] at hb2
                    by_cases hlen : bs.length < 256
                    · rw [if_pos hlen] at hb2
                      cases hb2
                      refine ⟨List.replicate (padLen 8 buf.length) 0 ++ [i, 1, code, 0]
                        ++ [bs.length] ++ bs ++ [0], ?_⟩
                      simp [List.append_assoc]
                    · rw [if_neg hlen] at hb2
                      exact Option.noConfusion hb2
                  · rw [if_neg h103] at hb2
                    simp only [Option.map_eq_some'] at hb2
                    obtain ⟨lb, hlb, heq⟩ := hb2
                    refine ⟨List.replicate (padLen 8 buf.length) 0 ++ [i, 1, code, 0]
                      ++ lb ++ bs ++ [0], ?_⟩
                    rw [← heq]
                    simp [List.append_assoc]
          obtain ⟨u, hu⟩ := hext
          exact ⟨u ++ t, by rw [ht, hu, List.append_assoc]⟩

theorem decodeFields_entry_u (bo : ByteOrder) (buffer : List Nat) (fuel p : Nat)
    (F : HeaderFields) (i : Nat)
    (hlt : p < buffer.length) (hI : buffer.get? p = some i)
    (hC : buffer.get? (p + 2) = some 117) :
    decodeFields bo buffer (fuel + 1) p F =
      ((F.setIdx i (.u (fromBytesU bo ((buffer.drop (p + 4)).take 4)))).bind fun F1 =>
        decodeFields bo buffer fuel ((p + 4 + 4) + padLen 8 (p + 4 + 4)) F1) := by
  rw [decodeFields_entry bo buffer fuel p F i 117 hlt hI hC, if_neg (by decide),
    if_pos rfl]

theorem decodeFields_entry_g (bo : ByteOrder) (buffer : List Nat) (fuel p : Nat)
    (F : HeaderFields) (i len1 : Nat)
    (hlt : p < buffer.length) (hI : buffer.get? p = some i)
    (hC : buffer.get? (p + 2) = some 103) (hL : buffer.get? (p + 4) = some len1) :
    decodeFields bo buffer (fuel + 1) p F =
      ((F.setIdx i (.s ((buffer.drop (p + 4 + 1)).take len1))).bind fun F1 =>
        decodeFields bo buffer fuel
          ((p + 4 + 1 + len1 + 1) + padLen 8 (p + 4 + 1 + len1 + 1)) F1) := by
  rw [decodeFields_entry bo buffer fuel p F i 103 hlt hI hC, if_pos rfl, hL]

theorem decodeFields_entry_s (bo : ByteOrder) (buffer : List Nat) (fuel p : Nat)
    (F : HeaderFields) (i code : Nat)
    (hlt : p < buffer.length) (hI : buffer.get? p = some i)
    (hC : buffer.get? (p + 2) = some code) (h103 : code ≠ 103) (h117 : code ≠ 117) :
    decodeFields bo buffer (fuel + 1) p F =
      ((F.setIdx i
          (.s ((buffer.drop (p + 4 + 4)).take
            (fromBytesU bo ((buffer.drop (p + 4)).take 4))))).bind fun F1 =>
        decodeFields bo buffer fuel
          ((p + 4 + 4 + fromBytesU bo ((buffer.drop (p + 4)).take 4) + 1)
            + padLen 8 (p + 4 + 4 + fromBytesU bo ((buffer.drop (p + 4)).take 4) + 1))
          F1) := by
  rw [decodeFields_entry bo buffer fuel p F i code hlt hI hC, if_neg h103, if_neg h117]

/-- Decoding a buffer produced by the field encoder replays the encoded
entries onto the accumulator. -/
theorem decode_encoded (bo : ByteOrder) :
    ∀ (es : List (Nat × Nat × Option FieldVal)) (buf out : List Nat)
      (G : HeaderFields) (fuel : Nat),
    (∀ e ∈ es, 1 ≤ e.1 ∧ e.1 ≤ 9) →
    encodeFields bo es buf = some out →
    countPresent es < fuel →
    decodeFields bo out fuel (buf.length + padLen 8 buf.length) G
      = some (applyEs G es) := by
  intro es
  induction es with
  | nil =>
      intro buf out G fuel hok henc hfuel
      cases henc
      obtain ⟨f, rfl⟩ : ∃ f, fuel = f + 1 := ⟨fuel - 1, by omega⟩
      rw [decodeFields_stop _ _ _ _ _ (by omega)]
      rfl
  | cons e rest ih =>
      intro buf out G fuel hok henc hfuel
      obtain ⟨i, code, ov⟩ := e
      have hokr : ∀ e ∈ rest, 1 ≤ e.1 ∧ e.1 ≤ 9 := fun e he => hok e (by simp [he])
      cases ov with
      | none =>
          have h2 : encodeFields bo rest buf = some out := henc
          exact ih buf out G fuel hokr h2 hfuel
      | some v =>
          have hbounds : 1 ≤ i ∧ i ≤ 9 := by
            have := hok (i, code, some v) (by simp)
            exact this
          have h2 : (encodeField bo buf i code v).bind
              (fun buf1 => encodeFields bo rest buf1) = some out := henc
          simp only [Option.bind_eq_some] at h2
          obtain ⟨buf1, hb1, h3⟩ := h2
          obtain ⟨t, ht⟩ := encodeFields_extends bo rest buf1 out h3
          obtain ⟨f, rfl⟩ : ∃ f, fuel = f + 1 := ⟨fuel - 1, by omega⟩
          have hfr : countPresent rest < f := by
            have : countPresent ((i, code, some v) :: rest) = countPresent rest + 1 := rfl
            omega
          rw [encodeField_def] at hb1
          by_cases h117 : code = 117
          · subst h117
            cases v with
            | s bs => rw [if_pos rfl] at hb1; exact Option.noConfusion hb1
            | u n =>
                rw [if_pos rfl] at hb1
                simp only [Option.map_eq_some'] at hb1
                obtain ⟨nb, hnb, heq⟩ := hb1
                have hnb4 : nb.length = 4 := intToBytes_length hnb
                have hout2 : out = (buf ++ List.replicate (padLen 8 buf.length) 0)
                    ++ (i :: 1 :: 117 :: 0 :: (nb ++ t)) := by
                  rw [ht, ← heq]
                  simp [List.append_assoc]
                have hout3 : out = ((buf ++ List.replicate (padLen 8 buf.length) 0) ++ [i, 1])
                    ++ (117 :: 0 :: (nb ++ t)) := by
                  rw [ht, ← heq]
                  simp [List.append_assoc]
                have hout4 : out = ((buf ++ List.replicate (padLen 8 buf.length) 0)
                    ++ [i, 1, 117, 0]) ++ (nb ++ t) := by
                  rw [ht, ← heq]
                  simp [List.append_assoc]
                have hlt : buf.length + padLen 8 buf.length < out.length := by
                  rw [hout2]
                  simp
                have hI : out.get? (buf.length + padLen 8 buf.length) = some i := by
                  rw [hout2]
                  exact get?_at (by simp)
                have hC : out.get? (buf.length + padLen 8 buf.length + 2) = some 117 := by
                  rw [hout3]
                  exact get?_at (by simp [Nat.add_assoc])
                rw [decodeFields_entry_u bo out f _ G i hlt hI hC]
                rw [show (out.drop (buf.length + padLen 8 buf.length + 4)).take 4 = nb from by
                  rw [hout4, List.drop_left' (by simp [Nat.add_assoc])]
                  exact List.take_left' hnb4]
                rw [show fromBytesU bo nb = n from by
                  have := (intToBytes_unsigned_inv hnb).2.2
                  exact_mod_cast this]
                rw [setIdx_eq_setIdxF G i _ hbounds.1 hbounds.2, Option.some_bind]
                rw [show buf.length + padLen 8 buf.length + 4 + 4 = buf1.length from by
                  rw [← heq]
                  simp [hnb4]
                  omega]
                exact ih buf1 out (setIdxF G i (.u n)) f hokr h3 hfr
          · rw [if_neg h117] at hb1
            cases v with
            | u n => exact Option.noConfusion hb1
            | s bs =>
                have hb2 : (if code = 103 then
                    (if bs.length < 256 then
                      some (buf ++ (List.replicate (padLen 8 buf.length) 0 ++ [i, 1, code, 0])
                        ++ [bs.length] ++ bs ++ [0])
                    else none)
                  else
                    (intToBytes 4 false bo (bs.length : Int)).map fun lb =>
                      buf ++ (List.replicate (padLen 8 buf.length) 0 ++ [i, 1, code, 0])
                        ++ lb ++ bs ++ [0]) = some buf1 := hb1
                by_cases h103 : code = 103
                · subst h103
                  rw [if_pos rfl] at hb2
                  by_cases hlen : bs.length < 256
                  · rw [if_pos hlen] at hb2
                    have heq := Option.some.inj hb2
                    have hout2 : out = (buf ++ List.replicate (padLen 8 buf.length) 0)
                        ++ (i :: 1 :: 103 :: 0 :: (bs.length :: (bs ++ ([0] ++ t)))) := by
                      rw [ht, ← heq]
                      simp [List.append_assoc]
                    have hout3 : out = ((buf ++ List.replicate (padLen 8 buf.length) 0) ++ [i, 1])
                        ++ (103 :: 0 :: (bs.length :: (bs ++ ([0] ++ t)))) := by
                      rw [ht, ← heq]
                      simp [List.append_assoc]
                    have hout4 : out = ((buf ++ List.replicate (padLen 8 buf.length) 0)
                        ++ [i, 1, 103, 0]) ++ (bs.length :: (bs ++ ([0] ++ t))) := by
                      rw [ht, ← heq]
                      simp [List.append_assoc]
                    have hout5 : out = ((buf ++ List.replicate (padLen 8 buf.length) 0)
                        ++ [i, 1, 103, 0, bs.length]) ++ (bs ++ ([0] ++ t)) := by
                      rw [ht, ← heq]
                      simp [List.append_assoc]
                    have hlt : buf.length + padLen 8 buf.length < out.length := by
                      rw [hout2]
                      simp
                    have hI : out.get? (buf.length + padLen 8 buf.length) = some i := by
                      rw [hout2]
                      exact get?_at (by simp)
                    have hC : out.get? (buf.length + padLen 8 buf.length + 2) = some 103 := by
                      rw [hout3]
                      exact get?_at (by simp [Nat.add_assoc])
                    have hL : out.get? (buf.length + padLen 8 buf.length + 4)
                        = some bs.length := by
                      rw [hout4]
                      exact get?_at (by simp [Nat.add_assoc])
                    rw [decodeFields_entry_g bo out f _ G i bs.length hlt hI hC hL]
                    rw [show (out.drop (buf.length + padLen 8 buf.length + 4 + 1)).take bs.length
                        = bs from by
                      rw [hout5, List.drop_left' (by simp [Nat.add_assoc])]
                      exact List.take_left' rfl]
                    rw [setIdx_eq_setIdxF G i _ hbounds.1 hbounds.2, Option.some_bind]
                    rw [show buf.length + padLen 8 buf.length + 4 + 1 + bs.length + 1
                        = buf1.length from by
                      rw [← heq]
                      simp
                      omega]
                    exact ih buf1 out (setIdxF G i (.s bs)) f hokr h3 hfr
                  · rw [if_neg hlen] at hb2
                    exact Option.noConfusion hb2
                · rw [if_neg h103] at hb2
                  simp only [Option.map_eq_some'] at hb2
                  obtain ⟨lb, hlb, heq⟩ := hb2
                  have hlb4 : lb.length = 4 := intToBytes_length hlb
                  have hout2 : out = (buf ++ List.replicate (padLen 8 buf.length) 0)
                      ++ (i :: 1 :: code :: 0 :: (lb ++ (bs ++ ([0] ++ t)))) := by
                    rw [ht, ← heq]
                    simp [List.append_assoc]
                  have hout3 : out = ((buf ++ List.replicate (padLen 8 buf.length) 0) ++ [i, 1])
                      ++ (code :: 0 :: (lb ++ (bs ++ ([0] ++ t)))) := by
                    rw [ht, ← heq]
                    simp [List.append_assoc]
                  have hout4 : out = ((buf ++ List.replicate (padLen 8 buf.length) 0)
                      ++ [i, 1, code, 0]) ++ (lb ++ (bs ++ ([0] ++ t))) := by
                    rw [ht, ← heq]
                    simp [List.append_assoc]
                  have hout5 : out = (((buf ++ List.replicate (padLen 8 buf.length) 0)
                      ++ [i, 1, code, 0]) ++ lb) ++ (bs ++ ([0] ++ t)) := by
                    rw [ht, ← heq]
                    simp [List.append_assoc]
                  have hlt : buf.length + padLen 8 buf.length < out.length := by
                    rw [hout2]
                    simp
                  have hI : out.get? (buf.length + padLen 8 buf.length) = some i := by
                    rw [hout2]
                    exact get?_at (by simp)
                  have hC : out.get? (buf.length + padLen 8 buf.length + 2) = some code := by
                    rw [hout3]
                    exact get?_at (by simp [Nat.add_assoc])
                  rw [decodeFields_entry_s bo out f _ G i code hlt hI hC h103 h117]
                  rw [show (out.drop (buf.length + padLen 8 buf.length + 4)).take 4 = lb from by
                    rw [hout4, List.drop_left' (by simp [Nat.add_assoc])]
                    exact List.take_left' hlb4]
                  rw [show fromBytesU bo lb = bs.length from by
                    have := (intToBytes_unsigned_inv hlb).2.2
                    exact_mod_cast this]
                  rw [show (out.drop (buf.length + padLen 8 buf.length + 4 + 4)).take bs.length
                      = bs from by
                    rw [hout5, List.drop_left' (by simp [hlb4, Nat.add_assoc])]
                    exact List.take_left' rfl]
                  rw [setIdx_eq_setIdxF G i _ hbounds.1 hbounds.2, Option.some_bind]
                  rw [show buf.length + padLen 8 buf.length + 4 + 4 + bs.length + 1
                      = buf1.length from by
                    rw [← heq]
                    simp [hlb4]
                    omega]
                  exact ih buf1 out (setIdxF G i (.s bs)) f hokr h3 hfr

/-- C3: decoding the encoder's header-field array restores exactly the
encoded field map — every present field with an equal value, every
absent field still absent. -/
theorem C3_fields_roundtrip (bo : ByteOrder) (F : HeaderFields) (buf : List Nat)
    (h : DBusMarshal.fields bo F = some buf) :
    DBusUnmarshal.fields bo buf = some F := by
  have hok : ∀ e ∈ F.entries, 1 ≤ e.1 ∧ e.1 ≤ 9 := by
    intro e he
    simp only [HeaderFields.entries, List.mem_cons, List.not_mem_nil, or_false] at he
    rcases he with h1|h1|h1|h1|h1|h1|h1|h1|h1 <;> subst h1 <;> exact ⟨by omega, by omega⟩
  have henc : encodeFields bo F.entries [] = some buf := h
  have hgrow := encodeFields_growth bo F.entries [] buf henc
  have := decode_encoded bo F.entries [] buf {} (buf.length + 1) hok henc (by
    simp at hgrow
    omega)
  rw [show (([] : List Nat)).length + padLen 8 (([] : List Nat)).length = 0 from rfl] at this
  rw [applyEs_entries] at this
  exact this

/-- C1: for every well-formed signature/value pair — every single
complete type except `double`, with values of matching shape — and both
byte orders, decoding the encoder's output returns the original values.
(`double` is excluded: its decoder returns `struct.unpack`'s 1-tuple
instead of the float, see the counterexample.) -/
theorem C1_codec_roundtrip (bo : ByteOrder) (ts : List DType) (vs : List PyVal)
    (fuelM : Nat) (out : List Nat)
    (hts : goodTList ts = true) (hvs : goodVFields ts vs = true)
    (henc : DBusMarshal fuelM bo (sigOfList ts) vs = some out) :
    ∃ N, ∀ fuelU, N ≤ fuelU → DBusUnmarshal fuelU bo (sigOfList ts) out = some vs :=
  dbus_roundtrip bo ts vs fuelM out hts hvs henc

/-- C1 counterexample: a `double` value encodes fine but never decodes
back to itself — the decoder wraps it in a 1-tuple. -/
theorem C1_codec_roundtrip_counterexample :
    DBusMarshal 2 .little [100] [.vfloat [1, 2, 3, 4, 5, 6, 7, 8]]
      = some [1, 2, 3, 4, 5, 6, 7, 8]
    ∧ ∀ fuelU, DBusUnmarshal fuelU .little [100] [1, 2, 3, 4, 5, 6, 7, 8]
        ≠ some [.vfloat [1, 2, 3, 4, 5, 6, 7, 8]] := by
  refine ⟨by decide, ?_⟩
  intro fuelU
  cases fuelU with
  | zero => decide
  | succ g =>
      have h1 : DBusUnmarshal (g + 1) .little [100] [1, 2, 3, 4, 5, 6, 7, 8]
          = some [.vtuple [.vfloat [1, 2, 3, 4, 5, 6, 7, 8]]] := by
        rw [DBusUnmarshal, unmarshalTop_cons, unm1_double, if_pos (by decide)]
        rw [show ((UState.alignR 8 ⟨[1, 2, 3, 4, 5, 6, 7, 8], 0⟩).read 8)
            = ([1, 2, 3, 4, 5, 6, 7, 8], ⟨[1, 2, 3, 4, 5, 6, 7, 8], 8⟩) from by decide]
        rw [Option.some_bind, unmarshalTop_nil]
        rfl
      rw [h1]
      decide

theorem C1_codec_roundtrip_witness :
    goodTList [DType.uint32T] = true
    ∧ goodVFields [DType.uint32T] [.vint 7] = true
    ∧ DBusMarshal 1 .little (sigOfList [DType.uint32T]) [.vint 7] = some [7, 0, 0, 0]
    ∧ ∃ N, ∀ fuelU, N ≤ fuelU →
        DBusUnmarshal fuelU .little (sigOfList [DType.uint32T]) [7, 0, 0, 0]
          = some [.vint 7] :=
  ⟨by decide, by decide, by decide,
    C1_codec_roundtrip .little [DType.uint32T] [.vint 7] 1 [7, 0, 0, 0]
      (by decide) (by decide) (by decide)⟩

/-- C2 counterexample: encoding `a(yy)` with one `(1, 2)` element emits
the length word `6`, counting the four zero bytes of 8-alignment padding
before the struct element as well as its two data bytes — not the `2`
the claim predicts. -/
theorem C2_array_length_counterexample :
    DBusMarshal 9 .little [97, 40, 121, 121, 41] [.vlist [.vtuple [.vint 1, .vint 2]]]
      = some [6, 0, 0, 0, 0, 0, 0, 0, 1, 2]
    ∧ fromBytesU .little [6, 0, 0, 0] = 6
    ∧ (6 : Nat) ≠ 2 := by
  refine ⟨by decide, by decide, by decide⟩

theorem C2_array_length_witness :
    (⟨[], 0⟩ : MState).pos = (⟨[], 0⟩ : MState).data.length
    ∧ marshal1 .little (8 + 1) 97 (40 :: [121, 121, 41])
        (.vlist [.vtuple [.vint 1, .vint 2]]) ⟨[], 0⟩
        = some ([], ⟨[6, 0, 0, 0, 0, 0, 0, 0, 1, 2], 10⟩)
    ∧ ∃ lenB deltaI,
        intToBytes 4 false .little (deltaI.length : Int) = some lenB ∧
        (⟨[6, 0, 0, 0, 0, 0, 0, 0, 1, 2], 10⟩ : MState).data = (⟨[], 0⟩ : MState).data
          ++ (List.replicate (padLen 4 (⟨[], 0⟩ : MState).data.length) 0 ++ (lenB ++ deltaI)) :=
  ⟨rfl, by decide,
    C2_array_length .little 8 40 [121, 121, 41] [.vtuple [.vint 1, .vint 2]]
      ⟨[], 0⟩ [] ⟨[6, 0, 0, 0, 0, 0, 0, 0, 1, 2], 10⟩ rfl (by decide)⟩

theorem C3_fields_roundtrip_witness :
    DBusMarshal.fields .little
        { path := some (.s [47, 120]), member := some (.s [77]) }
      = some [1, 1, 111, 0, 2, 0, 0, 0, 47, 120, 0, 0, 0, 0, 0, 0,
              3, 1, 115, 0, 1, 0, 0, 0, 77, 0]
    ∧ DBusUnmarshal.fields .little
        [1, 1, 111, 0, 2, 0, 0, 0, 47, 120, 0, 0, 0, 0, 0, 0,
         3, 1, 115, 0, 1, 0, 0, 0, 77, 0]
      = some { path := some (.s [47, 120]), member := some (.s [77]) } :=
  ⟨by decide,
    C3_fields_roundtrip .little
      { path := some (.s [47, 120]), member := some (.s [77]) }
      [1, 1, 111, 0, 2, 0, 0, 0, 47, 120, 0, 0, 0, 0, 0, 0,
       3, 1, 115, 0, 1, 0, 0, 0, 77, 0] (by decide)⟩

theorem C5_recv_first_match_witness :
    DBus.recv 5 ⟨1, false⟩ [] [some (.vint 7)] ([] ++ (msgWithBody :: []))
      = some msgWithBody :=
  (C5_recv_first_match 5 ⟨1, false⟩ [] [some (.vint 7)]).1 [] msgWithBody []
    (by intro m' hm'; cases hm') (by decide) (by decide)

theorem C6_match_characterization_witness :
    msgWithBody.matches 5 [] [some (.vint 7)]
      = some (posMatch [some (.vint 7)] [.vint 7]) :=
  (C6_match_characterization 5 msgWithBody [] [some (.vint 7)]
      { signature := some (.s [121]) } (by decide)).2.2.1
    [.vint 7] (by decide) (by decide) (by decide)

theorem C7_boolean_decode_witness :
    ([5, 0, 0, 0] : List Nat).length = 4
    ∧ ([] : List Nat).length % 4 = 0
    ∧ unmarshal1 .little 3 98 [] ⟨[] ++ ([5, 0, 0, 0] ++ []), ([] : List Nat).length⟩
        = some (.vbool (([5, 0, 0, 0] : List Nat) ≠ [0, 0, 0, 0] : Bool), [],
                ⟨[] ++ ([5, 0, 0, 0] ++ []), ([] : List Nat).length + 4⟩) :=
  ⟨by decide, by decide,
    C7_boolean_decode .little 3 [] [] [5, 0, 0, 0] [] (by decide) (by decide)⟩

theorem C9_setattr_setitem_witness :
    msgWithBody.setattr 0 "type" (.num 4)
      = some { data := [108, 4, 0, 1, 1, 0, 0, 0, 9, 0, 0, 0, 8, 0, 0, 0,
                        8, 1, 103, 0, 1, 121, 0, 0, 7],
               byteorder := .little, length := (16, 8, 0, 1) }
    ∧ ({ data := [108, 4, 0, 1, 1, 0, 0, 0, 9, 0, 0, 0, 8, 0, 0, 0,
                  8, 1, 103, 0, 1, 121, 0, 0, 7],
         byteorder := .little, length := (16, 8, 0, 1) } : DBusMessage).data
        = msgWithBody.data.set 1 4
      ∧ ({ data := [108, 4, 0, 1, 1, 0, 0, 0, 9, 0, 0, 0, 8, 0, 0, 0,
                    8, 1, 103, 0, 1, 121, 0, 0, 7],
           byteorder := .little, length := (16, 8, 0, 1) } : DBusMessage).byteorder
          = msgWithBody.byteorder
      ∧ ({ data := [108, 4, 0, 1, 1, 0, 0, 0, 9, 0, 0, 0, 8, 0, 0, 0,
                    8, 1, 103, 0, 1, 121, 0, 0, 7],
           byteorder := .little, length := (16, 8, 0, 1) } : DBusMessage).length
          = msgWithBody.length :=
  ⟨by decide,
    C9_setattr_setitem.2.2.1 msgWithBody 0 4 _ (by decide)⟩

theorem C10_dictentry_popitem_witness :
    ([((PyVal.vint 1), PyVal.vint 2)] : List (PyVal × PyVal)) ≠ []
    ∧ ∃ kv, dict_popitem [((PyVal.vint 1), PyVal.vint 2)]
        = some (kv, ([((PyVal.vint 1), PyVal.vint 2)] : List (PyVal × PyVal)).dropLast) :=
  ⟨by decide, C10_dictentry_popitem.2.1 [((PyVal.vint 1), PyVal.vint 2)] (by decide)⟩
